import Mathlib

/-!
Shallow embedding, in Lean 4, of the configuration-resolution engine, volume
identity codec, mount/unmount orchestration and controller protocol handlers of
the BeeGFS CSI driver, together with proofs about them.

Go `map[string]string` values are modelled as association lists with unique
keys; Go slices as `List`; Go strings as `String` (UTF-8 byte counts are made
explicit where Go's `len` matters).  Fallible Go functions are modelled with
`Except`/`Option`.
-/

namespace BeegfsCsi

/-- Lookup in an association list modelling a Go `map[string]string`. -/
def mapLookup (k : String) : List (String × String) → Option String
  | [] => none
  | (k', v) :: rest => if k' = k then some v else mapLookup k rest

/-- Go `m[k] = v`: replace the binding for `k` if present, else append it. -/
def mapInsert (m : List (String × String)) (k v : String) : List (String × String) :=
  match m with
  | [] => [(k, v)]
  | (k', v') :: rest => if k' = k then (k, v) :: rest else (k', v') :: mapInsert rest k v

/-- Go `for k, v := range extra { m[k] = v }`. -/
def mapUnion (m extra : List (String × String)) : List (String × String) :=
  extra.foldl (fun acc kv => mapInsert acc kv.1 kv.2) m

/-- Go `delete(m, k)`. -/
def mapErase (m : List (String × String)) (k : String) : List (String × String) :=
  m.filter (fun kv => kv.1 ≠ k)

/-- Keys of an association list. -/
def mapKeys (m : List (String × String)) : List String := m.map Prod.fst

theorem mapLookup_eq_none_of_not_mem (m : List (String × String)) (k : String)
    (h : k ∉ mapKeys m) : mapLookup k m = none := by
  induction m with
  | nil => rfl
  | cons hd tl ih =>
    obtain ⟨hk, hv⟩ := hd
    simp only [mapKeys, List.map_cons, List.mem_cons, not_or] at h
    have hne : ¬ hk = k := fun he => h.1 he.symm
    simpa [mapLookup, hne] using ih h.2

theorem mapLookup_mapInsert (m : List (String × String)) (k v k' : String) :
    mapLookup k' (mapInsert m k v) = if k = k' then some v else mapLookup k' m := by
  induction m with
  | nil => simp [mapInsert, mapLookup]
  | cons hd tl ih =>
    obtain ⟨hk, hv⟩ := hd
    by_cases h1 : hk = k
    · subst h1
      by_cases h2 : hk = k' <;> simp [mapInsert, mapLookup, h2]
    · by_cases h2 : hk = k'
      · subst h2
        have hne : ¬ k = hk := fun h => h1 h.symm
        simp [mapInsert, mapLookup, h1, hne]
      · simp [mapInsert, mapLookup, h1, h2, ih]

theorem mapLookup_mapUnion (m extra : List (String × String))
    (hnd : (mapKeys extra).Nodup) (k : String) :
    mapLookup k (mapUnion m extra) = (mapLookup k extra).orElse (fun _ => mapLookup k m) := by
  induction extra generalizing m with
  | nil => simp [mapUnion, mapLookup, Option.orElse]
  | cons hd tl ih =>
    obtain ⟨hk, hv⟩ := hd
    simp only [mapKeys, List.map_cons, List.nodup_cons] at hnd
    have hstep : mapUnion m ((hk, hv) :: tl) = mapUnion (mapInsert m hk hv) tl := rfl
    rw [hstep, ih _ hnd.2]
    by_cases h : hk = k
    · subst h
      have h1 : mapLookup hk tl = none :=
        mapLookup_eq_none_of_not_mem tl hk hnd.1
      have h2 : mapLookup hk (mapInsert m hk hv) = some hv := by
        simp [mapLookup_mapInsert]
      simp [mapLookup, h1, h2, Option.orElse]
    · have hne : ¬ hk = k := h
      have h2 : mapLookup k (mapInsert m hk hv) = mapLookup k m := by
        simp [mapLookup_mapInsert, hne]
      simp [mapLookup, hne, h2]

theorem mapKeys_mapInsert (m : List (String × String)) (k v : String) :
    mapKeys (mapInsert m k v) = if k ∈ mapKeys m then mapKeys m else mapKeys m ++ [k] := by
  induction m with
  | nil => simp [mapInsert, mapKeys]
  | cons hd tl ih =>
    obtain ⟨hk, hv⟩ := hd
    by_cases h1 : hk = k
    · subst h1
      simp [mapInsert, mapKeys]
    · have hne : ¬ k = hk := fun he => h1 he.symm
      simp only [mapInsert, if_neg h1, mapKeys, List.map_cons] at ih ⊢
      rw [ih]
      by_cases h2 : k ∈ List.map Prod.fst tl <;> simp [h2, hne]

theorem mapKeys_mapUnion_nodup (m extra : List (String × String))
    (hm : (mapKeys m).Nodup) : (mapKeys (mapUnion m extra)).Nodup := by
  induction extra generalizing m with
  | nil => exact hm
  | cons hd tl ih =>
    have hstep : mapUnion m (hd :: tl) = mapUnion (mapInsert m hd.1 hd.2) tl := rfl
    rw [hstep]
    apply ih
    rw [mapKeys_mapInsert]
    by_cases h : hd.1 ∈ mapKeys m
    · simpa [h] using hm
    · simp only [if_neg h]
      refine List.Nodup.append hm (List.nodup_singleton _) ?_
      intro x hx hy
      simp only [List.mem_singleton] at hy
      subst hy
      exact h hx

/-! ## Configuration data model (src/unnamed/part_000) -/

/-- Go `noEffectBeegfsConfOptions`: parameters that have no effect when specified in the
beeGFSClientConf configuration section. -/
def noEffectBeegfsConfOptions : List String :=
  ["sysMgmtdHost", "connClientPortUDP", "connPortShift"]

/-- Go `unsupportedBeegfsConfOptions`: parameters that are unsupported when specified in
the beeGFSClientConf configuration section. -/
def unsupportedBeegfsConfOptions : List String :=
  ["connInterfacesFile", "connNetFilterFile", "connTcpOnlyFilterFile", "connAuthFile"]

/-- Go `beegfsConfig`: custom configuration associated with a single BeeGFS file system
except for sysMgmtdHost.  `connAuth` is unexported in Go with no yaml tag, so it cannot
be set from a configuration file. -/
structure beegfsConfig where
  ConnInterfaces : List String := []
  ConnNetFilter : List String := []
  ConnTcpOnlyFilter : List String := []
  BeegfsClientConf : List (String × String) := []
  connAuth : String := ""
deriving DecidableEq

/-- Go `newBeegfsConfig()`: the zero configuration with an empty client-conf map. -/
def newBeegfsConfig : beegfsConfig := {}

/-- Go `FileSystemSpecificConfig`: associates a beegfsConfig with a sysMgmtdHost. -/
structure FileSystemSpecificConfig where
  SysMgmtdHost : String
  Config : beegfsConfig
deriving DecidableEq

/-- Go `nodeSpecificConfig`: a default beegfsConfig and file-system-specific
configurations scoped to a list of nodes. -/
structure nodeSpecificConfig where
  NodeList : List String
  DefaultConfig : beegfsConfig
  FileSystemSpecificConfigs : List FileSystemSpecificConfig
deriving DecidableEq

/-- Go `PluginConfig`: the configuration maintained for the life of the running
plugin. -/
structure PluginConfig where
  DefaultConfig : beegfsConfig
  FileSystemSpecificConfigs : List FileSystemSpecificConfig
deriving DecidableEq

/-- Go `pluginConfigFromFile`: a PluginConfig plus node specific configurations, as
unmarshalled from the configuration file. -/
structure pluginConfigFromFile where
  PluginConfig : PluginConfig
  NodeSpecificConfigs : List nodeSpecificConfig
deriving DecidableEq

/-- Go `connAuthConfig`: associates a ConnAuth secret with a SysMgmtdHost. -/
structure connAuthConfig where
  SysMgmtdHost : String
  ConnAuth : String
deriving DecidableEq

/-- Go `(c *beegfsConfig) overwriteFrom(writeFrom beegfsConfig)`: ONLY overwrites
configuration in the receiver that is also defined in writeFrom.  Non-empty slices
replace wholesale (Go copies into a fresh slice); a non-empty connAuth replaces; the
BeegfsClientConf map is merged key by key. -/
def beegfsConfig.overwriteFrom (c writeFrom : beegfsConfig) : beegfsConfig where
  ConnInterfaces :=
    if writeFrom.ConnInterfaces.length ≠ 0 then writeFrom.ConnInterfaces else c.ConnInterfaces
  ConnNetFilter :=
    if writeFrom.ConnNetFilter.length ≠ 0 then writeFrom.ConnNetFilter else c.ConnNetFilter
  ConnTcpOnlyFilter :=
    if writeFrom.ConnTcpOnlyFilter.length ≠ 0 then writeFrom.ConnTcpOnlyFilter
    else c.ConnTcpOnlyFilter
  connAuth := if writeFrom.connAuth ≠ "" then writeFrom.connAuth else c.connAuth
  BeegfsClientConf := mapUnion c.BeegfsClientConf writeFrom.BeegfsClientConf

/-- C2: for every pair of configuration fragments merged by `overwriteFrom`, map-valued
fields merge key by key (keys set in the later fragment win, keys it does not set are
untouched), while list-valued fields replace wholesale when the later fragment sets them
non-empty, and are left unchanged when it does not. -/
theorem overwriteFrom_map_additive_lists_replace (c w : beegfsConfig)
    (hw : (mapKeys w.BeegfsClientConf).Nodup) :
    (∀ k, mapLookup k (c.overwriteFrom w).BeegfsClientConf
        = ((mapLookup k w.BeegfsClientConf).orElse (fun _ => mapLookup k c.BeegfsClientConf)))
    ∧ (w.ConnInterfaces ≠ [] → (c.overwriteFrom w).ConnInterfaces = w.ConnInterfaces)
    ∧ (w.ConnInterfaces = [] → (c.overwriteFrom w).ConnInterfaces = c.ConnInterfaces)
    ∧ (w.ConnNetFilter ≠ [] → (c.overwriteFrom w).ConnNetFilter = w.ConnNetFilter)
    ∧ (w.ConnNetFilter = [] → (c.overwriteFrom w).ConnNetFilter = c.ConnNetFilter)
    ∧ (w.ConnTcpOnlyFilter ≠ [] → (c.overwriteFrom w).ConnTcpOnlyFilter = w.ConnTcpOnlyFilter)
    ∧ (w.ConnTcpOnlyFilter = [] → (c.overwriteFrom w).ConnTcpOnlyFilter = c.ConnTcpOnlyFilter) := by
  refine ⟨fun k => mapLookup_mapUnion _ _ hw k, ?_, ?_, ?_, ?_, ?_, ?_⟩ <;>
    intro h <;> simp [beegfsConfig.overwriteFrom, h]

/-- C2 witness: merging the map `{a ↦ 1}` with `{b ↦ 2}` yields `{a ↦ 1, b ↦ 2}`, and
merging the list `[x, y]` with `[z]` yields `[z]`, never `[x, y, z]`. -/
theorem overwriteFrom_map_additive_lists_replace_witness :
    (mapKeys ({ BeegfsClientConf := [("b", "2")] } : beegfsConfig).BeegfsClientConf).Nodup
    ∧ mapLookup "a"
        (beegfsConfig.overwriteFrom { BeegfsClientConf := [("a", "1")] }
          { BeegfsClientConf := [("b", "2")] }).BeegfsClientConf = some "1"
    ∧ mapLookup "b"
        (beegfsConfig.overwriteFrom { BeegfsClientConf := [("a", "1")] }
          { BeegfsClientConf := [("b", "2")] }).BeegfsClientConf = some "2"
    ∧ (beegfsConfig.overwriteFrom { ConnInterfaces := ["x", "y"] }
        { ConnInterfaces := ["z"] }).ConnInterfaces = ["z"] := by
  have hnd : (mapKeys ({ BeegfsClientConf := [("b", "2")] } : beegfsConfig).BeegfsClientConf).Nodup := by
    decide
  have h := overwriteFrom_map_additive_lists_replace
    { BeegfsClientConf := [("a", "1")] } { BeegfsClientConf := [("b", "2")] } hnd
  refine ⟨hnd, ?_, ?_, ?_⟩
  · rw [h.1 "a"]; decide
  · rw [h.1 "b"]; decide
  · exact (overwriteFrom_map_additive_lists_replace { ConnInterfaces := ["x", "y"] }
      { ConnInterfaces := ["z"] } (by decide)).2.1 (by decide)

/-! ## Configuration merge pipeline (src/unnamed/part_000) -/

/-- One step of Go `overwriteFileSystemSpecificConfigs`: a single writeFrom entry
overwrites every writeTo entry with the same sysMgmtdHost, or is appended if none
matches. -/
def overwriteFileSystemSpecificConfigsOne (writeTo : List FileSystemSpecificConfig)
    (wf : FileSystemSpecificConfig) : List FileSystemSpecificConfig :=
  if writeTo.any (fun wt => wt.SysMgmtdHost == wf.SysMgmtdHost) then
    writeTo.map (fun wt =>
      if wt.SysMgmtdHost = wf.SysMgmtdHost then
        { wt with Config := wt.Config.overwriteFrom wf.Config }
      else wt)
  else writeTo ++ [wf]

/-- Go `overwriteFileSystemSpecificConfigs(writeTo, writeFrom)`. -/
def overwriteFileSystemSpecificConfigs (writeTo writeFrom : List FileSystemSpecificConfig) :
    List FileSystemSpecificConfig :=
  writeFrom.foldl overwriteFileSystemSpecificConfigsOne writeTo

/-- Go `parseConfigFromFile`, node-override stage: every node-scoped fragment whose
NodeList contains nodeID is folded into the plugin config, in file order (file I/O and
YAML unmarshalling are outside the model: the unmarshalled `pluginConfigFromFile` is
the input). -/
def applyNodeSpecificConfigs (raw : pluginConfigFromFile) (nodeID : String) : PluginConfig :=
  raw.NodeSpecificConfigs.foldl
    (fun acc nodeConfig =>
      if nodeConfig.NodeList.contains nodeID then
        { DefaultConfig := acc.DefaultConfig.overwriteFrom nodeConfig.DefaultConfig
          FileSystemSpecificConfigs := overwriteFileSystemSpecificConfigs
            acc.FileSystemSpecificConfigs nodeConfig.FileSystemSpecificConfigs }
      else acc)
    raw.PluginConfig

/-- Go `parseConnAuthFromFile` inner loop: set connAuth on the first
FileSystemSpecificConfig with a matching sysMgmtdHost (the Go loop breaks after the
first match). -/
def setConnAuthOnFirstMatch :
    List FileSystemSpecificConfig → connAuthConfig → List FileSystemSpecificConfig
  | [], _ => []
  | sc :: rest, ca =>
    if ca.SysMgmtdHost = sc.SysMgmtdHost then
      { sc with Config := { sc.Config with connAuth := ca.ConnAuth } } :: rest
    else sc :: setConnAuthOnFirstMatch rest ca

/-- Go `parseConnAuthFromFile`, for a single connAuth entry: overwrite the first
matching FileSystemSpecificConfig, or append a new one holding only the secret. -/
def applyConnAuthConfig (cfg : PluginConfig) (ca : connAuthConfig) : PluginConfig :=
  if cfg.FileSystemSpecificConfigs.any (fun sc => ca.SysMgmtdHost == sc.SysMgmtdHost) then
    { cfg with FileSystemSpecificConfigs :=
        setConnAuthOnFirstMatch cfg.FileSystemSpecificConfigs ca }
  else
    { cfg with FileSystemSpecificConfigs := cfg.FileSystemSpecificConfigs ++
        [{ SysMgmtdHost := ca.SysMgmtdHost, Config := { connAuth := ca.ConnAuth } }] }

/-- Go `parseConnAuthFromFile` (file I/O and YAML unmarshalling outside the model):
folds every connAuth entry into the plugin config, in file order. -/
def parseConnAuth (cfg : PluginConfig) (connAuthConfigs : List connAuthConfig) : PluginConfig :=
  connAuthConfigs.foldl applyConnAuthConfig cfg

/-- Go `squashConfigForSysMgmtdHost(sysMgmtdHost, config)` (src/pkg/beegfs/beegfs_util.go):
the DefaultConfig overwritten by every FileSystemSpecificConfig for this host, in order. -/
def squashConfigForSysMgmtdHost (sysMgmtdHost : String) (config : PluginConfig) : beegfsConfig :=
  config.FileSystemSpecificConfigs.foldl
    (fun returnConfig f =>
      if sysMgmtdHost = f.SysMgmtdHost then returnConfig.overwriteFrom f.Config
      else returnConfig)
    (newBeegfsConfig.overwriteFrom config.DefaultConfig)

/-! ## Validation (src/unnamed/part_000, `PluginConfig.validateConfig`)

`net.ParseIP`, `net.ParseCIDR` and the compiled domain regular expression are embedded
below with Go 1.16 semantics. -/

/-- Decimal value of a digit list. -/
def decValue (l : List Char) : Nat :=
  l.foldl (fun n c => n * 10 + (c.toNat - '0'.toNat)) 0

/-- Hexadecimal value of a hex-digit list. -/
def hexValue (l : List Char) : Nat :=
  l.foldl (fun n c =>
    n * 16 + (if c.isDigit then c.toNat - '0'.toNat
      else if decide ('a' ≤ c) && decide (c ≤ 'f') then c.toNat - 'a'.toNat + 10
      else c.toNat - 'A'.toNat + 10)) 0

/-- Hexadecimal digit test (both cases), as used by Go `xtoi`. -/
def isHexChar (c : Char) : Bool :=
  c.isDigit || (decide ('a' ≤ c) && decide (c ≤ 'f')) || (decide ('A' ≤ c) && decide (c ≤ 'F'))

/-- Split a character list on every occurrence of one character (the `List Char`
counterpart of Go `strings.Split` on a one-byte separator). -/
def splitOnChar (c : Char) : List Char → List (List Char)
  | [] => [[]]
  | x :: rest =>
    match splitOnChar c rest with
    | [] => if x = c then [[], []] else [[x]]
    | s :: ss => if x = c then [] :: s :: ss else (x :: s) :: ss

/-- Split a character list on every non-overlapping occurrence of `::` (Go
`strings.Split(s, "::")`). -/
def splitOnDoubleColon : List Char → List (List Char)
  | [] => [[]]
  | ':' :: ':' :: rest =>
    match splitOnDoubleColon rest with
    | [] => [[], []]
    | s :: ss => [] :: s :: ss
  | x :: rest =>
    match splitOnDoubleColon rest with
    | [] => [[x]]
    | s :: ss => (x :: s) :: ss

/-- Go `parseIPv4`: four dot-separated decimal fields, each non-empty, all digits and of
value at most 255 (Go 1.16: leading zeros are allowed; a field whose decimal value
overflows Go's `dtoi` bound also fails the at-most-255 test). -/
def parseIPv4ok (s : List Char) : Bool :=
  let fields := splitOnChar '.' s
  fields.length == 4 &&
    fields.all (fun f => !f.isEmpty && f.all Char.isDigit && decide (decValue f ≤ 255))

/-- Go `parseIPv6`, modelled by group counting (behaviourally equivalent to the byte
loop in Go's net package for zone-free literals): at most one `::`; every group is
non-empty hex of value at most 0xFFFF, except that the final group may be an embedded
dotted IPv4 address counting as two groups; exactly 8 groups without `::`, at most 7
with it. -/
def parseIPv6GroupCount : List (List Char) → Option Nat
  | [] => some 0
  | [last] =>
    if !last.isEmpty && last.all isHexChar && decide (hexValue last ≤ 0xFFFF) then
      some 1
    else if last.contains '.' && parseIPv4ok last then some 2
    else none
  | g :: rest =>
    if !g.isEmpty && g.all isHexChar && decide (hexValue g ≤ 0xFFFF) then
      (parseIPv6GroupCount rest).map (fun n => n + 1)
    else none

/-- Go `parseIPv6` (success only). -/
def parseIPv6ok (s : List Char) : Bool :=
  match splitOnDoubleColon s with
  | [whole] =>
    match parseIPv6GroupCount (splitOnChar ':' whole) with
    | some n => n == 8
    | none => false
  | [l, r] =>
    let lc := if l.isEmpty then some 0 else parseIPv6GroupCount (splitOnChar ':' l)
    let rc := if r.isEmpty then some 0 else parseIPv6GroupCount (splitOnChar ':' r)
    match lc, rc with
    | some nl, some nr => decide (nl + nr ≤ 7)
    | _, _ => false
  | _ => false

/-- Go `net.ParseIP`: the first `.` or `:` decides between IPv4 and IPv6 parsing; a
string with neither is not an IP. -/
def goParseIPok (s : String) : Bool :=
  match s.toList.find? (fun c => c == '.' || c == ':') with
  | some '.' => parseIPv4ok s.toList
  | some ':' => parseIPv6ok s.toList
  | _ => false

/-- Go `net.ParseCIDR` (success only): an address, a `/`, and a full-decimal prefix
length of at most 32 (IPv4 address) or 128 (IPv6 address). -/
def splitFirstAux (c : Char) : List Char → Option (List Char × List Char)
  | [] => none
  | x :: rest =>
    if x = c then some ([], rest)
    else (splitFirstAux c rest).map (fun p => (x :: p.1, p.2))

/-- Go `net.ParseCIDR` success test. -/
def goParseCIDRok (s : String) : Bool :=
  match splitFirstAux '/' s.toList with
  | none => false
  | some (addr, mask) =>
    let maskOk (bits : Nat) : Bool :=
      !mask.isEmpty && mask.all Char.isDigit && decide (decValue mask ≤ bits)
    if parseIPv4ok addr then maskOk 32
    else if parseIPv6ok addr then maskOk 128
    else false

/-! Matcher for the Go domain regular expression
`^(?:[_a-z0-9](?:[_a-z0-9-]{0,61}[a-z0-9]\.)|(?:[0-9]+/[0-9]{2})\.)+(?:[a-z](?:[a-z0-9-]{0,61}[a-z0-9])?)?$`
as compiled by `regexp.MustCompile` in `validateConfig`.  A matcher maps an input
character list to the list of possible remainders after a match. -/

/-- Matcher: a single character of a class. -/
def mOne (p : Char → Bool) : List Char → List (List Char)
  | [] => []
  | c :: rest => if p c then [rest] else []

/-- Matcher: between 0 and `n` characters of a class (all intermediate remainders). -/
def mUpTo (p : Char → Bool) : Nat → List Char → List (List Char)
  | _, [] => [[]]
  | 0, s => [s]
  | n + 1, c :: rest => (c :: rest) :: (if p c then mUpTo p n rest else [])

/-- Matcher: one or more characters of a class. -/
def mMany1 (p : Char → Bool) : List Char → List (List Char)
  | [] => []
  | c :: rest => if p c then rest :: mMany1 p rest else []

/-- Matcher sequencing. -/
def mSeq (m1 m2 : List Char → List (List Char)) (s : List Char) : List (List Char) :=
  (m1 s).flatMap m2

/-- Matcher alternation. -/
def mAlt (m1 m2 : List Char → List (List Char)) (s : List Char) : List (List Char) :=
  m1 s ++ m2 s

/-- Matcher option (`?`). -/
def mOpt (m : List Char → List (List Char)) (s : List Char) : List (List Char) :=
  s :: m s

/-- Matcher repetition (`+`), fuelled; every repetition of the body consumes at least
one character here, so fuel `length + 1` is exhaustive. -/
def mPlus (m : List Char → List (List Char)) : Nat → List Char → List (List Char)
  | 0, _ => []
  | fuel + 1, s => (m s).flatMap (fun r => r :: mPlus m fuel r)

/-- Character class `[_a-z0-9]`. -/
def clsUnderLowerDigit (c : Char) : Bool := c == '_' || c.isLower || c.isDigit

/-- Character class `[_a-z0-9-]`. -/
def clsUnderLowerDigitDash (c : Char) : Bool := clsUnderLowerDigit c || c == '-'

/-- Character class `[a-z0-9]`. -/
def clsLowerDigit (c : Char) : Bool := c.isLower || c.isDigit

/-- Character class `[a-z0-9-]`. -/
def clsLowerDigitDash (c : Char) : Bool := clsLowerDigit c || c == '-'

/-- First alternative of the repeated group:
`[_a-z0-9](?:[_a-z0-9-]{0,61}[a-z0-9]\.)`. -/
def domainAltLabel : List Char → List (List Char) :=
  mSeq (mOne clsUnderLowerDigit)
    (mSeq (mUpTo clsUnderLowerDigitDash 61) (mSeq (mOne clsLowerDigit) (mOne (· == '.'))))

/-- Second alternative of the repeated group: `(?:[0-9]+/[0-9]{2})\.`. -/
def domainAltNumeric : List Char → List (List Char) :=
  mSeq (mMany1 Char.isDigit)
    (mSeq (mOne (· == '/')) (mSeq (mOne Char.isDigit) (mSeq (mOne Char.isDigit) (mOne (· == '.')))))

/-- Optional tail: `(?:[a-z](?:[a-z0-9-]{0,61}[a-z0-9])?)?`. -/
def domainTail : List Char → List (List Char) :=
  mOpt (mSeq (mOne Char.isLower) (mOpt (mSeq (mUpTo clsLowerDigitDash 61) (mOne clsLowerDigit))))

/-- Go `domainRegex.MatchString`: the whole string matches the anchored regex. -/
def domainRegexMatch (s : String) : Bool :=
  let l := s.toList
  (mSeq (fun t => mPlus (mAlt domainAltLabel domainAltNumeric) (t.length + 1) t) domainTail l).any
    List.isEmpty

/-- Error taxonomy of `validateConfig`; each error names the offending field value. -/
inductive configError where
  | invalidSysMgmtdHost (host : String)
  | invalidConnNetFilter (filter : String)
  | invalidConnTcpOnlyFilter (filter : String)
deriving DecidableEq

/-- Go: sysMgmtdHost can be localhost, an IP address, or a domain name. -/
def sysMgmtdHostOk (h : String) : Bool :=
  h == "localhost" || goParseIPok h || domainRegexMatch h

/-- Go: a network filter entry must parse as a CIDR or as an IP. -/
def filterOk (f : String) : Bool := goParseCIDRok f || goParseIPok f

/-- First loop of `validateConfig`: reject the first invalid sysMgmtdHost. -/
def validateHosts : List FileSystemSpecificConfig → Except configError Unit
  | [] => .ok ()
  | c :: rest =>
    if sysMgmtdHostOk c.SysMgmtdHost then validateHosts rest
    else .error (.invalidSysMgmtdHost c.SysMgmtdHost)

/-- Second loop of `validateConfig`, one filter list: reject the first invalid entry. -/
def validateFilterList (mk : String → configError) : List String → Except configError Unit
  | [] => .ok ()
  | f :: rest => if filterOk f then validateFilterList mk rest else .error (mk f)

/-- Second loop of `validateConfig`, one beegfsConfig: ConnNetFilter entries first,
then ConnTcpOnlyFilter entries. -/
def validateBeegfsConfig (c : beegfsConfig) : Except configError Unit := do
  validateFilterList configError.invalidConnNetFilter c.ConnNetFilter
  validateFilterList configError.invalidConnTcpOnlyFilter c.ConnTcpOnlyFilter

/-- Second loop of `validateConfig` over all collected beegfsConfigs. -/
def validateConfigs : List beegfsConfig → Except configError Unit
  | [] => .ok ()
  | c :: rest => do
    validateBeegfsConfig c
    validateConfigs rest

/-- Go `(plConfig *PluginConfig) validateConfig()`: hosts of all backend-specific
configs, then all filter entries of the default config followed by the
backend-specific configs, in order. -/
def PluginConfig.validateConfig (p : PluginConfig) : Except configError Unit := do
  validateHosts p.FileSystemSpecificConfigs
  validateConfigs (p.DefaultConfig :: p.FileSystemSpecificConfigs.map (·.Config))

/-! ## Stripping (src/unnamed/part_000, `PluginConfig.stripConfig`) -/

/-- Go `stripConfig` on one beegfsConfig: delete every no-effect option from the
BeegfsClientConf map; unsupported options are only warned about and left in place. -/
def stripBeegfsConfig (c : beegfsConfig) : beegfsConfig :=
  { c with BeegfsClientConf := noEffectBeegfsConfOptions.foldl mapErase c.BeegfsClientConf }

/-- Go `(plConfig *PluginConfig) stripConfig()` (the Go loop ranges over struct copies
but the map headers are shared, so the deletions reach the plugin config). -/
def PluginConfig.stripConfig (p : PluginConfig) : PluginConfig where
  DefaultConfig := stripBeegfsConfig p.DefaultConfig
  FileSystemSpecificConfigs :=
    p.FileSystemSpecificConfigs.map (fun f => { f with Config := stripBeegfsConfig f.Config })

/-- Validate-then-strip stage of Go `parseConfigFromFile`. -/
def finalizeConfig (p : PluginConfig) : Except configError PluginConfig :=
  match p.validateConfig with
  | .error e => .error e
  | .ok _ => .ok p.stripConfig

/-- Pure core of Go `parseConfigFromFile`: node-override fold, validation, stripping. -/
def parseConfig (raw : pluginConfigFromFile) (nodeID : String) : Except configError PluginConfig :=
  finalizeConfig (applyNodeSpecificConfigs raw nodeID)

/-- All beegfsConfigs held by a PluginConfig, default first (the order in which both
`validateConfig` and `stripConfig` traverse them). -/
def configsOf (p : PluginConfig) : List beegfsConfig :=
  p.DefaultConfig :: p.FileSystemSpecificConfigs.map (·.Config)

theorem validateHosts_ok_iff (l : List FileSystemSpecificConfig) :
    validateHosts l = .ok () ↔ ∀ c ∈ l, sysMgmtdHostOk c.SysMgmtdHost = true := by
  induction l with
  | nil => simp [validateHosts]
  | cons hd tl ih =>
    by_cases h : sysMgmtdHostOk hd.SysMgmtdHost = true
    · simp [validateHosts, h, ih]
    · simp [validateHosts, h]

theorem validateHosts_error (l : List FileSystemSpecificConfig) (e : configError)
    (he : validateHosts l = .error e) :
    ∃ c ∈ l, e = .invalidSysMgmtdHost c.SysMgmtdHost ∧ sysMgmtdHostOk c.SysMgmtdHost = false := by
  induction l with
  | nil => simp [validateHosts] at he
  | cons hd tl ih =>
    by_cases h : sysMgmtdHostOk hd.SysMgmtdHost = true
    · simp only [validateHosts, if_pos h] at he
      obtain ⟨c, hc, hrest⟩ := ih he
      exact ⟨c, List.mem_cons_of_mem _ hc, hrest⟩
    · simp only [validateHosts, if_neg h, Except.error.injEq] at he
      exact ⟨hd, List.mem_cons_self _ _, he.symm, by simpa using h⟩

theorem validateFilterList_ok_iff (mk : String → configError) (l : List String) :
    validateFilterList mk l = .ok () ↔ ∀ f ∈ l, filterOk f = true := by
  induction l with
  | nil => simp [validateFilterList]
  | cons hd tl ih =>
    by_cases h : filterOk hd = true
    · simp [validateFilterList, h, ih]
    · simp [validateFilterList, h]

theorem validateFilterList_error (mk : String → configError) (l : List String)
    (e : configError) (he : validateFilterList mk l = .error e) :
    ∃ f ∈ l, e = mk f ∧ filterOk f = false := by
  induction l with
  | nil => simp [validateFilterList] at he
  | cons hd tl ih =>
    by_cases h : filterOk hd = true
    · simp only [validateFilterList, if_pos h] at he
      obtain ⟨f, hf, hrest⟩ := ih he
      exact ⟨f, List.mem_cons_of_mem _ hf, hrest⟩
    · simp only [validateFilterList, if_neg h, Except.error.injEq] at he
      exact ⟨hd, List.mem_cons_self _ _, he.symm, by simpa using h⟩

theorem validateBeegfsConfig_ok_iff (c : beegfsConfig) :
    validateBeegfsConfig c = .ok () ↔
      ((∀ f ∈ c.ConnNetFilter, filterOk f = true) ∧
        (∀ f ∈ c.ConnTcpOnlyFilter, filterOk f = true)) := by
  unfold validateBeegfsConfig
  cases h1 : validateFilterList configError.invalidConnNetFilter c.ConnNetFilter with
  | error e =>
    simp only [bind, Except.bind, h1]
    constructor
    · intro h; exact absurd h (by simp)
    · intro ⟨ha, _⟩
      rw [(validateFilterList_ok_iff _ _).mpr ha] at h1
      exact absurd h1 (by simp)
  | ok u =>
    obtain ⟨⟩ := u
    simp only [bind, Except.bind, h1]
    rw [validateFilterList_ok_iff]
    have hnet := (validateFilterList_ok_iff configError.invalidConnNetFilter c.ConnNetFilter).mp h1
    exact ⟨fun hb => ⟨hnet, hb⟩, fun hab => hab.2⟩

theorem validateBeegfsConfig_error (c : beegfsConfig) (e : configError)
    (he : validateBeegfsConfig c = .error e) :
    (∃ f ∈ c.ConnNetFilter, e = .invalidConnNetFilter f ∧ filterOk f = false) ∨
      (∃ f ∈ c.ConnTcpOnlyFilter, e = .invalidConnTcpOnlyFilter f ∧ filterOk f = false) := by
  unfold validateBeegfsConfig at he
  cases h1 : validateFilterList configError.invalidConnNetFilter c.ConnNetFilter with
  | error e1 =>
    rw [h1] at he
    simp only [bind, Except.bind] at he
    obtain ⟨⟩ := he
    exact Or.inl (validateFilterList_error _ _ _ h1)
  | ok u =>
    obtain ⟨⟩ := u
    rw [h1] at he
    simp only [bind, Except.bind] at he
    exact Or.inr (validateFilterList_error _ _ _ he)

theorem validateConfigs_ok_iff (l : List beegfsConfig) :
    validateConfigs l = .ok () ↔
      ∀ c ∈ l, (∀ f ∈ c.ConnNetFilter, filterOk f = true) ∧
        (∀ f ∈ c.ConnTcpOnlyFilter, filterOk f = true) := by
  induction l with
  | nil => simp [validateConfigs]
  | cons hd tl ih =>
    unfold validateConfigs
    cases h1 : validateBeegfsConfig hd with
    | error e =>
      simp only [bind, Except.bind, h1]
      constructor
      · intro h; exact absurd h (by simp)
      · intro h
        rw [(validateBeegfsConfig_ok_iff hd).mpr (h hd (List.mem_cons_self _ _))] at h1
        exact absurd h1 (by simp)
    | ok u =>
      obtain ⟨⟩ := u
      simp only [bind, Except.bind, h1]
      rw [ih]
      have := (validateBeegfsConfig_ok_iff hd).mp h1
      constructor
      · intro h c hc
        rcases List.mem_cons.mp hc with hc | hc
        · exact hc ▸ this
        · exact h c hc
      · intro h c hc
        exact h c (List.mem_cons_of_mem _ hc)

theorem validateConfigs_error (l : List beegfsConfig) (e : configError)
    (he : validateConfigs l = .error e) :
    ∃ c ∈ l, (∃ f ∈ c.ConnNetFilter, e = .invalidConnNetFilter f ∧ filterOk f = false) ∨
      (∃ f ∈ c.ConnTcpOnlyFilter, e = .invalidConnTcpOnlyFilter f ∧ filterOk f = false) := by
  induction l with
  | nil => simp [validateConfigs] at he
  | cons hd tl ih =>
    unfold validateConfigs at he
    cases h1 : validateBeegfsConfig hd with
    | error e1 =>
      rw [h1] at he
      simp only [bind, Except.bind] at he
      obtain ⟨⟩ := he
      exact ⟨hd, List.mem_cons_self _ _, validateBeegfsConfig_error _ _ h1⟩
    | ok u =>
      obtain ⟨⟩ := u
      rw [h1] at he
      simp only [bind, Except.bind] at he
      obtain ⟨c, hc, hrest⟩ := ih he
      exact ⟨c, List.mem_cons_of_mem _ hc, hrest⟩

/-- C7: post-merge validation succeeds exactly when every backend-specific host value is
`localhost`, a parseable IP literal, or a domain name matching the compiled regular
expression, and every network-filter entry (general or TCP-only, in the default config
or any backend-specific config) is a parseable CIDR or IP literal; every failure names
the offending field value; in particular host `not a host!!` and filter
`999.999.999.999` are rejected while filter `10.0.0.0/24` is accepted. -/
theorem validateConfig_characterization :
    (∀ p : PluginConfig,
      p.validateConfig = .ok () ↔
        ((∀ c ∈ p.FileSystemSpecificConfigs, sysMgmtdHostOk c.SysMgmtdHost = true) ∧
          ∀ c ∈ configsOf p, (∀ f ∈ c.ConnNetFilter, filterOk f = true) ∧
            (∀ f ∈ c.ConnTcpOnlyFilter, filterOk f = true)))
    ∧ (∀ (p : PluginConfig) (h : String),
        p.validateConfig = .error (.invalidSysMgmtdHost h) →
          (∃ c ∈ p.FileSystemSpecificConfigs, c.SysMgmtdHost = h) ∧ sysMgmtdHostOk h = false)
    ∧ (∀ (p : PluginConfig) (f : String),
        p.validateConfig = .error (.invalidConnNetFilter f) →
          (∃ c ∈ configsOf p, f ∈ c.ConnNetFilter) ∧ filterOk f = false)
    ∧ (∀ (p : PluginConfig) (f : String),
        p.validateConfig = .error (.invalidConnTcpOnlyFilter f) →
          (∃ c ∈ configsOf p, f ∈ c.ConnTcpOnlyFilter) ∧ filterOk f = false)
    ∧ sysMgmtdHostOk "not a host!!" = false
    ∧ filterOk "999.999.999.999" = false
    ∧ filterOk "10.0.0.0/24" = true := by
  have hsplit : ∀ (p : PluginConfig) (e : configError),
      p.validateConfig = .error e →
        validateHosts p.FileSystemSpecificConfigs = .error e ∨
          (validateHosts p.FileSystemSpecificConfigs = .ok () ∧
            validateConfigs (configsOf p) = .error e) := by
    intro p e he
    unfold PluginConfig.validateConfig at he
    cases h1 : validateHosts p.FileSystemSpecificConfigs with
    | error e1 =>
      rw [h1] at he
      simp only [bind, Except.bind] at he
      obtain ⟨⟩ := he
      exact Or.inl rfl
    | ok u =>
      obtain ⟨⟩ := u
      rw [h1] at he
      simp only [bind, Except.bind] at he
      exact Or.inr ⟨rfl, he⟩
  refine ⟨?_, ?_, ?_, ?_, by decide, by decide, by decide⟩
  · intro p
    unfold PluginConfig.validateConfig
    cases h1 : validateHosts p.FileSystemSpecificConfigs with
    | error e1 =>
      simp only [bind, Except.bind]
      constructor
      · intro h; exact absurd h (by simp)
      · intro ⟨ha, _⟩
        rw [(validateHosts_ok_iff _).mpr ha] at h1
        exact absurd h1 (by simp)
    | ok u =>
      obtain ⟨⟩ := u
      simp only [bind, Except.bind]
      rw [validateConfigs_ok_iff]
      have hh := (validateHosts_ok_iff p.FileSystemSpecificConfigs).mp h1
      exact ⟨fun hb => ⟨hh, hb⟩, fun hab => hab.2⟩
  · intro p h he
    rcases hsplit p _ he with h1 | ⟨_, h2⟩
    · obtain ⟨c, hc, heq, hbad⟩ := validateHosts_error _ _ h1
      obtain ⟨⟩ := heq
      exact ⟨⟨c, hc, rfl⟩, hbad⟩
    · obtain ⟨c, _, hrest⟩ := validateConfigs_error _ _ h2
      rcases hrest with ⟨f, _, heq, _⟩ | ⟨f, _, heq, _⟩ <;> exact absurd heq (by simp)
  · intro p f he
    rcases hsplit p _ he with h1 | ⟨_, h2⟩
    · obtain ⟨c, _, heq, _⟩ := validateHosts_error _ _ h1
      exact absurd heq (by simp)
    · obtain ⟨c, hc, hrest⟩ := validateConfigs_error _ _ h2
      rcases hrest with ⟨g, hg, heq, hbad⟩ | ⟨g, hg, heq, hbad⟩
      · obtain ⟨⟩ := heq
        exact ⟨⟨c, hc, hg⟩, hbad⟩
      · exact absurd heq (by simp)
  · intro p f he
    rcases hsplit p _ he with h1 | ⟨_, h2⟩
    · obtain ⟨c, _, heq, _⟩ := validateHosts_error _ _ h1
      exact absurd heq (by simp)
    · obtain ⟨c, hc, hrest⟩ := validateConfigs_error _ _ h2
      rcases hrest with ⟨g, hg, heq, hbad⟩ | ⟨g, hg, heq, hbad⟩
      · exact absurd heq (by simp)
      · obtain ⟨⟩ := heq
        exact ⟨⟨c, hc, hg⟩, hbad⟩

/-- Sample configuration with an invalid backend host, for the C7 witness. -/
def badHostPluginConfig : PluginConfig where
  DefaultConfig := {}
  FileSystemSpecificConfigs := [{ SysMgmtdHost := "not a host!!", Config := {} }]

/-- C7 witness: the characterization applied to a concrete config with an invalid
backend host. -/
theorem validateConfig_characterization_witness :
    badHostPluginConfig.validateConfig = .error (.invalidSysMgmtdHost "not a host!!")
    ∧ ((∃ c ∈ badHostPluginConfig.FileSystemSpecificConfigs, c.SysMgmtdHost = "not a host!!")
        ∧ sysMgmtdHostOk "not a host!!" = false) := by
  constructor
  · rfl
  · exact validateConfig_characterization.2.1 badHostPluginConfig "not a host!!" rfl

theorem mapLookup_mapErase (m : List (String × String)) (k k' : String) :
    mapLookup k' (mapErase m k) = if k = k' then none else mapLookup k' m := by
  induction m with
  | nil => simp [mapErase, mapLookup]
  | cons hd tl ih =>
    obtain ⟨hk, hv⟩ := hd
    by_cases h1 : hk = k
    · subst h1
      by_cases h2 : hk = k'
      · subst h2
        have ih2 : mapLookup hk (mapErase tl hk) = none := by simpa using ih
        simpa [mapErase, mapLookup] using ih2
      · simpa [mapErase, mapLookup, h2] using ih
    · by_cases h2 : hk = k'
      · subst h2
        have hne : ¬ k = hk := fun he => h1 he.symm
        simp [mapErase, mapLookup, h1, hne]
      · simpa [mapErase, mapLookup, h1, h2] using ih

theorem mapLookup_stripBeegfsConfig (c : beegfsConfig) (k : String) :
    mapLookup k (stripBeegfsConfig c).BeegfsClientConf =
      if k ∈ noEffectBeegfsConfOptions then none else mapLookup k c.BeegfsClientConf := by
  have hshape : (stripBeegfsConfig c).BeegfsClientConf =
      mapErase (mapErase (mapErase c.BeegfsClientConf "sysMgmtdHost") "connClientPortUDP")
        "connPortShift" := rfl
  rw [hshape, mapLookup_mapErase, mapLookup_mapErase, mapLookup_mapErase]
  by_cases h1 : ("sysMgmtdHost" : String) = k
  · subst h1
    simp [noEffectBeegfsConfOptions]
  · by_cases h2 : ("connClientPortUDP" : String) = k
    · subst h2
      simp [noEffectBeegfsConfOptions]
    · by_cases h3 : ("connPortShift" : String) = k
      · subst h3
        simp [noEffectBeegfsConfOptions]
      · have hmem : k ∉ noEffectBeegfsConfOptions := by
          simp only [noEffectBeegfsConfOptions, List.mem_cons, List.not_mem_nil, or_false,
            not_or]
          exact ⟨fun he => h1 he.symm, fun he => h2 he.symm, fun he => h3 he.symm⟩
        simp [h1, h2, h3, hmem]

/-- C8: after stripping, every client-option key in the fixed no-effect set is absent
from every resolved configuration's client-option map, while every key in the fixed
unsupported set that was present remains present with its value unchanged; validation
does not inspect the client-option map, so a configuration carrying either kind of
option still parses successfully. -/
theorem stripConfig_noEffect_absent_unsupported_kept :
    (∀ p : PluginConfig, p.validateConfig = .ok () → finalizeConfig p = .ok p.stripConfig)
    ∧ (∀ p : PluginConfig, configsOf p.stripConfig = (configsOf p).map stripBeegfsConfig)
    ∧ (∀ c : beegfsConfig, ∀ k ∈ noEffectBeegfsConfOptions,
        mapLookup k (stripBeegfsConfig c).BeegfsClientConf = none)
    ∧ (∀ c : beegfsConfig, ∀ k ∈ unsupportedBeegfsConfOptions,
        mapLookup k (stripBeegfsConfig c).BeegfsClientConf = mapLookup k c.BeegfsClientConf) := by
  refine ⟨?_, ?_, ?_, ?_⟩
  · intro p hp
    unfold finalizeConfig
    rw [hp]
  · intro p
    simp [configsOf, PluginConfig.stripConfig]
  · intro c k hk
    rw [mapLookup_stripBeegfsConfig, if_pos hk]
  · intro c k hk
    rw [mapLookup_stripBeegfsConfig, if_neg]
    intro hmem
    have : ¬ k ∈ noEffectBeegfsConfOptions := by
      fin_cases hk <;> decide
    exact this hmem

/-- Sample configuration carrying one no-effect option and one unsupported option, for
the C8 witness. -/
def strippablePluginConfig : PluginConfig where
  DefaultConfig := { BeegfsClientConf := [("connPortShift", "8"), ("connAuthFile", "/etc/a")] }
  FileSystemSpecificConfigs := []

/-- C8 witness: on a concrete configuration containing the no-effect option
`connPortShift` and the unsupported option `connAuthFile`, parsing succeeds, the former
is stripped and the latter survives unchanged. -/
theorem stripConfig_noEffect_absent_unsupported_kept_witness :
    finalizeConfig strippablePluginConfig = .ok strippablePluginConfig.stripConfig
    ∧ mapLookup "connPortShift"
        (stripBeegfsConfig strippablePluginConfig.DefaultConfig).BeegfsClientConf = none
    ∧ mapLookup "connAuthFile"
        (stripBeegfsConfig strippablePluginConfig.DefaultConfig).BeegfsClientConf
      = mapLookup "connAuthFile" strippablePluginConfig.DefaultConfig.BeegfsClientConf := by
  refine ⟨stripConfig_noEffect_absent_unsupported_kept.1 strippablePluginConfig rfl, ?_, ?_⟩
  · exact stripConfig_noEffect_absent_unsupported_kept.2.2.1
      strippablePluginConfig.DefaultConfig "connPortShift" (by decide)
  · exact stripConfig_noEffect_absent_unsupported_kept.2.2.2
      strippablePluginConfig.DefaultConfig "connAuthFile" (by decide)

/-! ## Volume working state and unmount orchestration (src/pkg/beegfs/beegfs_util.go) -/

/-- Go `beegfsVolume` working state, as referenced by the functions in
beegfs_util.go: every field is derived from the volume identity plus the resolved
plugin configuration. -/
structure beegfsVolume where
  volumeID : String
  sysMgmtdHost : String := ""
  volDirPathBeegfsRoot : String := ""
  volDirBasePathBeegfsRoot : String := ""
  mountDirPath : String
  mountPath : String
  clientConfPath : String
  volDirPath : String := ""
  config : beegfsConfig := {}
deriving DecidableEq

/-- One entry of the system mount table as returned by Go `mounter.List()`
(`mount.MountPoint`; the file-system type field is unused by the driver and omitted). -/
structure MountEntry where
  Device : String
  Path : String
  Opts : List String := []
deriving DecidableEq

/-- Prefix test on character lists. -/
def listIsPrefix : List Char → List Char → Bool
  | [], _ => true
  | _ :: _, [] => false
  | a :: as, b :: bs => a == b && listIsPrefix as bs

/-- Infix test on character lists. -/
def listContainsSub (l sub : List Char) : Bool :=
  match l with
  | [] => sub.isEmpty
  | c :: t => listIsPrefix sub (c :: t) || listContainsSub t sub

/-- Go `strings.Contains(s, substr)`. -/
def goStringsContains (s substr : String) : Bool :=
  listContainsSub s.toList substr.toList

/-- File-system side effects performed by the cleanup path, in order. -/
inductive cleanupAction where
  | cleanupMountPoint (path : String)
  | removeContents (dirPath : String)
  | removeAll (dirPath : String)
deriving DecidableEq

/-- Conflict error returned when the staged file system is bind mounted elsewhere; it
names both the staged mount path and the bind-mount path. -/
structure bindMountConflict where
  mountPath : String
  bindPath : String
deriving DecidableEq

/-- Go `cleanUpIfNecessary(vol, rmDir)`: with `rmDir == false` delete everything under
`mountDirPath`; with `rmDir == true` delete `mountDirPath` itself (the I/O errors of
`ReadDir`/`RemoveAll` are environmental and outside the model; the model records which
removal is attempted). -/
def cleanUpIfNecessary (vol : beegfsVolume) (rmDir : Bool) : List cleanupAction :=
  if rmDir = false then [.removeContents vol.mountDirPath]
  else [.removeAll vol.mountDirPath]

/-- The Go condition inside the `unmountAndCleanUpIfNecessary` mount-table loop:
a mount entry for the BeeGFS device tag whose path does NOT contain this volume's
mount path (`!strings.Contains(entry.Path, vol.mountPath)`, which also skips `/host`
duplicates of the same mount) and one of whose options references this volume's
client conf path. -/
def isBindMountElsewhere (vol : beegfsVolume) (entry : MountEntry) : Bool :=
  entry.Device == "beegfs_nodev"
    && !(goStringsContains entry.Path vol.mountPath)
    && entry.Opts.any (fun opt => goStringsContains opt vol.clientConfPath)

theorem isBindMountElsewhere_iff (vol : beegfsVolume) (entry : MountEntry) :
    isBindMountElsewhere vol entry = true ↔
      entry.Device = "beegfs_nodev"
      ∧ goStringsContains entry.Path vol.mountPath = false
      ∧ ∃ opt ∈ entry.Opts, goStringsContains opt vol.clientConfPath = true := by
  simp [isBindMountElsewhere, List.any_eq_true, Bool.and_eq_true, beq_iff_eq,
    Bool.not_eq_true', and_assoc]

/-- Go `unmountAndCleanUpIfNecessary(vol, rmDir, mounter)`: scan the mount table; if
the staged file system is bind mounted somewhere else, fail with a conflict error
naming both paths before any unmount or removal; otherwise clean up the mount point
and the working directory.  (`mounter.List()` I/O errors are environmental and outside
the model; the mount table is the input.) -/
def unmountAndCleanUpIfNecessary (vol : beegfsVolume) (rmDir : Bool)
    (allMounts : List MountEntry) : Except bindMountConflict (List cleanupAction) :=
  match allMounts.find? (isBindMountElsewhere vol) with
  | some entry => .error { mountPath := vol.mountPath, bindPath := entry.Path }
  | none => .ok (.cleanupMountPoint vol.mountPath :: cleanUpIfNecessary vol rmDir)

/-- Sample volume for the C3 counterexample. -/
def volC3 : beegfsVolume where
  volumeID := "beegfs://10.0.0.1/data/vol1"
  mountDirPath := "/data/vol1"
  mountPath := "/data/vol1/mount"
  clientConfPath := "/data/vol1/beegfs-client.conf"

/-- Sample mount-table entry for the C3 counterexample: same device tag, a path that
is different from the volume's mount path (but contains it, as for the `/host` mirror
of the same mount), options referencing the volume's client conf file. -/
def entryC3 : MountEntry where
  Device := "beegfs_nodev"
  Path := "/host/data/vol1/mount"
  Opts := ["rw", "cfgFile=/data/vol1/beegfs-client.conf"]

/-- C3 counterexample: a mount-table entry with the backend device tag, a path merely
DIFFERENT from the volume's mount path, and options referencing this volume's client
conf file does not necessarily trigger the conflict error: when the entry's path
contains the mount path (Go compares with `!strings.Contains`, not `!=`, to skip
`/host`-prefixed duplicates of the same mount), `unmountAndCleanUpIfNecessary`
proceeds to unmount and clean up. -/
theorem unmount_different_path_not_refused :
    entryC3.Device = "beegfs_nodev"
    ∧ entryC3.Path ≠ volC3.mountPath
    ∧ (∃ opt ∈ entryC3.Opts, goStringsContains opt volC3.clientConfPath = true)
    ∧ unmountAndCleanUpIfNecessary volC3 true [entryC3]
        = .ok [.cleanupMountPoint "/data/vol1/mount", .removeAll "/data/vol1"] := by
  refine ⟨rfl, by decide, ⟨"cfgFile=/data/vol1/beegfs-client.conf", by decide, by decide⟩, ?_⟩
  rfl

/-- C3 (amended): if the mount table contains an entry whose device equals the backend
device tag, whose path does not contain this volume's mount path as a substring, and
whose options reference this volume's client connection-file path, then
`unmountAndCleanUpIfNecessary` returns a conflict error naming both paths and performs
no unmount and no removal of the working directory or its contents. -/
theorem unmount_refuses_when_bind_mounted_elsewhere (vol : beegfsVolume) (rmDir : Bool)
    (allMounts : List MountEntry)
    (hconf : ∃ entry ∈ allMounts, entry.Device = "beegfs_nodev"
        ∧ goStringsContains entry.Path vol.mountPath = false
        ∧ ∃ opt ∈ entry.Opts, goStringsContains opt vol.clientConfPath = true) :
    ∃ conflict : bindMountConflict,
      unmountAndCleanUpIfNecessary vol rmDir allMounts = .error conflict
      ∧ conflict.mountPath = vol.mountPath
      ∧ (∃ entry ∈ allMounts, conflict.bindPath = entry.Path
          ∧ entry.Device = "beegfs_nodev"
          ∧ goStringsContains entry.Path vol.mountPath = false
          ∧ ∃ opt ∈ entry.Opts, goStringsContains opt vol.clientConfPath = true)
      ∧ ∀ acts, unmountAndCleanUpIfNecessary vol rmDir allMounts ≠ .ok acts := by
  obtain ⟨entry, hmem, hprops⟩ := hconf
  have hsome : (allMounts.find? (isBindMountElsewhere vol)).isSome := by
    rw [List.find?_isSome]
    exact ⟨entry, hmem, (isBindMountElsewhere_iff vol entry).mpr hprops⟩
  obtain ⟨e, he⟩ := Option.isSome_iff_exists.mp hsome
  refine ⟨{ mountPath := vol.mountPath, bindPath := e.Path }, ?_, rfl, ?_, ?_⟩
  · unfold unmountAndCleanUpIfNecessary
    rw [he]
  · exact ⟨e, List.mem_of_find?_eq_some he, rfl,
      (isBindMountElsewhere_iff vol e).mp (List.find?_some he)⟩
  · intro acts hacts
    unfold unmountAndCleanUpIfNecessary at hacts
    rw [he] at hacts
    exact absurd hacts (by simp)

/-- Sample mount-table entry for the C3 witness: a genuine bind mount of the staged
file system at an unrelated path. -/
def entryElsewhereC3 : MountEntry where
  Device := "beegfs_nodev"
  Path := "/pods/abc/volumes/vol1"
  Opts := ["rw", "cfgFile=/data/vol1/beegfs-client.conf"]

/-- C3 (amended) witness: the amended theorem applied to a concrete mount table whose
conflicting entry's path does not contain the volume's mount path. -/
theorem unmount_refuses_when_bind_mounted_elsewhere_witness :
    ∃ conflict : bindMountConflict,
      unmountAndCleanUpIfNecessary volC3 true [entryElsewhereC3] = .error conflict
      ∧ conflict.mountPath = volC3.mountPath
      ∧ (∃ entry ∈ [entryElsewhereC3], conflict.bindPath = entry.Path
          ∧ entry.Device = "beegfs_nodev"
          ∧ goStringsContains entry.Path volC3.mountPath = false
          ∧ ∃ opt ∈ entry.Opts, goStringsContains opt volC3.clientConfPath = true)
      ∧ ∀ acts, unmountAndCleanUpIfNecessary volC3 true [entryElsewhereC3] ≠ .ok acts :=
  unmount_refuses_when_bind_mounted_elsewhere volC3 true _
    ⟨entryElsewhereC3, by decide, rfl, by decide,
      ⟨"cfgFile=/data/vol1/beegfs-client.conf", by decide, by decide⟩⟩

/-! ## Diagnostic JSON serialization (src/unnamed/part_000, `MarshalJSON`) -/

/-- JSON values produced by the diagnostic serialization (only the shapes Go
`encoding/json` emits for these structs are needed). -/
inductive Json where
  | str (s : String)
  | arr (l : List Json)
  | obj (fields : List (String × Json))

/-- Lookup of an object field. -/
def jsonFieldLookup (k : String) : List (String × Json) → Option Json
  | [] => none
  | (k', v) :: rest => if k' = k then some v else jsonFieldLookup k rest

/-- Insertion step for sorting object fields by key (Go `encoding/json` marshals map
keys in sorted order). -/
def insertByKey (p : String × Json) : List (String × Json) → List (String × Json)
  | [] => [p]
  | q :: rest => if p.1 ≤ q.1 then p :: q :: rest else q :: insertByKey p rest

/-- Insertion sort of object fields by key. -/
def sortPairsByKey : List (String × Json) → List (String × Json)
  | [] => []
  | p :: rest => insertByKey p (sortPairsByKey rest)

/-- Go `(c beegfsConfig) MarshalJSON()`: marshal an anonymous struct with an exported
`ConnAuth` field (`json:"ConnAuth,omitempty"`) whose value is `"******"` when the
unexported connAuth is non-empty, with the remaining beegfsConfig fields embedded via
the alias (the unexported connAuth itself is never marshalled). -/
def beegfsConfigMarshalJSON (c : beegfsConfig) : Json :=
  let connAuthString := if c.connAuth ≠ "" then "******" else ""
  Json.obj
    ((if connAuthString ≠ "" then [("ConnAuth", Json.str connAuthString)] else [])
      ++ [("ConnInterfaces", Json.arr (c.ConnInterfaces.map Json.str)),
          ("ConnNetFilter", Json.arr (c.ConnNetFilter.map Json.str)),
          ("ConnTcpOnlyFilter", Json.arr (c.ConnTcpOnlyFilter.map Json.str)),
          ("BeegfsClientConf",
            Json.obj (sortPairsByKey (c.BeegfsClientConf.map (fun kv => (kv.1, Json.str kv.2)))))])

/-- Go `(c connAuthConfig) MarshalJSON()`: marshal the alias with ConnAuth replaced by
`"******"` if it is not empty (no omitempty here: an absent secret marshals as the
empty string). -/
def connAuthConfigMarshalJSON (a : connAuthConfig) : Json :=
  Json.obj [("SysMgmtdHost", Json.str a.SysMgmtdHost),
    ("ConnAuth", Json.str (if a.ConnAuth ≠ "" then "******" else ""))]

/-- C6: the diagnostic serialization never carries the authentication secret in
cleartext: the ConnAuth field is rendered as the fixed placeholder `"******"` when the
secret is non-empty, and is omitted (beegfsConfig) or empty (connAuthConfig) when the
secret is absent; consequently two configurations that differ only in their non-empty
secret values serialize identically. -/
theorem marshalJSON_redacts_connAuth :
    (∀ c : beegfsConfig,
      jsonFieldLookup "ConnAuth"
          (match beegfsConfigMarshalJSON c with | .obj fields => fields | _ => [])
        = if c.connAuth = "" then none else some (Json.str "******"))
    ∧ (∀ c₁ c₂ : beegfsConfig,
        c₁.ConnInterfaces = c₂.ConnInterfaces → c₁.ConnNetFilter = c₂.ConnNetFilter →
        c₁.ConnTcpOnlyFilter = c₂.ConnTcpOnlyFilter →
        c₁.BeegfsClientConf = c₂.BeegfsClientConf →
        c₁.connAuth ≠ "" → c₂.connAuth ≠ "" →
        beegfsConfigMarshalJSON c₁ = beegfsConfigMarshalJSON c₂)
    ∧ (∀ a : connAuthConfig, connAuthConfigMarshalJSON a
        = Json.obj [("SysMgmtdHost", Json.str a.SysMgmtdHost),
            ("ConnAuth", Json.str (if a.ConnAuth = "" then "" else "******"))])
    ∧ (∀ a₁ a₂ : connAuthConfig, a₁.SysMgmtdHost = a₂.SysMgmtdHost →
        a₁.ConnAuth ≠ "" → a₂.ConnAuth ≠ "" →
        connAuthConfigMarshalJSON a₁ = connAuthConfigMarshalJSON a₂) := by
  refine ⟨?_, ?_, ?_, ?_⟩
  · intro c
    by_cases h : c.connAuth = ""
    · simp [beegfsConfigMarshalJSON, h, jsonFieldLookup]
    · simp [beegfsConfigMarshalJSON, h, jsonFieldLookup]
  · intro c₁ c₂ h1 h2 h3 h4 hne1 hne2
    simp only [beegfsConfigMarshalJSON, h1, h2, h3, h4, if_pos hne1, if_pos hne2,
      if_neg, ne_eq]
  · intro a
    by_cases h : a.ConnAuth = "" <;> simp [connAuthConfigMarshalJSON, h]
  · intro a₁ a₂ h1 hne1 hne2
    simp [connAuthConfigMarshalJSON, h1, hne1, hne2]

/-- C6 witness: two concrete configurations differing only in their non-empty secrets
serialize identically, and the placeholder rendering at concrete values. -/
theorem marshalJSON_redacts_connAuth_witness :
    beegfsConfigMarshalJSON { ConnInterfaces := ["ib0"], connAuth := "hunter2" }
      = beegfsConfigMarshalJSON { ConnInterfaces := ["ib0"], connAuth := "s3cret" }
    ∧ connAuthConfigMarshalJSON { SysMgmtdHost := "10.0.0.1", ConnAuth := "hunter2" }
      = connAuthConfigMarshalJSON { SysMgmtdHost := "10.0.0.1", ConnAuth := "s3cret" } := by
  constructor
  · exact marshalJSON_redacts_connAuth.2.1 _ _ rfl rfl rfl rfl
      (by decide) (by decide)
  · exact marshalJSON_redacts_connAuth.2.2.2 _ _ rfl (by decide) (by decide)

/-! ## Volume identity sanitization (src/pkg/beegfs/beegfs_util.go, `sanitizeVolumeID`)

Go strings are UTF-8 byte strings; the byte encoding is made explicit so that Go's
`len` and `crypto/sha1` inputs are modelled exactly. -/

/-- UTF-8 encoding of one character (Go `[]byte(string)`). -/
def utf8EncodeChar (c : Char) : List Nat :=
  let n := c.toNat
  if n < 0x80 then [n]
  else if n < 0x800 then [0xC0 ||| (n >>> 6), 0x80 ||| (n &&& 0x3F)]
  else if n < 0x10000 then
    [0xE0 ||| (n >>> 12), 0x80 ||| ((n >>> 6) &&& 0x3F), 0x80 ||| (n &&& 0x3F)]
  else
    [0xF0 ||| (n >>> 18), 0x80 ||| ((n >>> 12) &&& 0x3F), 0x80 ||| ((n >>> 6) &&& 0x3F),
      0x80 ||| (n &&& 0x3F)]

/-- UTF-8 encoding of a character list. -/
def utf8Encode (l : List Char) : List Nat := l.flatMap utf8EncodeChar

/-- Go `strings.Replace(s, old, new, 1)` on character lists: replace the first
occurrence only (every call site passes a non-empty `old`). -/
def replaceFirstList (old new : List Char) : List Char → List Char
  | [] => []
  | c :: rest =>
    if listIsPrefix old (c :: rest) then new ++ (c :: rest).drop old.length
    else c :: replaceFirstList old new rest

/-- Go `strings.Replace(s, old, new, -1)` for a single-character `old` (the only shape
`sanitizeVolumeID` uses for unlimited replacement): replace every occurrence. -/
def replaceCharList (old : Char) (new : List Char) : List Char → List Char
  | [] => []
  | c :: rest =>
    if c = old then new ++ replaceCharList old new rest
    else c :: replaceCharList old new rest

/-! SHA-1 (Go `crypto/sha1.Sum`), on byte lists, with 32-bit words as `Nat` reduced
modulo `2 ^ 32`. -/

/-- Left rotation of a 32-bit word. -/
def rotl32 (x k : Nat) : Nat := ((x <<< k) ||| (x >>> (32 - k))) % 4294967296

/-- Big-endian bytes of a 32-bit word. -/
def wordBE (n : Nat) : List Nat :=
  [(n >>> 24) &&& 0xFF, (n >>> 16) &&& 0xFF, (n >>> 8) &&& 0xFF, n &&& 0xFF]

/-- Big-endian bytes of a 64-bit length. -/
def lenBE8 (n : Nat) : List Nat :=
  [(n >>> 56) &&& 0xFF, (n >>> 48) &&& 0xFF, (n >>> 40) &&& 0xFF, (n >>> 32) &&& 0xFF,
    (n >>> 24) &&& 0xFF, (n >>> 16) &&& 0xFF, (n >>> 8) &&& 0xFF, n &&& 0xFF]

/-- SHA-1 padding: append 0x80, zero bytes to 56 mod 64, and the bit length. -/
def sha1Pad (msg : List Nat) : List Nat :=
  let len := msg.length
  let padZeros := (64 + 56 - (len % 64) - 1) % 64
  msg ++ [0x80] ++ List.replicate padZeros 0 ++ lenBE8 (len * 8)

/-- Big-endian 32-bit words of a byte list. -/
def bytesToWords : List Nat → List Nat
  | b0 :: b1 :: b2 :: b3 :: rest =>
    ((b0 <<< 24) ||| (b1 <<< 16) ||| (b2 <<< 8) ||| b3) :: bytesToWords rest
  | _ => []

/-- Message-schedule extension, accumulating words latest-first: the next word is
`rotl1 (w[i-3] xor w[i-8] xor w[i-14] xor w[i-16])`. -/
def sha1ExtendRev (acc : List Nat) : Nat → List Nat
  | 0 => acc
  | n + 1 =>
    sha1ExtendRev
      (rotl32 ((acc.getD 2 0) ^^^ (acc.getD 7 0) ^^^ (acc.getD 13 0) ^^^ (acc.getD 15 0)) 1
        :: acc) n

/-- The 80-word message schedule of one chunk. -/
def sha1Schedule (chunk : List Nat) : List Nat :=
  (sha1ExtendRev (bytesToWords chunk).reverse 64).reverse

/-- One SHA-1 round. -/
def sha1Round (st : Nat × Nat × Nat × Nat × Nat) (i wi : Nat) :
    Nat × Nat × Nat × Nat × Nat :=
  let a := st.1
  let b := st.2.1
  let c := st.2.2.1
  let d := st.2.2.2.1
  let e := st.2.2.2.2
  let f :=
    if i < 20 then (b &&& c) ||| ((0xFFFFFFFF ^^^ b) &&& d)
    else if i < 40 then b ^^^ c ^^^ d
    else if i < 60 then (b &&& c) ||| (b &&& d) ||| (c &&& d)
    else b ^^^ c ^^^ d
  let k :=
    if i < 20 then 0x5A827999
    else if i < 40 then 0x6ED9EBA1
    else if i < 60 then 0x8F1BBCDC
    else 0xCA62C1D6
  let temp := (rotl32 a 5 + f + e + k + wi) % 4294967296
  (temp, a, rotl32 b 30, c, d)

/-- Process one 64-byte chunk. -/
def sha1Chunk (h : Nat × Nat × Nat × Nat × Nat) (chunk : List Nat) :
    Nat × Nat × Nat × Nat × Nat :=
  let st := (sha1Schedule chunk).enum.foldl (fun st p => sha1Round st p.1 p.2) h
  ((h.1 + st.1) % 4294967296, (h.2.1 + st.2.1) % 4294967296,
    (h.2.2.1 + st.2.2.1) % 4294967296, (h.2.2.2.1 + st.2.2.2.1) % 4294967296,
    (h.2.2.2.2 + st.2.2.2.2) % 4294967296)

/-- Fuelled 64-byte chunking (the fuel is an upper bound on the number of chunks, so
the recursion is structural and evaluates inside the kernel). -/
def chunks64 : Nat → List Nat → List (List Nat)
  | 0, _ => []
  | _ + 1, [] => []
  | n + 1, l => l.take 64 :: chunks64 n (l.drop 64)

/-- Go `sha1.Sum`: the 20 digest bytes. -/
def sha1Bytes (msg : List Nat) : List Nat :=
  let padded := sha1Pad msg
  let final := (chunks64 padded.length padded).foldl sha1Chunk
    (0x67452301, 0xEFCDAB89, 0x98BADCFE, 0x10325476, 0xC3D2E1F0)
  wordBE final.1 ++ wordBE final.2.1 ++ wordBE final.2.2.1 ++ wordBE final.2.2.2.1
    ++ wordBE final.2.2.2.2

/-- The sixteen lowercase hexadecimal digits. -/
def hexDigits : List Char := "0123456789abcdef".toList

/-- One hexadecimal digit character. -/
def hexDigitChar (n : Nat) : Char := hexDigits.getD (n % 16) '0'

/-- Two lowercase hexadecimal characters of one byte (Go `fmt.Sprintf("%x", ...)`). -/
def byteToHexChars (b : Nat) : List Char := [hexDigitChar (b >>> 4), hexDigitChar b]

/-- Go `fmt.Sprintf("%x", sha1.Sum([]byte(volumeID)))`. -/
def sha1HexString (msg : List Nat) : String :=
  String.mk ((sha1Bytes msg).flatMap byteToHexChars)

/-- The three-step sanitization transform of Go `sanitizeVolumeID`: strip the first
occurrence of `beegfs://`, double every `_`, then replace every `/` with `_`. -/
def sanitizeTransform (l : List Char) : List Char :=
  replaceCharList '/' ['_']
    (replaceCharList '_' ['_', '_'] (replaceFirstList ("beegfs://".toList) [] l))

/-- Go `sanitizeVolumeID(volumeID)`: the transform, or the 40-hex-character SHA-1 of
the original volumeID when the transform's byte length exceeds 255 (Go `len` counts
bytes). -/
def sanitizeVolumeID (volumeID : String) : String :=
  let sanitized := sanitizeTransform volumeID.toList
  if (utf8Encode sanitized).length > 255 then sha1HexString (utf8Encode volumeID.toList)
  else String.mk sanitized

theorem sha1Bytes_length (msg : List Nat) : (sha1Bytes msg).length = 20 := by
  unfold sha1Bytes
  simp [wordBE]

theorem flatMap_byteToHexChars_length (l : List Nat) :
    (l.flatMap byteToHexChars).length = 2 * l.length := by
  induction l with
  | nil => rfl
  | cons hd tl ih =>
    simp only [List.flatMap_cons, List.length_append, ih, byteToHexChars]
    simp
    omega

theorem sha1HexString_length (msg : List Nat) : (sha1HexString msg).length = 40 := by
  show ((sha1Bytes msg).flatMap byteToHexChars).length = 40
  rw [flatMap_byteToHexChars_length, sha1Bytes_length]

theorem hexDigitChar_mem (n : Nat) : hexDigitChar n ∈ hexDigits := by
  have h : n % 16 < hexDigits.length := by
    have : n % 16 < 16 := Nat.mod_lt _ (by omega)
    simpa [hexDigits] using this
  rw [hexDigitChar, List.getD_eq_getElem hexDigits '0' h]
  exact List.getElem_mem h

theorem sha1HexString_chars (msg : List Nat) :
    ∀ ch ∈ (sha1HexString msg).toList, ch ∈ hexDigits := by
  intro ch hch
  have hch2 : ch ∈ (sha1Bytes msg).flatMap byteToHexChars := hch
  obtain ⟨b, _, hb⟩ := List.mem_flatMap.mp hch2
  simp only [byteToHexChars, List.mem_cons, List.not_mem_nil, or_false] at hb
  rcases hb with hb | hb <;> exact hb ▸ hexDigitChar_mem _

theorem replaceCharList_old_not_mem (old : Char) (new : List Char) (s : List Char)
    (h : old ∉ new) : old ∉ replaceCharList old new s := by
  induction s with
  | nil => simp [replaceCharList]
  | cons c rest ih =>
    by_cases hc : c = old
    · subst hc
      rw [show replaceCharList c new (c :: rest) = new ++ replaceCharList c new rest from by
        simp [replaceCharList]]
      simp only [List.mem_append, not_or]
      exact ⟨h, ih⟩
    · simp only [replaceCharList, if_neg hc, List.mem_cons, not_or]
      exact ⟨fun he => hc he.symm, ih⟩

theorem count_replaceCharList_double (s : List Char) :
    (replaceCharList '_' ['_', '_'] s).count '_' = 2 * s.count '_' := by
  induction s with
  | nil => rfl
  | cons c rest ih =>
    by_cases hc : c = '_'
    · subst hc
      simp [replaceCharList, ih, List.count_cons]
      omega
    · simp [replaceCharList, hc, List.count_cons, ih]

theorem count_replaceCharList_other (old : Char) (new : List Char) (c : Char)
    (s : List Char) (hnew : c ∉ new) (hold : c ≠ old) :
    (replaceCharList old new s).count c = s.count c := by
  induction s with
  | nil => rfl
  | cons x rest ih =>
    by_cases hx : x = old
    · subst hx
      have hzero : new.count c = 0 := List.count_eq_zero.mpr hnew
      simp [replaceCharList, List.count_append, hzero, ih, List.count_cons,
        fun h : c = x => hold h]
    · simp [replaceCharList, hx, List.count_cons, ih]

theorem count_replaceCharList_slash (s : List Char) :
    (replaceCharList '/' ['_'] s).count '_' = s.count '_' + s.count '/' := by
  induction s with
  | nil => rfl
  | cons c rest ih =>
    by_cases hc : c = '/'
    · subst hc
      simp [replaceCharList, List.count_cons, ih]
      omega
    · simp [replaceCharList, hc, List.count_cons, ih]
      by_cases h2 : c = '_'
      · simp [h2]
        omega
      · simp [h2]

/-- C4: `sanitizeVolumeID` is a deterministic pure function of the volume identity; it
strips the first occurrence of the scheme prefix, doubles every literal underscore,
then replaces every path separator with a single underscore (so no separator remains
and the underscore count is exactly doubled plus one per separator), and it returns
the 40-lowercase-hex-character SHA-1 of the original identity exactly when the
transformed result exceeds 255 bytes, otherwise the transformed result itself. -/
theorem sanitizeVolumeID_characterization (volumeID : String) :
    ((utf8Encode (sanitizeTransform volumeID.toList)).length > 255 →
      sanitizeVolumeID volumeID = sha1HexString (utf8Encode volumeID.toList)
      ∧ (sanitizeVolumeID volumeID).length = 40
      ∧ ∀ ch ∈ (sanitizeVolumeID volumeID).toList, ch ∈ hexDigits)
    ∧ ((utf8Encode (sanitizeTransform volumeID.toList)).length ≤ 255 →
      sanitizeVolumeID volumeID = String.mk (sanitizeTransform volumeID.toList))
    ∧ '/' ∉ sanitizeTransform volumeID.toList
    ∧ (sanitizeTransform volumeID.toList).count '_'
        = 2 * (replaceFirstList ("beegfs://".toList) [] volumeID.toList).count '_'
          + (replaceFirstList ("beegfs://".toList) [] volumeID.toList).count '/' := by
  refine ⟨?_, ?_, ?_, ?_⟩
  · intro hlong
    have heq : sanitizeVolumeID volumeID = sha1HexString (utf8Encode volumeID.toList) := by
      unfold sanitizeVolumeID
      rw [if_pos hlong]
    refine ⟨heq, ?_, ?_⟩
    · rw [heq]; exact sha1HexString_length _
    · rw [heq]; exact sha1HexString_chars _
  · intro hshort
    unfold sanitizeVolumeID
    rw [if_neg (by omega)]
  · exact replaceCharList_old_not_mem '/' ['_'] _ (by decide)
  · unfold sanitizeTransform
    rw [count_replaceCharList_slash, count_replaceCharList_double,
      count_replaceCharList_other '_' ['_', '_'] '/' _ (by decide) (by decide)]

/-- Long identity whose sanitized form exceeds 255 bytes, for the C4 witness. -/
def longVolumeID : String := "beegfs://host/" ++ String.mk (List.replicate 260 'a')

set_option maxRecDepth 10000 in
/-- C4 witness: the characterization applied on both sides of the 255-byte threshold. -/
theorem sanitizeVolumeID_characterization_witness :
    ((utf8Encode (sanitizeTransform longVolumeID.toList)).length > 255
      ∧ sanitizeVolumeID longVolumeID = sha1HexString (utf8Encode longVolumeID.toList)
      ∧ (sanitizeVolumeID longVolumeID).length = 40)
    ∧ ((utf8Encode (sanitizeTransform ("beegfs://127.0.0.1/scratch/vol1").toList)).length
          ≤ 255
      ∧ sanitizeVolumeID "beegfs://127.0.0.1/scratch/vol1"
          = String.mk (sanitizeTransform ("beegfs://127.0.0.1/scratch/vol1").toList)) := by
  have hlong : (utf8Encode (sanitizeTransform longVolumeID.toList)).length > 255 := by
    decide
  have hshort :
      (utf8Encode (sanitizeTransform ("beegfs://127.0.0.1/scratch/vol1").toList)).length
        ≤ 255 := by
    decide
  have h1 := (sanitizeVolumeID_characterization longVolumeID).1 hlong
  have h2 := (sanitizeVolumeID_characterization "beegfs://127.0.0.1/scratch/vol1").2.1 hshort
  exact ⟨⟨hlong, h1.1, h1.2.1⟩, hshort, h2⟩

/-! ## Volume identity codec (src/pkg/beegfs/beegfs_util.go, `newBeegfsUrl` /
`parseBeegfsUrl`)

`newBeegfsUrl` builds `url.URL{Scheme: "beegfs", Host: host, Path: path}.String()`;
`parseBeegfsUrl` runs `url.Parse` and checks the scheme.  The relevant behaviour of Go
`net/url` (Go 1.16, `viaRequest = false`, no user info stored, no opaque output from
`String`) is embedded below on character lists.  Percent-decoding of multi-byte UTF-8
sequences is out of the model (decoded bytes are mapped to code points directly); the
round-trip theorem is stated for ASCII inputs where the two views coincide. -/

/-- Go `stringContainsCTLByte`: a control character (below space, or DEL). -/
def isCTLChar (c : Char) : Bool := decide (c.toNat < 0x20) || c.toNat == 0x7F

/-- ASCII letters and digits, as bytes. -/
def isAlnumByte (b : Nat) : Bool :=
  (decide (0x41 ≤ b) && decide (b ≤ 0x5A)) || (decide (0x61 ≤ b) && decide (b ≤ 0x7A))
    || (decide (0x30 ≤ b) && decide (b ≤ 0x39))

/-- Bytes that Go `shouldEscape` additionally leaves unescaped in host mode. -/
def hostSafeBytes : List Nat :=
  ['!', '$', '&', '\'', '(', ')', '*', '+', ',', ';', '=', ':', '[', ']', '<', '>',
    '"'].map Char.toNat

/-- Bytes Go `shouldEscape` never escapes (`-_.~`). -/
def alwaysSafeBytes : List Nat := ['-', '_', '.', '~'].map Char.toNat

/-- Bytes Go `shouldEscape` leaves unescaped in path mode beyond the always-safe set. -/
def pathSafeBytes : List Nat :=
  ['$', '&', '+', ',', '/', ':', ';', '=', '@'].map Char.toNat

/-- Go `shouldEscape(b, encodeHost)`. -/
def shouldEscapeHost (b : Nat) : Bool :=
  !(isAlnumByte b || hostSafeBytes.contains b || alwaysSafeBytes.contains b)

/-- Go `shouldEscape(b, encodePath)`. -/
def shouldEscapePath (b : Nat) : Bool :=
  !(isAlnumByte b || alwaysSafeBytes.contains b || pathSafeBytes.contains b)

/-- The sixteen uppercase hexadecimal digits used by Go `escape`. -/
def hexUpperDigits : List Char := "0123456789ABCDEF".toList

/-- Go `escape`: percent-encode every byte the mode escapes. -/
def escapeBytes (shouldEsc : Nat → Bool) (bs : List Nat) : List Char :=
  bs.flatMap (fun b =>
    if shouldEsc b then
      ['%', hexUpperDigits.getD ((b >>> 4) % 16) '0', hexUpperDigits.getD (b % 16) '0']
    else [Char.ofNat b])

/-- Go `escape` on a character list (bytes are its UTF-8 encoding). -/
def escapeList (l : List Char) (shouldEsc : Nat → Bool) : List Char :=
  escapeBytes shouldEsc (utf8Encode l)

/-- Hexadecimal value of one digit (Go `unhex`). -/
def hexCharVal (c : Char) : Nat :=
  if c.isDigit then c.toNat - '0'.toNat
  else if decide ('a' ≤ c) && decide (c ≤ 'f') then c.toNat - 'a'.toNat + 10
  else c.toNat - 'A'.toNat + 10

/-- Error taxonomy of the embedded `net/url` parser plus the driver's scheme check. -/
inductive urlError where
  | invalidControlCharacter
  | missingProtocolScheme
  | invalidEscape
  | invalidHostCharacter
  | missingCloseBracket
  | invalidPort
  | invalidUserinfo
  | firstPathSegmentColon
  | incorrectScheme
deriving DecidableEq

/-- Go `unescape(s, mode)` for the host (`hostMode = true`) and path/fragment modes:
percent-decode, rejecting malformed escapes; in host mode additionally reject raw
characters the host encoding would escape, and `%XY` escapes of ASCII bytes other than
`%25`. -/
def unescapeList (hostMode : Bool) : List Char → Except urlError (List Char)
  | [] => .ok []
  | c :: rest =>
    if c = '%' then
      match rest with
      | d1 :: d2 :: rest2 =>
        if isHexChar d1 && isHexChar d2 then
          if hostMode && decide (hexCharVal d1 < 8) && !(d1 == '2' && d2 == '5') then
            .error .invalidHostCharacter
          else
            (unescapeList hostMode rest2).map
              (fun tail => Char.ofNat (hexCharVal d1 * 16 + hexCharVal d2) :: tail)
        else .error .invalidEscape
      | _ => .error .invalidEscape
    else if hostMode && decide (c.toNat < 0x80) && shouldEscapeHost c.toNat then
      .error .invalidHostCharacter
    else (unescapeList hostMode rest).map (fun tail => c :: tail)

/-- Go `validOptionalPort`. -/
def validOptionalPort : List Char → Bool
  | [] => true
  | ':' :: rest => rest.all Char.isDigit
  | _ => false

/-- Go `parseHost` (bracketed IPv6 literals keep their brackets; port syntax is
validated, then the host is unescaped in host mode). -/
def parseHost (host : List Char) : Except urlError (List Char) :=
  if host.head? = some '[' then
    match splitFirstAux ']' host.reverse with
    | none => .error .missingCloseBracket
    | some (revAfter, _) =>
      if validOptionalPort revAfter.reverse then unescapeList true host
      else .error .invalidPort
  else
    match splitFirstAux ':' host.reverse with
    | some (revPort, _) =>
      if validOptionalPort (':' :: revPort.reverse) then unescapeList true host
      else .error .invalidPort
    | none => unescapeList true host

/-- Go `validUserinfo` characters. -/
def validUserinfoChar (c : Char) : Bool :=
  isAlnumByte c.toNat ||
    ['-', '.', '_', ':', '~', '!', '$', '&', '\'', '(', ')', '*', '+', ',', ';', '=',
      '%', '@'].contains c

/-- Go `parseAuthority`: split user info at the last `@` (validated, not stored: the
driver never produces user info) and parse the host part. -/
def parseAuthority (authority : List Char) : Except urlError (List Char) :=
  match splitFirstAux '@' authority.reverse with
  | none => parseHost authority
  | some (revHost, revUser) =>
    if revUser.reverse.all validUserinfoChar then parseHost revHost.reverse
    else .error .invalidUserinfo

/-- Result of Go `url.Parse` (the fields the driver reads; user info is validated but
not stored). -/
structure GoURL where
  Scheme : List Char := []
  Opaque : List Char := []
  Host : List Char := []
  Path : List Char := []
  RawQuery : List Char := []
  ForceQuery : Bool := false
  Fragment : List Char := []
deriving DecidableEq

/-- Go `getscheme`: scan for `scheme:`; a leading digit/`+`/`-`/`.` or any other
non-scheme character means there is no scheme. -/
def getSchemeAux (orig : List Char) : List Char → List Char → Except urlError (List Char × List Char)
  | [], _ => .ok ([], orig)
  | c :: rest, acc =>
    if c.isAlpha then getSchemeAux orig rest (c :: acc)
    else if c.isDigit || c == '+' || c == '-' || c == '.' then
      if acc.isEmpty then .ok ([], orig) else getSchemeAux orig rest (c :: acc)
    else if c == ':' then
      if acc.isEmpty then .error .missingProtocolScheme
      else .ok (acc.reverse, rest)
    else .ok ([], orig)

/-- Go `getscheme(rawURL)`. -/
def getScheme (l : List Char) : Except urlError (List Char × List Char) :=
  getSchemeAux l l []

/-- Last character test (Go `strings.HasSuffix(s, "?")`). -/
def hasSuffixChar (l : List Char) (c : Char) : Bool := l.getLast? == some c

/-- Authority-and-path stage of Go `url.parse` (after the opaque short-circuit): take
the authority between `//` and the next `/`, then set the percent-decoded path. -/
def parseAuthorityAndPath (scheme rest rq : List Char) (fq : Bool) :
    Except urlError GoURL :=
  if (decide (scheme ≠ []) || !(listIsPrefix ('/' :: '/' :: '/' :: []) rest))
      && listIsPrefix ('/' :: '/' :: []) rest then
    let after := rest.drop 2
    let authority := match splitFirstAux '/' after with | some p => p.1 | none => after
    let rest2 := match splitFirstAux '/' after with | some p => '/' :: p.2 | none => []
    match parseAuthority authority with
    | .error e => .error e
    | .ok host =>
      match unescapeList false rest2 with
      | .error e => .error e
      | .ok path =>
        .ok { Scheme := scheme, Host := host, Path := path, RawQuery := rq, ForceQuery := fq }
  else
    match unescapeList false rest with
    | .error e => .error e
    | .ok path => .ok { Scheme := scheme, Path := path, RawQuery := rq, ForceQuery := fq }

/-- Go `url.parse(rest, viaRequest = false)` after scheme extraction: force-query /
query split, the opaque short-circuit, the colon-in-first-segment check, then
authority and path. -/
def parseRest (scheme rest0 : List Char) : Except urlError GoURL :=
  let fq := hasSuffixChar rest0 '?' && !(rest0.dropLast.contains '?')
  let rest1 :=
    if fq then rest0.dropLast
    else match splitFirstAux '?' rest0 with | some p => p.1 | none => rest0
  let rq :=
    if fq then []
    else match splitFirstAux '?' rest0 with | some p => p.2 | none => []
  if rest1.head? ≠ some '/' then
    if scheme ≠ [] then
      .ok { Scheme := scheme, Opaque := rest1, RawQuery := rq, ForceQuery := fq }
    else
      let segment := match splitFirstAux '/' rest1 with | some p => p.1 | none => rest1
      if segment.contains ':' then .error .firstPathSegmentColon
      else parseAuthorityAndPath scheme rest1 rq fq
  else parseAuthorityAndPath scheme rest1 rq fq

/-- Go `url.parse(rawURL, false)`: control-character check, the `*` special case,
scheme extraction and lowering, then the rest. -/
def parseURLCore (l : List Char) : Except urlError GoURL :=
  if l.any isCTLChar then .error .invalidControlCharacter
  else if l == ['*'] then .ok { Path := ['*'] }
  else match getScheme l with
  | .error e => .error e
  | .ok (sch, rest) => parseRest (sch.map Char.toLower) rest

/-- Go `url.Parse(rawURL)`: split the fragment off first, parse the rest, then set the
percent-decoded fragment. -/
def parseURL (s : String) : Except urlError GoURL :=
  match splitFirstAux '#' s.toList with
  | none => parseURLCore s.toList
  | some (before, frag) =>
    match parseURLCore before with
    | .error e => .error e
    | .ok u =>
      match unescapeList false frag with
      | .error e => .error e
      | .ok f => .ok { u with Fragment := f }

/-- Go `url.URL{Scheme: scheme, Host: host, Path: path}.String()` for a non-empty
scheme, no user info, no opaque part, no query and no fragment. -/
def urlStringList (scheme host path : List Char) : List Char :=
  let escapedPath := escapeList path shouldEscapePath
  scheme ++ [':']
    ++ (if ¬ host.isEmpty || ¬ path.isEmpty then
          '/' :: '/' :: escapeList host shouldEscapeHost
        else [])
    ++ (match escapedPath.head? with
        | some c => if c ≠ '/' ∧ ¬ host.isEmpty then ['/'] else []
        | none => [])
    ++ escapedPath

/-- Go `newBeegfsUrl(host, path)` (src/pkg/beegfs/beegfs_util.go). -/
def newBeegfsUrl (host path : String) : String :=
  String.mk (urlStringList ("beegfs".toList) host.toList path.toList)

/-- Go `parseBeegfsUrl(rawUrl)` (src/pkg/beegfs/beegfs_util.go): `url.Parse`, then the
exact scheme check. -/
def parseBeegfsUrl (rawUrl : String) : Except urlError (String × String) :=
  match parseURL rawUrl with
  | .error e => .error e
  | .ok u =>
    if u.Scheme ≠ "beegfs".toList then .error .incorrectScheme
    else .ok (String.mk u.Host, String.mk u.Path)

/-- The scheme component of a `getscheme` outcome (`none` when the scan fails). -/
def schemeView : Except urlError (List Char × List Char) → Option (List Char)
  | .error _ => none
  | .ok (sch, _) => some sch

/-- The scheme of an identity string as URL syntax determines it (Go `getscheme` on
the pre-fragment part, followed by the lowercase normalization `url.Parse` applies;
the fragment split never changes the scheme, proved below). -/
def schemePartList (l : List Char) : Option (List Char) :=
  (schemeView (getScheme l)).map (List.map Char.toLower)

/-- The (normalized) scheme of an identity string. -/
def urlSchemeOf (s : String) : Option (List Char) :=
  schemePartList s.toList

/-- Host characters the codec transports untouched: ASCII letters and digits plus
`.`, `-` and `_` — every host of the driver's domain (`localhost`, IPv4 literals,
domain names) is of this shape. -/
def validUrlHostChar (c : Char) : Bool :=
  isAlnumByte c.toNat || c == '.' || c == '-' || c == '_'

/-- ASCII code point. -/
def asciiChar (c : Char) : Bool := decide (c.toNat < 0x80)

theorem isAlnumByte_lt (b : Nat) (h : isAlnumByte b = true) : b < 128 := by
  simp only [isAlnumByte, Bool.or_eq_true, Bool.and_eq_true, decide_eq_true_eq] at h
  omega

theorem validUrlHostChar_spec (c : Char) (h : validUrlHostChar c = true) :
    c.toNat < 128 ∧ shouldEscapeHost c.toNat = false := by
  simp only [validUrlHostChar, Bool.or_eq_true, beq_iff_eq] at h
  rcases h with ((ha | hd) | hd) | hd
  · refine ⟨isAlnumByte_lt _ ha, ?_⟩
    simp [shouldEscapeHost, ha]
  · subst hd; exact ⟨by decide, by decide⟩
  · subst hd; exact ⟨by decide, by decide⟩
  · subst hd; exact ⟨by decide, by decide⟩

theorem validUrlHostChar_ne (c x : Char) (hc : validUrlHostChar c = true)
    (hx : validUrlHostChar x = false) : c ≠ x := by
  intro he
  rw [he, hx] at hc
  exact absurd hc (by simp)

theorem utf8EncodeChar_ascii (c : Char) (h : c.toNat < 128) :
    utf8EncodeChar c = [c.toNat] := by
  simp only [utf8EncodeChar]
  rw [if_pos (by omega)]

theorem escapeList_cons (l : List Char) (c : Char) (f : Nat → Bool) :
    escapeList (c :: l) f = escapeBytes f (utf8EncodeChar c) ++ escapeList l f := by
  simp [escapeList, utf8Encode, escapeBytes, List.flatMap_append]

theorem escapeList_host_id (l : List Char) (h : ∀ c ∈ l, validUrlHostChar c = true) :
    escapeList l shouldEscapeHost = l := by
  induction l with
  | nil => rfl
  | cons c rest ih =>
    obtain ⟨hlt, hesc⟩ := validUrlHostChar_spec c (h c (List.mem_cons_self _ _))
    rw [escapeList_cons, utf8EncodeChar_ascii c hlt,
      ih (fun x hx => h x (List.mem_cons_of_mem _ hx))]
    simp [escapeBytes, hesc, Char.ofNat_toNat]

theorem unescapeList_host_id (l : List Char) (h : ∀ c ∈ l, validUrlHostChar c = true) :
    unescapeList true l = .ok l := by
  induction l with
  | nil => rfl
  | cons c rest ih =>
    have hc := h c (List.mem_cons_self _ _)
    have hne : c ≠ '%' := validUrlHostChar_ne c '%' hc (by decide)
    obtain ⟨_, hesc⟩ := validUrlHostChar_spec c hc
    unfold unescapeList
    rw [if_neg hne, if_neg (by simp [hesc]), ih (fun x hx => h x (List.mem_cons_of_mem _ hx))]
    rfl

theorem splitFirstAux_eq_none (c : Char) (l : List Char) (h : ∀ x ∈ l, x ≠ c) :
    splitFirstAux c l = none := by
  induction l with
  | nil => rfl
  | cons x rest ih =>
    simp only [splitFirstAux, if_neg (h x (List.mem_cons_self _ _)),
      ih (fun y hy => h y (List.mem_cons_of_mem _ hy)), Option.map_none']

theorem splitFirstAux_append (c : Char) (a b : List Char) (h : ∀ x ∈ a, x ≠ c) :
    splitFirstAux c (a ++ c :: b) = some (a, b) := by
  induction a with
  | nil => simp [splitFirstAux]
  | cons x rest ih =>
    have hx := h x (List.mem_cons_self _ _)
    have ih2 := ih (fun y hy => h y (List.mem_cons_of_mem _ hy))
    show splitFirstAux c (x :: (rest ++ c :: b)) = some (x :: rest, b)
    simp only [splitFirstAux, if_neg hx, List.append_eq, ih2, Option.map_some']

theorem splitFirstAux_eq_some (c : Char) (l a b : List Char)
    (h : splitFirstAux c l = some (a, b)) : l = a ++ c :: b ∧ ∀ x ∈ a, x ≠ c := by
  induction l generalizing a b with
  | nil => simp [splitFirstAux] at h
  | cons x rest ih =>
    by_cases hx : x = c
    · subst hx
      simp only [splitFirstAux, if_pos rfl, Option.some.injEq, Prod.mk.injEq] at h
      obtain ⟨rfl, rfl⟩ := h
      simp
    · simp only [splitFirstAux, if_neg hx] at h
      cases hrec : splitFirstAux c rest with
      | none => rw [hrec] at h; simp at h
      | some p =>
        obtain ⟨a', b'⟩ := p
        rw [hrec] at h
        simp only [Option.map_some', Option.some.injEq, Prod.mk.injEq] at h
        obtain ⟨rfl, rfl⟩ := h
        obtain ⟨hl, hnot⟩ := ih a' b' hrec
        refine ⟨by rw [hl]; rfl, ?_⟩
        intro y hy
        rcases List.mem_cons.mp hy with rfl | hy
        · exact hx
        · exact hnot y hy

theorem getLast?_mem (l : List Char) (a : Char) (h : l.getLast? = some a) : a ∈ l := by
  induction l with
  | nil => simp at h
  | cons x rest ih =>
    cases rest with
    | nil =>
      simp only [List.getLast?_singleton, Option.some.injEq] at h
      simp [h]
    | cons y t =>
      rw [List.getLast?_cons_cons] at h
      exact List.mem_cons_of_mem _ (ih h)

theorem hasSuffixChar_eq_false (l : List Char) (c : Char) (h : ∀ x ∈ l, x ≠ c) :
    hasSuffixChar l c = false := by
  unfold hasSuffixChar
  cases hl : l.getLast? with
  | none => rfl
  | some a =>
    have := h a (getLast?_mem l a hl)
    simp [this]

theorem hexUpperDigits_facts :
    ∀ c ∈ hexUpperDigits, isHexChar c = true ∧ c ≠ '#' ∧ c ≠ '?' ∧ c ≠ '/'
      ∧ isCTLChar c = false := by decide

theorem hexCharVal_hexUpperDigits : ∀ n, n < 16 → hexCharVal (hexUpperDigits.getD n '0') = n := by
  decide

theorem ctl_or_special_escaped :
    ∀ b, b < 128 → (b < 0x20 ∨ b = 0x7F ∨ b = 35 ∨ b = 63 ∨ b = 37) →
      shouldEscapePath b = true := by decide

/-- Characters that can appear in the percent-escaped form of an ASCII path. -/
theorem escapeList_path_chars (l : List Char) (hascii : ∀ c ∈ l, c.toNat < 128) :
    ∀ c ∈ escapeList l shouldEscapePath,
      c = '%' ∨ c ∈ hexUpperDigits ∨ (c.toNat < 128 ∧ shouldEscapePath c.toNat = false) := by
  induction l with
  | nil => simp [escapeList, utf8Encode, escapeBytes]
  | cons x rest ih =>
    intro c hc
    rw [escapeList_cons, utf8EncodeChar_ascii x (hascii x (List.mem_cons_self _ _))] at hc
    rcases List.mem_append.mp hc with hc | hc
    · simp only [escapeBytes, List.flatMap_cons, List.flatMap_nil, List.append_nil] at hc
      by_cases hesc : shouldEscapePath x.toNat = true
      · rw [if_pos hesc] at hc
        rcases List.mem_cons.mp hc with rfl | hc2
        · exact Or.inl rfl
        · rcases List.mem_cons.mp hc2 with rfl | hc3
          · exact Or.inr (Or.inl (by
              rw [List.getD_eq_getElem hexUpperDigits '0'
                (by simp [hexUpperDigits]; omega)]
              exact List.getElem_mem _))
          · rcases List.mem_cons.mp hc3 with rfl | hc4
            · exact Or.inr (Or.inl (by
                rw [List.getD_eq_getElem hexUpperDigits '0'
                  (by simp [hexUpperDigits]; omega)]
                exact List.getElem_mem _))
            · simp at hc4
      · rw [if_neg hesc] at hc
        rcases List.mem_cons.mp hc with rfl | hc2
        · rw [Char.ofNat_toNat]
          exact Or.inr (Or.inr ⟨hascii x (List.mem_cons_self _ _), by simpa using hesc⟩)
        · simp at hc2
    · exact ih (fun y hy => hascii y (List.mem_cons_of_mem _ hy)) c hc

theorem escapeList_path_not_special (l : List Char) (hascii : ∀ c ∈ l, c.toNat < 128) :
    ∀ c ∈ escapeList l shouldEscapePath, c ≠ '#' ∧ c ≠ '?' ∧ isCTLChar c = false := by
  intro c hc
  rcases escapeList_path_chars l hascii c hc with rfl | hmem | ⟨hlt, hesc⟩
  · exact ⟨by decide, by decide, by decide⟩
  · obtain ⟨_, h2, h3, _, h5⟩ := hexUpperDigits_facts c hmem
    exact ⟨h2, h3, h5⟩
  · refine ⟨?_, ?_, ?_⟩
    · intro he
      subst he
      rw [ctl_or_special_escaped _ (by decide) (by decide)] at hesc
      exact absurd hesc (by simp)
    · intro he
      subst he
      rw [ctl_or_special_escaped _ (by decide) (by decide)] at hesc
      exact absurd hesc (by simp)
    · by_cases hctl : isCTLChar c = true
      · exfalso
        simp only [isCTLChar, Bool.or_eq_true, decide_eq_true_eq, beq_iff_eq] at hctl
        have := ctl_or_special_escaped c.toNat hlt (by omega)
        rw [this] at hesc
        exact absurd hesc (by simp)
      · simpa using hctl

theorem unescapeList_percent (hostMode : Bool) (d1 d2 : Char) (rest2 : List Char) :
    unescapeList hostMode ('%' :: d1 :: d2 :: rest2) =
      if isHexChar d1 && isHexChar d2 then
        if hostMode && decide (hexCharVal d1 < 8) && !(d1 == '2' && d2 == '5') then
          .error .invalidHostCharacter
        else
          (unescapeList hostMode rest2).map
            (fun tail => Char.ofNat (hexCharVal d1 * 16 + hexCharVal d2) :: tail)
      else .error .invalidEscape := rfl

theorem unescapeList_not_percent (hostMode : Bool) (c : Char) (rest : List Char)
    (h : c ≠ '%') :
    unescapeList hostMode (c :: rest) =
      if hostMode && decide (c.toNat < 0x80) && shouldEscapeHost c.toNat then
        .error .invalidHostCharacter
      else (unescapeList hostMode rest).map (fun tail => c :: tail) := by
  conv_lhs => unfold unescapeList
  rw [if_neg h]

theorem unescape_escape_path (l : List Char) (hascii : ∀ c ∈ l, c.toNat < 128) :
    unescapeList false (escapeList l shouldEscapePath) = .ok l := by
  induction l with
  | nil => rfl
  | cons c rest ih =>
    have hlt := hascii c (List.mem_cons_self _ _)
    have ih2 := ih (fun y hy => hascii y (List.mem_cons_of_mem _ hy))
    rw [escapeList_cons, utf8EncodeChar_ascii c hlt]
    simp only [escapeBytes, List.flatMap_cons, List.flatMap_nil, List.append_nil]
    by_cases hesc : shouldEscapePath c.toNat = true
    · rw [if_pos hesc]
      have hd1 : hexUpperDigits.getD ((c.toNat >>> 4) % 16) '0' ∈ hexUpperDigits := by
        rw [List.getD_eq_getElem hexUpperDigits '0' (by simp [hexUpperDigits]; omega)]
        exact List.getElem_mem _
      have hd2 : hexUpperDigits.getD (c.toNat % 16) '0' ∈ hexUpperDigits := by
        rw [List.getD_eq_getElem hexUpperDigits '0' (by simp [hexUpperDigits]; omega)]
        exact List.getElem_mem _
      have hcond : (isHexChar (hexUpperDigits.getD ((c.toNat >>> 4) % 16) '0')
          && isHexChar (hexUpperDigits.getD (c.toNat % 16) '0')) = true := by
        rw [(hexUpperDigits_facts _ hd1).1, (hexUpperDigits_facts _ hd2).1]
        rfl
      simp only [List.cons_append, List.nil_append]
      rw [unescapeList_percent, if_pos hcond]
      simp only [Bool.false_and]
      rw [if_neg (by simp : ¬ (false = true))]
      rw [hexCharVal_hexUpperDigits _ (Nat.mod_lt _ (by omega)),
        hexCharVal_hexUpperDigits _ (Nat.mod_lt _ (by omega))]
      have hval : (c.toNat >>> 4) % 16 * 16 + c.toNat % 16 = c.toNat := by
        rw [Nat.shiftRight_eq_div_pow]
        omega
      rw [hval, Char.ofNat_toNat, ih2]
      rfl
    · rw [if_neg hesc, Char.ofNat_toNat]
      have hne : c ≠ '%' := by
        intro he
        subst he
        rw [ctl_or_special_escaped _ (by decide) (by decide)] at hesc
        exact hesc rfl
      simp only [List.cons_append, List.nil_append]
      rw [unescapeList_not_percent false c _ hne]
      simp only [Bool.false_and]
      rw [if_neg (by simp : ¬ (false = true)), ih2]
      rfl

theorem parseAuthorityAndPath_scheme (scheme rest rq : List Char) (fq : Bool) (u : GoURL)
    (h : parseAuthorityAndPath scheme rest rq fq = .ok u) : u.Scheme = scheme := by
  simp only [parseAuthorityAndPath] at h
  repeat' split at h
  all_goals
    first
      | (injection h with h2; subst h2; rfl)
      | injection h

theorem parseRest_scheme (scheme rest0 : List Char) (u : GoURL)
    (h : parseRest scheme rest0 = .ok u) : u.Scheme = scheme := by
  simp only [parseRest] at h
  repeat' split at h
  all_goals
    first
      | (injection h with h2; subst h2; rfl)
      | injection h
      | exact parseAuthorityAndPath_scheme _ _ _ _ _ h

theorem parseURLCore_scheme (l : List Char) (u : GoURL) (h : parseURLCore l = .ok u) :
    schemePartList l = some u.Scheme := by
  unfold parseURLCore at h
  by_cases hctl : l.any isCTLChar = true
  · rw [if_pos hctl] at h
    exact absurd h (by simp)
  · rw [if_neg hctl] at h
    by_cases hstar : (l == ['*']) = true
    · rw [if_pos hstar] at h
      injection h with h2
      subst h2
      have hl : l = ['*'] := by simpa using hstar
      subst hl
      rfl
    · rw [if_neg hstar] at h
      cases hgs : getScheme l with
      | error e =>
        rw [hgs] at h
        exact absurd h (by simp)
      | ok p =>
        obtain ⟨sch, rest⟩ := p
        rw [hgs] at h
        rw [parseRest_scheme _ _ _ h]
        unfold schemePartList
        rw [hgs]
        rfl

theorem getSchemeAux_hash (b : List Char) :
    ∀ (l acc orig orig' : List Char), (∀ x ∈ l, x ≠ '#') →
      schemeView (getSchemeAux orig (l ++ '#' :: b) acc)
        = schemeView (getSchemeAux orig' l acc) := by
  intro l
  induction l with
  | nil =>
    intro acc orig orig' _
    rfl
  | cons c rest ih =>
    intro acc orig orig' h
    have ih2 := ih (c :: acc) orig orig' (fun y hy => h y (List.mem_cons_of_mem _ hy))
    show schemeView (getSchemeAux orig (c :: (rest ++ '#' :: b)) acc) = _
    unfold getSchemeAux
    by_cases h1 : c.isAlpha = true
    · simp only [if_pos h1]
      exact ih2
    · simp only [if_neg h1]
      by_cases h2 : (c.isDigit || c == '+' || c == '-' || c == '.') = true
      · simp only [if_pos h2]
        by_cases h3 : acc.isEmpty = true
        · simp only [if_pos h3]
          rfl
        · simp only [if_neg h3]
          exact ih2
      · simp only [if_neg h2]
        by_cases h4 : (c == ':') = true
        · simp only [if_pos h4]
          by_cases h3 : acc.isEmpty = true
          · simp only [if_pos h3]
          · simp only [if_neg h3]
            rfl
        · simp only [if_neg h4]
          rfl

theorem schemePartList_hash (a b : List Char) (h : ∀ x ∈ a, x ≠ '#') :
    schemePartList (a ++ '#' :: b) = schemePartList a := by
  unfold schemePartList getScheme
  rw [getSchemeAux_hash b a [] (a ++ '#' :: b) a h]

theorem parseURL_scheme (s : String) (u : GoURL) (h : parseURL s = .ok u) :
    urlSchemeOf s = some u.Scheme := by
  unfold parseURL at h
  cases hs : splitFirstAux '#' s.toList with
  | none =>
    rw [hs] at h
    exact parseURLCore_scheme _ _ h
  | some p =>
    obtain ⟨before, frag⟩ := p
    simp only [hs] at h
    cases hc : parseURLCore before with
    | error e =>
      simp only [hc] at h
      exact absurd h (by simp)
    | ok u0 =>
      simp only [hc] at h
      cases hu : unescapeList false frag with
      | error e =>
        simp only [hu] at h
        exact absurd h (by simp)
      | ok f =>
        simp only [hu] at h
        injection h with h2
        subst h2
        obtain ⟨hsplit, hnotin⟩ := splitFirstAux_eq_some '#' s.toList before frag hs
        show schemePartList s.toList = some u0.Scheme
        rw [hsplit, schemePartList_hash before frag hnotin]
        exact parseURLCore_scheme _ _ hc

theorem validUrlHostChar_more (c : Char) (h : validUrlHostChar c = true) :
    isCTLChar c = false ∧ c ≠ '#' ∧ c ≠ '?' ∧ c ≠ '/' ∧ c ≠ '@' ∧ c ≠ ':' ∧ c ≠ '[' := by
  refine ⟨?_, validUrlHostChar_ne c _ h (by decide), validUrlHostChar_ne c _ h (by decide),
    validUrlHostChar_ne c _ h (by decide), validUrlHostChar_ne c _ h (by decide),
    validUrlHostChar_ne c _ h (by decide), validUrlHostChar_ne c _ h (by decide)⟩
  simp only [validUrlHostChar, Bool.or_eq_true, beq_iff_eq] at h
  rcases h with ((ha | rfl) | rfl) | rfl
  · simp only [isAlnumByte, Bool.or_eq_true, Bool.and_eq_true, decide_eq_true_eq] at ha
    simp only [isCTLChar, Bool.or_eq_false_iff, decide_eq_false_iff_not, Nat.not_lt,
      beq_eq_false_iff_ne, ne_eq]
    omega
  · decide
  · decide
  · decide

theorem escapeList_nil (f : Nat → Bool) : escapeList [] f = [] := rfl

theorem escapeList_slash_cons (t : List Char) :
    escapeList ('/' :: t) shouldEscapePath = '/' :: escapeList t shouldEscapePath := by
  rw [escapeList_cons, utf8EncodeChar_ascii '/' (by decide)]
  rfl

theorem parseAuthority_valid_host (H : List Char)
    (hH : ∀ c ∈ H, validUrlHostChar c = true) : parseAuthority H = .ok H := by
  unfold parseAuthority
  rw [splitFirstAux_eq_none '@' H.reverse
    (fun x hx => (validUrlHostChar_more x (hH x (List.mem_reverse.mp hx))).2.2.2.2.1)]
  unfold parseHost
  rw [if_neg ?hbr, splitFirstAux_eq_none ':' H.reverse
    (fun x hx => (validUrlHostChar_more x (hH x (List.mem_reverse.mp hx))).2.2.2.2.2.1)]
  · exact unescapeList_host_id H hH
  case hbr =>
    cases H with
    | nil => simp
    | cons c rest =>
      have := (validUrlHostChar_more c (hH c (List.mem_cons_self _ _))).2.2.2.2.2.2
      simp [this]

theorem parseAuthorityAndPath_roundtrip (H P : List Char)
    (hH : ∀ c ∈ H, validUrlHostChar c = true)
    (hP : ∀ c ∈ P, c.toNat < 128)
    (hPabs : P = [] ∨ (∃ t, P = '/' :: t)) :
    parseAuthorityAndPath ("beegfs".toList)
        ('/' :: '/' :: (H ++ escapeList P shouldEscapePath)) [] false
      = .ok { Scheme := "beegfs".toList, Host := H, Path := P } := by
  have hnoslashH : ∀ x ∈ H, x ≠ '/' := fun x hx => (validUrlHostChar_more x (hH x hx)).2.2.2.1
  have hauth := parseAuthority_valid_host H hH
  have hpre : ((decide (("beegfs".toList : List Char) ≠ [])
      || !(listIsPrefix ['/', '/', '/'] ('/' :: '/' :: (H ++ escapeList P shouldEscapePath))))
      && listIsPrefix ['/', '/'] ('/' :: '/' :: (H ++ escapeList P shouldEscapePath))) = true := rfl
  simp only [parseAuthorityAndPath, if_pos hpre, List.drop_succ_cons, List.drop_zero]
  rcases hPabs with rfl | ⟨t, rfl⟩
  · simp only [escapeList_nil, List.append_nil]
    rw [splitFirstAux_eq_none '/' H hnoslashH]
    simp only [hauth]
    rfl
  · rw [escapeList_slash_cons,
      splitFirstAux_append '/' H (escapeList t shouldEscapePath) hnoslashH]
    simp only [hauth]
    have hun : unescapeList false ('/' :: escapeList t shouldEscapePath) = .ok ('/' :: t) := by
      rw [← escapeList_slash_cons]
      exact unescape_escape_path _ hP
    simp only [hun]

theorem parseRest_roundtrip (H P : List Char)
    (hH : ∀ c ∈ H, validUrlHostChar c = true)
    (hP : ∀ c ∈ P, c.toNat < 128)
    (hPabs : P = [] ∨ (∃ t, P = '/' :: t)) :
    parseRest ("beegfs".toList) ('/' :: '/' :: (H ++ escapeList P shouldEscapePath))
      = .ok { Scheme := "beegfs".toList, Host := H, Path := P } := by
  have hnoq : ∀ x ∈ ('/' :: '/' :: (H ++ escapeList P shouldEscapePath)), x ≠ '?' := by
    intro x hx
    rcases List.mem_cons.mp hx with rfl | hx
    · decide
    rcases List.mem_cons.mp hx with rfl | hx
    · decide
    rcases List.mem_append.mp hx with hx | hx
    · exact (validUrlHostChar_more x (hH x hx)).2.2.1
    · exact (escapeList_path_not_special P hP x hx).2.1
  have hsuf : hasSuffixChar ('/' :: '/' :: (H ++ escapeList P shouldEscapePath)) '?' = false :=
    hasSuffixChar_eq_false _ _ hnoq
  have hsplitq :
      splitFirstAux '?' ('/' :: '/' :: (H ++ escapeList P shouldEscapePath)) = none :=
    splitFirstAux_eq_none _ _ hnoq
  simp only [parseRest, hsuf, Bool.false_and, hsplitq, Bool.false_eq_true, if_false,
    List.head?_cons, ne_eq]
  rw [if_neg (by simp)]
  exact parseAuthorityAndPath_roundtrip H P hH hP hPabs

theorem string_mk_toList (s : String) : String.mk s.toList = s := rfl

theorem raw_beegfs_chars (H P : List Char)
    (hH : ∀ c ∈ H, validUrlHostChar c = true)
    (hP : ∀ c ∈ P, c.toNat < 128) :
    ∀ x ∈ ("beegfs".toList ++ ':' :: '/' :: '/' :: (H ++ escapeList P shouldEscapePath)),
      x ≠ '#' ∧ isCTLChar x = false := by
  intro x hx
  simp only [List.mem_append, List.mem_cons] at hx
  rcases hx with hx | rfl | rfl | rfl | hx | hx
  · have hb : ∀ c ∈ ("beegfs".toList : List Char), c ≠ '#' ∧ isCTLChar c = false := by decide
    exact hb x hx
  · exact ⟨by decide, by decide⟩
  · exact ⟨by decide, by decide⟩
  · exact ⟨by decide, by decide⟩
  · exact ⟨(validUrlHostChar_more x (hH x hx)).2.1, (validUrlHostChar_more x (hH x hx)).1⟩
  · have h := escapeList_path_not_special P hP x hx
    exact ⟨h.1, h.2.2⟩

theorem parseURLCore_roundtrip (H P : List Char)
    (hH : ∀ c ∈ H, validUrlHostChar c = true)
    (hP : ∀ c ∈ P, c.toNat < 128)
    (hPabs : P = [] ∨ (∃ t, P = '/' :: t)) :
    parseURLCore ("beegfs".toList ++ ':' :: '/' :: '/' :: (H ++ escapeList P shouldEscapePath))
      = .ok { Scheme := "beegfs".toList, Host := H, Path := P } := by
  have hctl : ("beegfs".toList
      ++ ':' :: '/' :: '/' :: (H ++ escapeList P shouldEscapePath)).any isCTLChar = false := by
    rw [List.any_eq_false]
    intro x hx
    simp [(raw_beegfs_chars H P hH hP x hx).2]
  have hstar : (("beegfs".toList
      ++ ':' :: '/' :: '/' :: (H ++ escapeList P shouldEscapePath)) == ['*']) = false := rfl
  have hsch : getScheme ("beegfs".toList
        ++ ':' :: '/' :: '/' :: (H ++ escapeList P shouldEscapePath))
      = .ok ("beegfs".toList, '/' :: '/' :: (H ++ escapeList P shouldEscapePath)) := rfl
  simp only [parseURLCore, hctl, Bool.false_eq_true, if_false, hstar, hsch]
  rw [show (("beegfs".toList : List Char).map Char.toLower) = "beegfs".toList from by decide]
  exact parseRest_roundtrip H P hH hP hPabs

theorem parseBeegfsUrl_mk (raw : List Char) (hnohash : ∀ x ∈ raw, x ≠ '#')
    (H P : List Char)
    (h : parseURLCore raw = .ok { Scheme := "beegfs".toList, Host := H, Path := P }) :
    parseBeegfsUrl (String.mk raw) = .ok (String.mk H, String.mk P) := by
  unfold parseBeegfsUrl parseURL
  rw [show (String.mk raw).toList = raw from rfl]
  simp only [splitFirstAux_eq_none '#' raw hnohash, h]
  rw [if_neg (not_not_intro rfl)]

theorem urlStringList_shape (H P : List Char)
    (hH : ∀ c ∈ H, validUrlHostChar c = true)
    (hPabs : P = [] ∨ (∃ t, P = '/' :: t))
    (hne : ¬(H = [] ∧ P = [])) :
    urlStringList ("beegfs".toList) H P
      = "beegfs".toList ++ ':' :: '/' :: '/' :: (H ++ escapeList P shouldEscapePath) := by
  rcases hPabs with rfl | ⟨t, rfl⟩
  · cases H with
    | nil => exact absurd ⟨rfl, rfl⟩ hne
    | cons c rest =>
      simp only [urlStringList, escapeList_nil, escapeList_host_id _ hH]
      simp [List.append_assoc]
  · simp only [urlStringList, escapeList_slash_cons, escapeList_host_id _ hH]
    simp [List.append_assoc]

/-- C5: for every valid host/path pair — a host made of the characters the driver's
domain uses (ASCII letters and digits, `.`, `-`, `_`) and an ASCII path that is empty
or absolute, as every path the driver mints is — decoding the encoded identity returns
the original pair: `parseBeegfsUrl (newBeegfsUrl host path) = .ok (host, path)`; and
for every identity string whose URL scheme is not exactly `beegfs`, `parseBeegfsUrl`
returns an error. -/
theorem beegfsUrl_codec :
    (∀ host path : String,
      (∀ c ∈ host.toList, validUrlHostChar c = true) →
      (∀ c ∈ path.toList, c.toNat < 128) →
      (path.toList = [] ∨ (∃ t, path.toList = '/' :: t)) →
      parseBeegfsUrl (newBeegfsUrl host path) = .ok (host, path))
    ∧ (∀ s : String, urlSchemeOf s ≠ some ("beegfs".toList) →
        ∃ e, parseBeegfsUrl s = .error e) := by
  constructor
  · intro host path hH hP habs
    by_cases hdeg : host.toList = [] ∧ path.toList = []
    · have e1 : host = "" := by rw [← string_mk_toList host, hdeg.1]
      have e2 : path = "" := by rw [← string_mk_toList path, hdeg.2]
      rw [e1, e2]
      rfl
    · have hshape := urlStringList_shape host.toList path.toList hH habs hdeg
      show parseBeegfsUrl
        (String.mk (urlStringList ("beegfs".toList) host.toList path.toList)) = _
      rw [hshape]
      have hchars := raw_beegfs_chars host.toList path.toList hH hP
      rw [parseBeegfsUrl_mk _ (fun x hx => (hchars x hx).1) host.toList path.toList
        (parseURLCore_roundtrip host.toList path.toList hH hP habs)]
      rw [string_mk_toList, string_mk_toList]
  · intro s hs
    cases hp : parseURL s with
    | error e => exact ⟨e, by simp only [parseBeegfsUrl, hp]⟩
    | ok u =>
      have hsch := parseURL_scheme s u hp
      have hne : u.Scheme ≠ "beegfs".toList := by
        intro he
        exact hs (by rw [hsch, he])
      exact ⟨.incorrectScheme, by simp only [parseBeegfsUrl, hp]; rw [if_pos hne]⟩

/-- One pop of the clean buffer (Go `path.Clean`, the `out.w > dotdot` arm of the
`..` case): with the buffer held in reverse (most recent character first) and `c` the
character just removed, keep removing while the width exceeds `dotdot` and the removed
character is not a separator. -/
def popSegLoop (dotdot : Nat) : Char → List Char → List Char
  | _, [] => []
  | c, c2 :: rest =>
    if (c2 :: rest).length > dotdot ∧ c ≠ '/' then popSegLoop dotdot c2 rest
    else c2 :: rest

/-- Go `path.Clean`: `out.w--` followed by the backtracking loop of the `..` case. -/
def popSeg (dotdot : Nat) : List Char → List Char
  | [] => []
  | c :: rest => popSegLoop dotdot c rest

/-- The main loop of Go `path.Clean` (path/path.go): the remaining input is a
character list, the output buffer is kept in reverse (append = cons), `dotdot` is the
low-water mark below which `..` may not erase. -/
def cleanLoop (rooted : Bool) : Nat → List Char → Nat → List Char → List Char
  | 0, _, _, out => out
  | _ + 1, [], _, out => out
  | fuel + 1, c :: r, dotdot, out =>
    if c = '/' then cleanLoop rooted fuel r dotdot out
    else if c = '.' ∧ (r = [] ∨ r.head? = some '/') then
      cleanLoop rooted fuel r dotdot out
    else if c = '.' ∧ r.head? = some '.' ∧ (r.tail = [] ∨ r.tail.head? = some '/') then
      if out.length > dotdot then
        cleanLoop rooted fuel r.tail dotdot (popSeg dotdot out)
      else if rooted = false then
        let out2 := '.' :: '.' :: (if out.length > 0 then '/' :: out else out)
        cleanLoop rooted fuel r.tail out2.length out2
      else
        cleanLoop rooted fuel r.tail dotdot out
    else
      let seg := (c :: r).takeWhile fun x => decide (x ≠ '/')
      let rest := (c :: r).dropWhile fun x => decide (x ≠ '/')
      let out2 :=
        if (rooted = true ∧ out.length ≠ 1) ∨ (rooted = false ∧ out.length ≠ 0) then
          seg.reverse ++ '/' :: out
        else
          seg.reverse ++ out
      cleanLoop rooted fuel rest dotdot out2

/-- Go `path.Clean(path)`: empty input yields `.`, a rooted path starts the buffer at
`/` with `dotdot = 1`, an empty final buffer yields `.`. -/
def goClean (p : List Char) : List Char :=
  match p with
  | [] => ['.']
  | '/' :: r =>
    let out := cleanLoop true r.length r 1 ['/']
    if out.length = 0 then ['.'] else out.reverse
  | c :: r =>
    let out := cleanLoop false (c :: r).length (c :: r) 0 []
    if out.length = 0 then ['.'] else out.reverse

/-- Go `path.Join(a, b)`: skip leading empty elements, join the rest with `/`, clean. -/
def goJoin2 (a b : List Char) : List Char :=
  if a ≠ [] then goClean (a ++ '/' :: b)
  else if b ≠ [] then goClean b
  else []

/-- The `beegfs` path of the minted volume: CreateVolume normalizes the caller's
`volDirBasePath` with `path.Clean(path.Join("/", volDirBasePath))`
(src/unnamed/part_001, CreateVolume) and `newBeegfsVolume` then joins the volume name
under it with `path.Join` (src/unnamed/part_001, newBeegfsVolume). -/
def mintedVolDirPathBeegfsRoot (volDirBasePath volName : List Char) : List Char :=
  goJoin2 (goClean (goJoin2 ['/'] volDirBasePath)) volName

/-- Segments interposed with `/` (inverse of splitting on `/`). -/
def joinSegs : List (List Char) → List Char
  | [] => []
  | [s] => s
  | s :: s2 :: rest => s ++ '/' :: joinSegs (s2 :: rest)

/-- One step of rooted lexical cleaning on the segment stack (head = last segment):
empty and `.` segments vanish, `..` pops (a pop at the root is a no-op), everything
else is pushed. -/
def rootedStep (stack : List (List Char)) (seg : List Char) : List (List Char) :=
  if seg = [] ∨ seg = ['.'] then stack
  else if seg = ['.', '.'] then stack.tail
  else seg :: stack

/-- The segment stack a rooted clean leaves behind. -/
def rootedCleanSegs (parts : List (List Char)) : List (List Char) :=
  parts.foldl rootedStep []

/-- The reversed clean buffer that represents a segment stack. -/
def outBuf (stack : List (List Char)) : List Char :=
  ('/' :: joinSegs stack.reverse).reverse

/-- A plain path segment: non-empty, not `.`, not `..`, separator-free. -/
def plainSeg (s : List Char) : Prop :=
  s ≠ [] ∧ s ≠ ['.'] ∧ s ≠ ['.', '.'] ∧ '/' ∉ s

theorem splitOnChar_ne_nil (c : Char) : ∀ l, splitOnChar c l ≠ [] := by
  intro l
  induction l with
  | nil => simp [splitOnChar]
  | cons x r ih =>
    unfold splitOnChar
    cases h : splitOnChar c r with
    | nil => exact absurd h ih
    | cons s ss =>
      by_cases hx : x = c
      · simp [hx]
      · simp [hx]

theorem splitOnChar_cons_self (c : Char) (r : List Char) :
    splitOnChar c (c :: r) = [] :: splitOnChar c r := by
  conv_lhs => unfold splitOnChar
  cases h : splitOnChar c r with
  | nil => exact absurd h (splitOnChar_ne_nil c r)
  | cons s ss => simp

theorem splitOnChar_cons_ne (c x : Char) (r : List Char) (s : List Char)
    (ss : List (List Char)) (hx : x ≠ c) (h : splitOnChar c r = s :: ss) :
    splitOnChar c (x :: r) = (x :: s) :: ss := by
  conv_lhs => unfold splitOnChar
  simp only [h]
  rw [if_neg hx]

theorem splitOnChar_append (c : Char) :
    ∀ a b, splitOnChar c (a ++ c :: b) = splitOnChar c a ++ splitOnChar c b := by
  intro a b
  induction a with
  | nil =>
    rw [List.nil_append, splitOnChar_cons_self]
    rfl
  | cons x a2 ih =>
    by_cases hx : x = c
    · subst hx
      rw [List.cons_append, splitOnChar_cons_self, splitOnChar_cons_self, ih]
      rfl
    · cases h : splitOnChar c a2 with
      | nil => exact absurd h (splitOnChar_ne_nil c a2)
      | cons s ss =>
        have h2 : splitOnChar c (a2 ++ c :: b) = s :: (ss ++ splitOnChar c b) := by
          rw [ih, h]
          rfl
        rw [List.cons_append, splitOnChar_cons_ne c x _ _ _ hx h2,
          splitOnChar_cons_ne c x _ _ _ hx h]
        rfl

theorem splitOnChar_sep_free (c : Char) : ∀ l, ∀ p ∈ splitOnChar c l, c ∉ p := by
  intro l
  induction l with
  | nil =>
    intro p hp
    simp only [splitOnChar, List.mem_singleton] at hp
    simp [hp]
  | cons x r ih =>
    intro p hp
    cases h : splitOnChar c r with
    | nil => exact absurd h (splitOnChar_ne_nil c r)
    | cons s ss =>
      by_cases hx : x = c
      · subst hx
        rw [splitOnChar_cons_self] at hp
        rcases List.mem_cons.mp hp with rfl | hp
        · simp
        · exact ih p hp
      · rw [splitOnChar_cons_ne c x r s ss hx h] at hp
        rcases List.mem_cons.mp hp with rfl | hp
        · intro hmem
          rcases List.mem_cons.mp hmem with rfl | hmem
          · exact hx rfl
          · exact ih s (h ▸ List.mem_cons_self _ _) hmem
        · exact ih p (h ▸ List.mem_cons_of_mem _ hp)

theorem splitOnChar_of_not_mem (c : Char) :
    ∀ l, (∀ x ∈ l, x ≠ c) → splitOnChar c l = [l] := by
  intro l
  induction l with
  | nil =>
    intro _
    rfl
  | cons x r ih =>
    intro h
    have hr := ih fun y hy => h y (List.mem_cons_of_mem _ hy)
    exact splitOnChar_cons_ne c x r r [] (h x (List.mem_cons_self _ _)) hr

theorem joinSegs_cons_of_ne_nil (x : List Char) (l : List (List Char)) (h : l ≠ []) :
    joinSegs (x :: l) = x ++ '/' :: joinSegs l := by
  cases l with
  | nil => exact absurd rfl h
  | cons y t => rfl

theorem joinSegs_append_singleton :
    ∀ (xs : List (List Char)) (s : List Char),
      joinSegs (xs ++ [s]) = if xs = [] then s else joinSegs xs ++ '/' :: s := by
  intro xs
  induction xs with
  | nil => simp [joinSegs]
  | cons x t ih =>
    intro s
    rw [List.cons_append, joinSegs_cons_of_ne_nil x (t ++ [s]) (by simp), ih s]
    cases t with
    | nil => simp [joinSegs]
    | cons y t2 =>
      rw [if_neg (by simp), if_neg (by simp),
        joinSegs_cons_of_ne_nil x (y :: t2) (by simp)]
      simp

theorem outBuf_nil : outBuf [] = ['/'] := rfl

theorem outBuf_cons (s : List Char) (st : List (List Char)) :
    outBuf (s :: st) = s.reverse ++ (if st = [] then [] else ['/']) ++ outBuf st := by
  unfold outBuf
  rw [show (s :: st).reverse = st.reverse ++ [s] from List.reverse_cons s st,
    joinSegs_append_singleton]
  by_cases hst : st = []
  · subst hst
    simp [joinSegs]
  · rw [if_neg (by simp [hst]), if_neg hst]
    simp

theorem outBuf_ne_nil (st : List (List Char)) : outBuf st ≠ [] := by
  unfold outBuf
  simp

theorem outBuf_length_gt_one (s : List Char) (st : List (List Char)) (hs : s ≠ []) :
    (outBuf (s :: st)).length > 1 := by
  rw [outBuf_cons]
  have h1 : s.reverse.length ≥ 1 := by
    cases s with
    | nil => exact absurd rfl hs
    | cons a t => simp
  have h2 : (outBuf st).length ≥ 1 := by
    cases h : outBuf st with
    | nil => exact absurd h (outBuf_ne_nil st)
    | cons a t => simp
  simp only [List.length_append]
  omega

theorem popSegLoop_spec :
    ∀ (xs : List Char) (c : Char) (R : List Char), c ≠ '/' → (∀ x ∈ xs, x ≠ '/') →
      popSegLoop 1 c (xs ++ '/' :: R) = if R = [] then ['/'] else R := by
  intro xs
  induction xs with
  | nil =>
    intro c R hc _
    cases R with
    | nil => simp [popSegLoop]
    | cons a t =>
      rw [List.nil_append]
      unfold popSegLoop
      rw [if_pos ⟨by simp, hc⟩]
      unfold popSegLoop
      rw [if_neg (by simp)]
      simp
  | cons y ys ih =>
    intro c R hc h
    rw [List.cons_append]
    unfold popSegLoop
    rw [if_pos ⟨by simp, hc⟩]
    exact ih y R (h y (List.mem_cons_self _ _)) fun x hx => h x (List.mem_cons_of_mem _ hx)

theorem popSeg_outBuf (s : List Char) (st : List (List Char))
    (hs : s ≠ []) (hsl : '/' ∉ s) :
    popSeg 1 (outBuf (s :: st)) = outBuf st := by
  have hrev : ∃ a as, s.reverse = a :: as := by
    cases h : s.reverse with
    | nil => exact absurd (by simpa using congrArg List.reverse h) hs
    | cons a as => exact ⟨a, as, rfl⟩
  obtain ⟨a, as, hrev⟩ := hrev
  have hmem : ∀ x ∈ a :: as, x ≠ '/' := by
    rw [← hrev]
    intro x hx
    exact fun he => hsl (he ▸ List.mem_reverse.mp hx)
  rw [outBuf_cons, hrev]
  by_cases hst : st = []
  · subst hst
    rw [if_pos rfl, show (a :: as) ++ [] ++ outBuf [] = a :: (as ++ '/' :: []) from by
      simp [outBuf_nil]]
    show popSegLoop 1 a (as ++ '/' :: []) = outBuf []
    rw [popSegLoop_spec as a [] (hmem a (List.mem_cons_self _ _))
      (fun x hx => hmem x (List.mem_cons_of_mem _ hx)), if_pos rfl]
    rfl
  · rw [if_neg hst, show (a :: as) ++ ['/'] ++ outBuf st = a :: (as ++ '/' :: outBuf st) from by
      simp]
    show popSegLoop 1 a (as ++ '/' :: outBuf st) = outBuf st
    rw [popSegLoop_spec as a (outBuf st) (hmem a (List.mem_cons_self _ _))
      (fun x hx => hmem x (List.mem_cons_of_mem _ hx)), if_neg (outBuf_ne_nil st)]

theorem dropWhile_head_false (p : Char → Bool) :
    ∀ (l : List Char) (x : Char) (r2 : List Char), l.dropWhile p = x :: r2 → p x = false := by
  intro l
  induction l with
  | nil =>
    intro x r2 h
    exact absurd h (by simp)
  | cons a t ih =>
    intro x r2 h
    cases ha : p a with
    | true =>
      rw [List.dropWhile_cons_of_pos ha] at h
      exact ih x r2 h
    | false =>
      rw [List.dropWhile_cons_of_neg (by simp [ha])] at h
      injection h with h1 h2
      subst h1
      exact ha

theorem takeWhile_nil_cases (p : Char → Bool) (l : List Char) (h : l.takeWhile p = []) :
    l = [] ∨ ∃ x t, l = x :: t ∧ p x = false := by
  cases l with
  | nil => exact Or.inl rfl
  | cons a t =>
    cases ha : p a with
    | true =>
      rw [List.takeWhile_cons_of_pos ha] at h
      exact absurd h (by simp)
    | false => exact Or.inr ⟨a, t, rfl, ha⟩

theorem cleanLoop_nil (rooted : Bool) (fuel dotdot : Nat) (out : List Char) :
    cleanLoop rooted fuel [] dotdot out = out := by
  cases fuel <;> rfl

theorem cleanLoop_slash (rooted : Bool) (fuel dotdot : Nat) (r out : List Char) :
    cleanLoop rooted (fuel + 1) ('/' :: r) dotdot out = cleanLoop rooted fuel r dotdot out := by
  conv_lhs => unfold cleanLoop
  rw [if_pos rfl]

theorem cleanLoop_dot (rooted : Bool) (fuel dotdot : Nat) (r out : List Char)
    (h : r = [] ∨ r.head? = some '/') :
    cleanLoop rooted (fuel + 1) ('.' :: r) dotdot out = cleanLoop rooted fuel r dotdot out := by
  conv_lhs => unfold cleanLoop
  rw [if_neg (by decide), if_pos ⟨rfl, h⟩]

theorem cleanLoop_dotdot_rooted (fuel : Nat) (r out : List Char) (h2 : r.head? = some '.')
    (h3 : r.tail = [] ∨ r.tail.head? = some '/') :
    cleanLoop true (fuel + 1) ('.' :: r) 1 out =
      if out.length > 1 then cleanLoop true fuel r.tail 1 (popSeg 1 out)
      else cleanLoop true fuel r.tail 1 out := by
  conv_lhs => unfold cleanLoop
  rw [if_neg (by decide), if_neg ?hn, if_pos ⟨rfl, h2, h3⟩]
  · by_cases ho : out.length > 1
    · rw [if_pos ho, if_pos ho]
    · rw [if_neg ho, if_neg ho, if_neg (by simp)]
  case hn =>
    rintro ⟨-, h | h⟩
    · subst h
      simp at h2
    · rw [h] at h2
      exact absurd h2 (by decide)

theorem cleanLoop_default (rooted : Bool) (fuel dotdot : Nat) (c : Char) (r out : List Char)
    (hc : ¬c = '/')
    (hno : ¬(c = '.' ∧ (r = [] ∨ r.head? = some '/')))
    (hno2 : ¬(c = '.' ∧ r.head? = some '.' ∧ (r.tail = [] ∨ r.tail.head? = some '/'))) :
    cleanLoop rooted (fuel + 1) (c :: r) dotdot out =
      cleanLoop rooted fuel ((c :: r).dropWhile fun x => decide (x ≠ '/')) dotdot
        (if (rooted = true ∧ out.length ≠ 1) ∨ (rooted = false ∧ out.length ≠ 0) then
          ((c :: r).takeWhile fun x => decide (x ≠ '/')).reverse ++ '/' :: out
        else ((c :: r).takeWhile fun x => decide (x ≠ '/')).reverse ++ out) := by
  conv_lhs => unfold cleanLoop
  rw [if_neg hc, if_neg hno, if_neg hno2]

theorem rootedStep_plain (stack : List (List Char)) (seg : List Char) (h : plainSeg seg) :
    rootedStep stack seg = seg :: stack := by
  obtain ⟨h1, h2, h3, _⟩ := h
  unfold rootedStep
  rw [if_neg (by simp [h1, h2]), if_neg h3]

theorem foldl_split_noSep (seg : List Char) (stack : List (List Char))
    (hseg : ∀ x ∈ seg, x ≠ '/') :
    (splitOnChar '/' seg).foldl rootedStep stack = rootedStep stack seg := by
  rw [splitOnChar_of_not_mem _ _ hseg]
  rfl

theorem foldl_split_sep (seg r2 : List Char) (stack : List (List Char))
    (hseg : ∀ x ∈ seg, x ≠ '/') :
    (splitOnChar '/' (seg ++ '/' :: r2)).foldl rootedStep stack
      = (splitOnChar '/' r2).foldl rootedStep (rootedStep stack seg) := by
  rw [splitOnChar_append, splitOnChar_of_not_mem _ _ hseg, List.foldl_append]
  rfl

theorem foldl_split_slash (r2 : List Char) (stack : List (List Char)) :
    (splitOnChar '/' ('/' :: r2)).foldl rootedStep stack
      = (splitOnChar '/' r2).foldl rootedStep stack := by
  rw [splitOnChar_cons_self]
  rfl

theorem out2_outBuf (seg : List Char) (stack : List (List Char))
    (hpl : ∀ s ∈ stack, plainSeg s) (_hseg : seg ≠ []) :
    (if (true = true ∧ (outBuf stack).length ≠ 1) ∨ (true = false ∧ (outBuf stack).length ≠ 0)
      then seg.reverse ++ '/' :: outBuf stack
      else seg.reverse ++ outBuf stack) = outBuf (seg :: stack) := by
  cases stack with
  | nil =>
    rw [if_neg (by simp [outBuf_nil]), outBuf_cons]
    simp [outBuf_nil]
  | cons s st =>
    have hlen := outBuf_length_gt_one s st (hpl s (List.mem_cons_self _ _)).1
    rw [if_pos (Or.inl ⟨rfl, by omega⟩), outBuf_cons seg (s :: st), if_neg (by simp)]
    simp

theorem cleanLoop_rooted_spec :
    ∀ (fuel : Nat) (r : List Char) (stack : List (List Char)), r.length ≤ fuel →
      (∀ s ∈ stack, plainSeg s) →
      cleanLoop true fuel r 1 (outBuf stack)
        = outBuf ((splitOnChar '/' r).foldl rootedStep stack) := by
  intro fuel
  induction fuel with
  | zero =>
    intro r stack hle _
    have hr : r = [] := List.eq_nil_of_length_eq_zero (Nat.le_zero.mp hle)
    subst hr
    rw [cleanLoop_nil]
    rfl
  | succ fuel ih =>
    intro r stack hle hpl
    cases r with
    | nil =>
      rw [cleanLoop_nil]
      rfl
    | cons c r2 =>
      have hlen : r2.length ≤ fuel := by
        simp only [List.length_cons] at hle
        omega
      by_cases hc1 : c = '/'
      · subst hc1
        rw [cleanLoop_slash, foldl_split_slash]
        exact ih r2 stack hlen hpl
      · by_cases hc2 : c = '.' ∧ (r2 = [] ∨ r2.head? = some '/')
        · obtain ⟨rfl, hb⟩ := hc2
          rw [cleanLoop_dot _ _ _ _ _ hb]
          rcases hb with rfl | hb
          · rw [cleanLoop_nil, foldl_split_noSep ['.'] stack (by decide)]
            rfl
          · cases r2 with
            | nil => simp at hb
            | cons d r3 =>
              have hd : d = '/' := by simpa using hb
              subst hd
              rw [ih ('/' :: r3) stack hlen hpl, foldl_split_slash,
                show ('.' :: '/' :: r3 : List Char) = ['.'] ++ '/' :: r3 from rfl,
                foldl_split_sep ['.'] r3 stack (by decide)]
              rfl
        · by_cases hc3 : c = '.' ∧ r2.head? = some '.' ∧ (r2.tail = [] ∨ r2.tail.head? = some '/')
          · obtain ⟨rfl, hd, hb⟩ := hc3
            cases r2 with
            | nil => simp at hd
            | cons e r3 =>
              have he : e = '.' := by simpa using hd
              subst he
              simp only [List.tail_cons] at hb
              rw [cleanLoop_dotdot_rooted fuel ('.' :: r3) (outBuf stack) hd
                (by simpa using hb)]
              have hlen3 : r3.length ≤ fuel := by
                simp only [List.length_cons] at hle
                omega
              cases stack with
              | nil =>
                rw [if_neg (by decide)]
                simp only [List.tail_cons]
                rw [ih r3 [] hlen3 (by simp)]
                congr 1
                rcases hb with rfl | hb2
                · rw [foldl_split_noSep ['.', '.'] [] (by decide)]
                  rfl
                · cases r3 with
                  | nil => simp at hb2
                  | cons f r4 =>
                    have hf : f = '/' := by simpa using hb2
                    subst hf
                    rw [foldl_split_slash,
                      show ('.' :: '.' :: '/' :: r4 : List Char) = ['.', '.'] ++ '/' :: r4 from
                        rfl,
                      foldl_split_sep ['.', '.'] r4 [] (by decide)]
                    rfl
              | cons s st =>
                have hs := hpl s (List.mem_cons_self _ _)
                rw [if_pos (outBuf_length_gt_one s st hs.1)]
                simp only [List.tail_cons]
                rw [popSeg_outBuf s st hs.1 hs.2.2.2,
                  ih r3 st hlen3 (fun q hq => hpl q (List.mem_cons_of_mem _ hq))]
                congr 1
                rcases hb with rfl | hb2
                · rw [foldl_split_noSep ['.', '.'] (s :: st) (by decide)]
                  rfl
                · cases r3 with
                  | nil => simp at hb2
                  | cons f r4 =>
                    have hf : f = '/' := by simpa using hb2
                    subst hf
                    rw [foldl_split_slash,
                      show ('.' :: '.' :: '/' :: r4 : List Char) = ['.', '.'] ++ '/' :: r4 from
                        rfl,
                      foldl_split_sep ['.', '.'] r4 (s :: st) (by decide)]
                    rfl
          · have hp2 : (fun x : Char => decide (x ≠ '/')) c = true := by
              simp [hc1]
            have hsegmem : ∀ x ∈ (c :: r2).takeWhile (fun x => decide (x ≠ '/')), x ≠ '/' := by
              intro x hx
              simpa using List.mem_takeWhile_imp hx
            have hsegplain : plainSeg ((c :: r2).takeWhile fun x => decide (x ≠ '/')) := by
              refine ⟨?_, ?_, ?_, fun hmem => hsegmem '/' hmem rfl⟩
              · rw [@List.takeWhile_cons_of_pos _ (fun x => decide (x ≠ '/')) c r2 hp2]
                simp
              · intro hone
                rw [@List.takeWhile_cons_of_pos _ (fun x => decide (x ≠ '/')) c r2 hp2] at hone
                injection hone with hcdot hrest
                rcases takeWhile_nil_cases _ r2 hrest with rfl | ⟨x, t, rfl, hx⟩
                · exact hc2 ⟨hcdot, Or.inl rfl⟩
                · have hx2 : x = '/' := by simpa using hx
                  exact hc2 ⟨hcdot, Or.inr (by simp [hx2])⟩
              · intro htwo
                rw [@List.takeWhile_cons_of_pos _ (fun x => decide (x ≠ '/')) c r2 hp2] at htwo
                injection htwo with hcdot hrest
                cases r2 with
                | nil => simp at hrest
                | cons y t =>
                  cases hy : (fun x : Char => decide (x ≠ '/')) y with
                  | false =>
                    rw [@List.takeWhile_cons_of_neg _ (fun x => decide (x ≠ '/')) y t
                      (by simp [hy])] at hrest
                    exact absurd hrest (by simp)
                  | true =>
                    rw [@List.takeWhile_cons_of_pos _ (fun x => decide (x ≠ '/')) y t hy]
                      at hrest
                    injection hrest with hy2 ht
                    rcases takeWhile_nil_cases _ t ht with rfl | ⟨x2, t2, rfl, hx2⟩
                    · exact hc3 ⟨hcdot, by simp [hy2], Or.inl rfl⟩
                    · have hx3 : x2 = '/' := by simpa using hx2
                      exact hc3 ⟨hcdot, by simp [hy2], Or.inr (by simp [hx3])⟩
            rw [cleanLoop_default true fuel 1 c r2 (outBuf stack) hc1 hc2 hc3,
              out2_outBuf _ stack hpl hsegplain.1]
            cases hrest : (c :: r2).dropWhile (fun x => decide (x ≠ '/')) with
            | nil =>
              rw [cleanLoop_nil]
              have hinput : (c :: r2) = (c :: r2).takeWhile fun x => decide (x ≠ '/') := by
                conv_lhs =>
                  rw [← List.takeWhile_append_dropWhile (fun x => decide (x ≠ '/')) (c :: r2)]
                rw [hrest, List.append_nil]
              conv_rhs => rw [hinput]
              rw [foldl_split_noSep _ stack hsegmem, rootedStep_plain stack _ hsegplain]
            | cons x r4 =>
              have hx : x = '/' := by
                simpa using dropWhile_head_false _ (c :: r2) x r4 hrest
              subst hx
              have hinput : (c :: r2)
                  = ((c :: r2).takeWhile fun x => decide (x ≠ '/')) ++ '/' :: r4 := by
                conv_lhs =>
                  rw [← List.takeWhile_append_dropWhile (fun x => decide (x ≠ '/')) (c :: r2)]
                rw [hrest]
              have hlen4 : ('/' :: r4).length ≤ fuel := by
                have h2 : ((c :: r2).takeWhile fun x => decide (x ≠ '/')).length
                    + ('/' :: r4).length = (c :: r2).length := by
                  rw [← hrest, ← List.length_append,
                    List.takeWhile_append_dropWhile (fun x => decide (x ≠ '/')) (c :: r2)]
                have h3 : 1 ≤ ((c :: r2).takeWhile fun x => decide (x ≠ '/')).length := by
                  rw [@List.takeWhile_cons_of_pos _ (fun x => decide (x ≠ '/')) c r2 hp2]
                  simp
                simp only [List.length_cons] at h2 hle ⊢
                omega
              have hplseg : ∀ q ∈ ((c :: r2).takeWhile fun x => decide (x ≠ '/')) :: stack,
                  plainSeg q := by
                intro q hq
                rcases List.mem_cons.mp hq with rfl | hq
                · exact hsegplain
                · exact hpl q hq
              rw [ih ('/' :: r4) _ hlen4 hplseg, foldl_split_slash]
              conv_rhs => rw [hinput]
              rw [foldl_split_sep _ r4 stack hsegmem, rootedStep_plain stack _ hsegplain]

theorem goClean_rooted (l : List Char) :
    goClean ('/' :: l) = '/' :: joinSegs (rootedCleanSegs (splitOnChar '/' l)).reverse := by
  have h := cleanLoop_rooted_spec l.length l [] le_rfl (by simp)
  rw [outBuf_nil] at h
  show (if (cleanLoop true l.length l 1 ['/']).length = 0 then ['.']
    else (cleanLoop true l.length l 1 ['/']).reverse) = _
  rw [h, if_neg (by simp [outBuf_ne_nil])]
  unfold outBuf rootedCleanSegs
  simp

theorem foldl_rootedStep_plain :
    ∀ (parts : List (List Char)) (st : List (List Char)),
      (∀ p ∈ parts, '/' ∉ p) → (∀ s ∈ st, plainSeg s) →
      ∀ s ∈ parts.foldl rootedStep st, plainSeg s := by
  intro parts
  induction parts with
  | nil =>
    intro st _ hst s hs
    exact hst s hs
  | cons p ps ih =>
    intro st hp hst s hs
    rw [List.foldl_cons] at hs
    refine ih (rootedStep st p) (fun q hq => hp q (List.mem_cons_of_mem _ hq)) ?_ s hs
    intro q hq
    unfold rootedStep at hq
    by_cases h1 : p = [] ∨ p = ['.']
    · rw [if_pos h1] at hq
      exact hst q hq
    · rw [if_neg h1] at hq
      by_cases h2 : p = ['.', '.']
      · rw [if_pos h2] at hq
        exact hst q (List.mem_of_mem_tail hq)
      · rw [if_neg h2] at hq
        rcases List.mem_cons.mp hq with rfl | hq
        · exact ⟨fun h => h1 (Or.inl h), fun h => h1 (Or.inr h), h2,
            hp q (List.mem_cons_self _ _)⟩
        · exact hst q hq

theorem foldl_rootedStep_push_all :
    ∀ (parts : List (List Char)) (st : List (List Char)),
      (∀ p ∈ parts, plainSeg p) →
      parts.foldl rootedStep st = parts.reverse ++ st := by
  intro parts
  induction parts with
  | nil =>
    intro st _
    rfl
  | cons p ps ih =>
    intro st h
    rw [List.foldl_cons, rootedStep_plain st p (h p (List.mem_cons_self _ _)),
      ih (p :: st) (fun q hq => h q (List.mem_cons_of_mem _ hq))]
    simp

theorem joinSegs_split :
    ∀ (S : List (List Char)), (∀ s ∈ S, plainSeg s) →
      splitOnChar '/' (joinSegs S) = if S = [] then [[]] else S := by
  intro S
  induction S with
  | nil =>
    intro _
    rfl
  | cons s t ih =>
    intro h
    have hs : ∀ x ∈ s, x ≠ '/' := by
      intro x hx he
      exact (h s (List.mem_cons_self _ _)).2.2.2 (he ▸ hx)
    rw [if_neg (by simp)]
    cases t with
    | nil =>
      show splitOnChar '/' s = [s]
      exact splitOnChar_of_not_mem '/' s hs
    | cons s2 t2 =>
      rw [joinSegs_cons_of_ne_nil s (s2 :: t2) (by simp), splitOnChar_append,
        splitOnChar_of_not_mem '/' s hs,
        ih (fun q hq => h q (List.mem_cons_of_mem _ hq)), if_neg (by simp)]
      rfl

theorem rootedCleanSegs_append (a b : List (List Char)) :
    rootedCleanSegs (a ++ b) = b.foldl rootedStep (rootedCleanSegs a) :=
  List.foldl_append _ _ a b

theorem rootedCleanSegs_plain_push (S : List (List Char)) (h : ∀ p ∈ S, plainSeg p) :
    rootedCleanSegs S = S.reverse := by
  show S.foldl rootedStep [] = S.reverse
  rw [foldl_rootedStep_push_all S [] h]
  simp

theorem goClean_stack (S : List (List Char)) (h : ∀ s ∈ S, plainSeg s) :
    goClean ('/' :: joinSegs S.reverse) = '/' :: joinSegs S.reverse := by
  have hrev : ∀ s ∈ S.reverse, plainSeg s := fun s hs => h s (List.mem_reverse.mp hs)
  rw [goClean_rooted, joinSegs_split S.reverse hrev]
  by_cases hS : S = []
  · subst hS
    rfl
  · rw [if_neg (by simp [hS])]
    unfold rootedCleanSegs
    rw [foldl_rootedStep_push_all S.reverse [] hrev]
    simp

/-- C10: for every CreateVolume request, the caller-supplied `volDirBasePath` is
normalized by `path.Clean(path.Join("/", volDirBasePath))` before the volume name is
joined under it, so the path component of the minted volume identity equals
`Clean("/" + volDirBasePath + "/" + name)`, is absolute, and is lexically cleaned
(a fixed point of `path.Clean`), regardless of leading or trailing separators or
`.`/`..` segments in the caller's input. -/
theorem createVolume_path_normalized (raw name : List Char) :
    mintedVolDirPathBeegfsRoot raw name = goClean ('/' :: (raw ++ '/' :: name))
      ∧ (mintedVolDirPathBeegfsRoot raw name).head? = some '/'
      ∧ goClean (mintedVolDirPathBeegfsRoot raw name) = mintedVolDirPathBeegfsRoot raw name := by
  have hplS : ∀ s ∈ rootedCleanSegs (splitOnChar '/' raw), plainSeg s :=
    foldl_rootedStep_plain _ [] (splitOnChar_sep_free '/' raw) (by simp)
  have h1 : goJoin2 ['/'] raw = goClean ('/' :: '/' :: raw) := by
    unfold goJoin2
    rw [if_pos (by simp)]
    rfl
  have h2 : goClean ('/' :: '/' :: raw)
      = '/' :: joinSegs (rootedCleanSegs (splitOnChar '/' raw)).reverse := by
    rw [goClean_rooted]
    unfold rootedCleanSegs
    rw [foldl_split_slash]
  have h3 : goClean (goJoin2 ['/'] raw)
      = '/' :: joinSegs (rootedCleanSegs (splitOnChar '/' raw)).reverse := by
    rw [h1, h2]
    exact goClean_stack _ hplS
  have h4 : goJoin2 ('/' :: joinSegs (rootedCleanSegs (splitOnChar '/' raw)).reverse) name
      = goClean ('/' ::
          (joinSegs (rootedCleanSegs (splitOnChar '/' raw)).reverse ++ '/' :: name)) := by
    unfold goJoin2
    rw [if_pos (by simp)]
    rfl
  have hkey : rootedCleanSegs (splitOnChar '/'
        (joinSegs (rootedCleanSegs (splitOnChar '/' raw)).reverse ++ '/' :: name))
      = rootedCleanSegs (splitOnChar '/' (raw ++ '/' :: name)) := by
    rw [splitOnChar_append, splitOnChar_append, rootedCleanSegs_append,
      rootedCleanSegs_append]
    congr 1
    rw [joinSegs_split _ (fun s hs => hplS s (List.mem_reverse.mp hs))]
    by_cases hS : rootedCleanSegs (splitOnChar '/' raw) = []
    · rw [if_pos (by simp [hS]), hS]
      rfl
    · rw [if_neg (by simp [hS]),
        rootedCleanSegs_plain_push _ (fun s hs => hplS s (List.mem_reverse.mp hs))]
      simp
  have hmain : mintedVolDirPathBeegfsRoot raw name
      = '/' :: joinSegs (rootedCleanSegs (splitOnChar '/' (raw ++ '/' :: name))).reverse := by
    unfold mintedVolDirPathBeegfsRoot
    rw [h3, h4, goClean_rooted, hkey]
  refine ⟨hmain.trans (goClean_rooted _).symm, ?_, ?_⟩
  · rw [hmain]
    rfl
  · rw [hmain]
    exact goClean_stack _
      (foldl_rootedStep_plain _ [] (splitOnChar_sep_free '/' _) (by simp))

/-- Modelled from the spec: the Concurrency Guard (§4.4) — `acquire(id)` returns false
if the identity is already held, otherwise marks it held and returns true, atomically. -/
def obtainLockOnString (held : List String) (id : String) : Bool × List String :=
  if held.contains id then (false, held) else (true, id :: held)

/-- Modelled from the spec: the Concurrency Guard (§4.4) — `release(id)` removes the
identity from the registry. -/
def releaseLockOnString (held : List String) (id : String) : List String :=
  held.filter fun x => x != id

/-- Modelled from the spec: the access modes of the storage-protocol capability
matrix (§4.5, §8). -/
inductive AccessMode
  | multiNodeMultiWriter
  | singleNodeWriter
  | readerOnly
deriving DecidableEq

/-- Modelled from the spec: requested capabilities are validated against a fixed
supported-capability matrix; the only supported access mode is multi-node
multi-writer (§8 scenario). Returns the (valid, reason) pair the source returns. -/
def isValidVolumeCapabilities (caps : List AccessMode) : Bool × String :=
  if caps.all fun c => c == AccessMode.multiNodeMultiWriter then (true, "")
  else (false, "unsupported access mode")

/-- Protocol error codes the controller handlers return. -/
inductive GrpcCode
  | invalidArgument
  | aborted
  | internal
  | notFound
deriving DecidableEq

/-- One externally visible file-system or administration-tool operation of a
controller handler. -/
inductive FsAction
  | mkdirAll (path : String)
  | writeClientFiles (path : String)
  | ctlCreateDirectory (volDirPathBeegfsRoot : String)
  | ctlSetPattern (volDirPathBeegfsRoot : String)
  | mountVol (path : String)
  | chmodVol (volDirPathBeegfsRoot : String)
  | ctlStat (volDirPathBeegfsRoot : String)
  | removeAllPath (path : String)
  | cleanup (path : String)
deriving DecidableEq

/-- Request parameter keys (`sysMgmtdHost`, `volDirBasePath` from the spec's §8
scenario; the `stripePattern/` and `permissions/` prefixes from the source). -/
def sysMgmtdHostKey : String := "sysMgmtdHost"

def volDirBasePathKey : String := "volDirBasePath"

def stripePatternStoragePoolIDKey : String := "stripePattern/storagePoolID"

def stripePatternChunkSizeKey : String := "stripePattern/chunkSize"

def stripePatternNumTargetsKey : String := "stripePattern/numTargets"

def permissionsUIDKey : String := "permissions/uid"

def permissionsGIDKey : String := "permissions/gid"

def permissionsModeKey : String := "permissions/mode"

/-- Modelled from the spec: the default volume directory mode (0777). -/
def defaultPermissionsMode : Nat := 511

/-- One digit of `strconv.ParseUint`. -/
def digitVal (base : Nat) (c : Char) : Option Nat :=
  let d :=
    if '0' ≤ c ∧ c ≤ '9' then some (c.toNat - 48)
    else if 'a' ≤ c ∧ c ≤ 'z' then some (c.toNat - 87)
    else if 'A' ≤ c ∧ c ≤ 'Z' then some (c.toNat - 55)
    else none
  match d with
  | some v => if v < base then some v else none
  | none => none

def parseUintAux (base : Nat) : Nat → List Char → Option Nat
  | acc, [] => some acc
  | acc, c :: rest =>
    match digitVal base c with
    | none => none
    | some d => parseUintAux base (acc * base + d) rest

/-- Go `strconv.ParseUint(s, base, bitSize)` for an explicit base (no sign, no base
prefix, no underscores): empty strings and non-digits fail, values above
`2^bitSize - 1` fail with a range error. -/
def goParseUint (s : String) (base bitSize : Nat) : Option Nat :=
  match s.toList with
  | [] => none
  | l =>
    match parseUintAux base 0 l with
    | none => none
    | some v => if v ≤ 2 ^ bitSize - 1 then some v else none

structure stripePatternConfig where
  storagePoolID : String := ""
  stripePatternChunkSize : String := ""
  stripePatternNumTargets : String := ""
deriving DecidableEq

structure permissionsConfig where
  uid : Nat := 0
  gid : Nat := 0
  mode : Nat := defaultPermissionsMode
deriving DecidableEq

/-- Go `getStripePatternConfigFromParams` (src/unnamed/part_001): every parameter
whose name contains `stripePattern/` must be one of the three stripe keys; its value
is copied, anything else is an error. -/
def getStripePatternAux : List (String × String) → stripePatternConfig →
    Except String stripePatternConfig
  | [], cfg => .ok cfg
  | (param, v) :: rest, cfg =>
    if goStringsContains param "stripePattern/" then
      if param = stripePatternStoragePoolIDKey then
        getStripePatternAux rest { cfg with storagePoolID := v }
      else if param = stripePatternChunkSizeKey then
        getStripePatternAux rest { cfg with stripePatternChunkSize := v }
      else if param = stripePatternNumTargetsKey then
        getStripePatternAux rest { cfg with stripePatternNumTargets := v }
      else .error ("CreateVolume parameter invalid: " ++ param)
    else getStripePatternAux rest cfg

def getStripePatternConfigFromParams (reqParams : List (String × String)) :
    Except String stripePatternConfig :=
  getStripePatternAux reqParams {}

/-- Go `getPermissionsConfigFromParams` (src/unnamed/part_001): every parameter whose
name starts with `permissions/` must be uid (decimal, 32 bits), gid (decimal,
32 bits) or mode (octal, 12 bits); anything else is an error. -/
def getPermissionsAux : List (String × String) → permissionsConfig →
    Except String permissionsConfig
  | [], cfg => .ok cfg
  | (param, v) :: rest, cfg =>
    if listIsPrefix ("permissions/".toList) param.toList then
      if param = permissionsUIDKey then
        match goParseUint v 10 32 with
        | none => .error "could not parse provided UID"
        | some uid => getPermissionsAux rest { cfg with uid := uid }
      else if param = permissionsGIDKey then
        match goParseUint v 10 32 with
        | none => .error "could not parse provided GID"
        | some gid => getPermissionsAux rest { cfg with gid := gid }
      else if param = permissionsModeKey then
        match goParseUint v 8 12 with
        | none => .error "could not parse provided mode"
        | some mode => getPermissionsAux rest { cfg with mode := mode }
      else .error ("CreateVolume parameter invalid: " ++ param)
    else getPermissionsAux rest cfg

def getPermissionsConfigFromParams (reqParams : List (String × String)) :
    Except String permissionsConfig :=
  getPermissionsAux reqParams {}

/-- Modelled from the spec: the special permission bits (setuid/setgid/sticky) are
the top three bits of the 12-bit mode. -/
def hasSpecialPermissions (mode : Nat) : Bool := decide (mode / 512 ≠ 0)

def goJoinStr (a b : String) : String := String.mk (goJoin2 a.toList b.toList)

def goCleanStr (s : String) : String := String.mk (goClean s.toList)

/-- The parts of the volume working state the controller handlers use. -/
structure ctrlVolume where
  volumeID : String
  mountDirPath : String
  volDirPathBeegfsRoot : String
deriving DecidableEq

/-- Go `(*controllerServer) newBeegfsVolume` (src/unnamed/part_001): joins the volume
name under the base path, mints the identity URL, and derives the working directory
from the sanitized identity under `csDataDir`. -/
def csNewBeegfsVolume (csDataDir sysMgmtdHost volDirBasePathBeegfsRoot volName : String) :
    ctrlVolume :=
  let volDirPathBeegfsRoot := goJoinStr volDirBasePathBeegfsRoot volName
  let volumeID := newBeegfsUrl sysMgmtdHost volDirPathBeegfsRoot
  { volumeID := volumeID,
    mountDirPath := goJoinStr csDataDir (sanitizeVolumeID volumeID),
    volDirPathBeegfsRoot := volDirPathBeegfsRoot }

/-- Go `(*controllerServer) newBeegfsVolumeFromID` (src/unnamed/part_001) around the
spec-described `newBeegfsVolumeFromID`: parse the identity (an unparsable identity is
an internal error) and derive the working directory from the sanitized identity. -/
def csNewBeegfsVolumeFromID (csDataDir volumeID : String) : Except GrpcCode ctrlVolume :=
  match parseBeegfsUrl volumeID with
  | .error _ => .error .internal
  | .ok (_, path) =>
    .ok ⟨volumeID, goJoinStr csDataDir (sanitizeVolumeID volumeID), path⟩

/-- What a controller handler produces: its protocol result, the guard registry after
it returns, and the file-system operations it performed. -/
structure HandlerOutcome (ρ : Type) where
  result : Except GrpcCode ρ
  heldAfter : List String
  actions : List FsAction

/-- Run the handler's file-system steps against the environment `ok` (which says
which operations succeed), stopping at the first failure; returns the failing action
(if any) and the actions attempted. -/
def stepSeq (ok : FsAction → Bool) : List FsAction → Except FsAction Unit × List FsAction
  | [] => (.ok (), [])
  | a :: rest =>
    if ok a then
      let r := stepSeq ok rest
      (r.1, a :: r.2)
    else (.error a, [a])

/-- The guard block every controller operation wraps its body in: acquire the lock on
the identity or return the aborted protocol error without performing anything; on the
body's completion the deferred release always runs. -/
def withGuard {ρ : Type} (held : List String) (id : String)
    (body : Except GrpcCode ρ × List FsAction) : HandlerOutcome ρ :=
  match obtainLockOnString held id with
  | (false, heldX) => ⟨.error .aborted, heldX, []⟩
  | (true, heldX) => ⟨body.1, releaseLockOnString heldX id, body.2⟩

structure CreateVolumeRequest where
  name : String
  volumeCapabilities : List AccessMode
  parameters : List (String × String)
deriving DecidableEq

/-- Go `controllerServer.CreateVolume` (src/unnamed/part_001): argument checks, base
path normalization, parameter parsing, the concurrency guard, then mkdir, client
files, beegfs-ctl directory creation and striping, and (for special permission bits)
a transient mount and chmod; the deferred cleanup always runs after the body. -/
def CreateVolume (csDataDir : String) (held : List String) (ok : FsAction → Bool)
    (req : CreateVolumeRequest) : HandlerOutcome String :=
  if req.name.length = 0 then ⟨.error .invalidArgument, held, []⟩
  else if req.volumeCapabilities.length = 0 then ⟨.error .invalidArgument, held, []⟩
  else if (isValidVolumeCapabilities req.volumeCapabilities).1 = false then
    ⟨.error .invalidArgument, held, []⟩
  else if req.parameters.length = 0 then ⟨.error .invalidArgument, held, []⟩
  else
    match mapLookup sysMgmtdHostKey req.parameters with
    | none => ⟨.error .invalidArgument, held, []⟩
    | some sysMgmtdHost =>
      match mapLookup volDirBasePathKey req.parameters with
      | none => ⟨.error .invalidArgument, held, []⟩
      | some volDirBasePathRaw =>
        match getPermissionsConfigFromParams req.parameters with
        | .error _ => ⟨.error .invalidArgument, held, []⟩
        | .ok permCfg =>
          match getStripePatternConfigFromParams req.parameters with
          | .error _ => ⟨.error .invalidArgument, held, []⟩
          | .ok _ =>
            let vol := csNewBeegfsVolume csDataDir sysMgmtdHost
              (goCleanStr (goJoinStr "/" volDirBasePathRaw)) req.name
            let run := stepSeq ok
              ([.mkdirAll vol.mountDirPath, .writeClientFiles vol.mountDirPath,
                .ctlCreateDirectory vol.volDirPathBeegfsRoot,
                .ctlSetPattern vol.volDirPathBeegfsRoot]
                ++ (if hasSpecialPermissions permCfg.mode then
                  [.mountVol vol.mountDirPath, .chmodVol vol.volDirPathBeegfsRoot]
                else []))
            withGuard held vol.volumeID
              ((match run.1 with
                | .error _ => .error .internal
                | .ok _ => .ok vol.volumeID),
               run.2 ++ [.cleanup vol.mountDirPath])

/-- Go `controllerServer.DeleteVolume` (src/unnamed/part_001): argument check, volume
reconstruction from the identity, the concurrency guard, then mkdir, client files,
mount and removal of the directory from the mounted file system; the deferred cleanup
always runs after the body. -/
def DeleteVolume (csDataDir : String) (held : List String) (ok : FsAction → Bool)
    (volumeID : String) : HandlerOutcome Unit :=
  if volumeID.length = 0 then ⟨.error .invalidArgument, held, []⟩
  else
    match csNewBeegfsVolumeFromID csDataDir volumeID with
    | .error e => ⟨.error e, held, []⟩
    | .ok vol =>
      let run := stepSeq ok
        [.mkdirAll vol.mountDirPath, .writeClientFiles vol.mountDirPath,
          .mountVol vol.mountDirPath,
          .removeAllPath (vol.mountDirPath ++ "/mount" ++ vol.volDirPathBeegfsRoot)]
      withGuard held vol.volumeID
        ((match run.1 with
          | .error _ => .error .internal
          | .ok _ => .ok ()),
         run.2 ++ [.cleanup vol.mountDirPath])

/-- Go `controllerServer.ValidateVolumeCapabilities` (src/unnamed/part_001): argument
checks, volume reconstruction, the concurrency guard, then mkdir, client files and a
beegfs-ctl stat (whose failure is not-found when the directory is absent, internal
otherwise); on success the capabilities are checked against the supported matrix and
a non-error confirmed/not-confirmed pair is returned. -/
def ValidateVolumeCapabilities (csDataDir : String) (held : List String)
    (ok : FsAction → Bool) (statNotFound : Bool) (volumeID : String)
    (volCaps : List AccessMode) : HandlerOutcome (Bool × String) :=
  if volumeID.length = 0 then ⟨.error .invalidArgument, held, []⟩
  else if volCaps.length = 0 then ⟨.error .invalidArgument, held, []⟩
  else
    match csNewBeegfsVolumeFromID csDataDir volumeID with
    | .error e => ⟨.error e, held, []⟩
    | .ok vol =>
      let run := stepSeq ok
        [.mkdirAll vol.mountDirPath, .writeClientFiles vol.mountDirPath,
          .ctlStat vol.volDirPathBeegfsRoot]
      withGuard held vol.volumeID
        ((match run.1 with
          | .error (.ctlStat _) =>
            if statNotFound then .error .notFound else .error .internal
          | .error _ => .error .internal
          | .ok _ => .ok (isValidVolumeCapabilities volCaps)),
         run.2 ++ [.cleanup vol.mountDirPath])

theorem filter_ne_of_not_contains :
    ∀ (l : List String) (id : String), l.contains id = false →
      (l.filter fun x => x != id) = l := by
  intro l id
  induction l with
  | nil =>
    intro _
    rfl
  | cons a t ih =>
    intro h
    simp only [List.contains_cons, Bool.or_eq_false_iff] at h
    have ha : (a != id) = true := by
      simp only [bne_iff_ne, ne_eq]
      intro he
      subst he
      simp at h
    rw [List.filter_cons, if_pos ha, ih h.2]

theorem releaseLock_obtained (held : List String) (id : String)
    (h : held.contains id = false) :
    releaseLockOnString (id :: held) id = held := by
  unfold releaseLockOnString
  rw [List.filter_cons_of_neg (by simp)]
  exact filter_ne_of_not_contains held id h

theorem withGuard_heldAfter {ρ : Type} (held : List String) (id : String)
    (body : Except GrpcCode ρ × List FsAction) :
    (withGuard held id body).heldAfter = held := by
  by_cases h : held.contains id = true
  · simp only [withGuard, obtainLockOnString, if_pos h]
  · have h2 : held.contains id = false := by simpa using h
    simp only [withGuard, obtainLockOnString, if_neg h]
    exact releaseLock_obtained held id h2

theorem withGuard_aborted {ρ : Type} (held : List String) (id : String)
    (body : Except GrpcCode ρ × List FsAction) (h : held.contains id = true) :
    withGuard held id body = ⟨.error .aborted, held, []⟩ := by
  simp only [withGuard, obtainLockOnString, if_pos h]

/-- C9: for every controller operation (CreateVolume, DeleteVolume,
ValidateVolumeCapabilities) the guard registry after the handler returns equals the
registry before it — the lock is released on every exit path — and whenever the
handler's argument checks pass but the derived volume identity is already held, the
handler returns the protocol aborted error and performs no file-system operation. -/
theorem controller_guard_protocol :
    (∀ csDataDir held ok req, (CreateVolume csDataDir held ok req).heldAfter = held)
    ∧ (∀ csDataDir held ok volumeID,
        (DeleteVolume csDataDir held ok volumeID).heldAfter = held)
    ∧ (∀ csDataDir held ok snf volumeID volCaps,
        (ValidateVolumeCapabilities csDataDir held ok snf volumeID volCaps).heldAfter
          = held)
    ∧ (∀ csDataDir held ok req sysMgmtdHost volDirBasePathRaw,
        req.name.length ≠ 0 →
        req.volumeCapabilities.length ≠ 0 →
        (isValidVolumeCapabilities req.volumeCapabilities).1 = true →
        req.parameters.length ≠ 0 →
        mapLookup sysMgmtdHostKey req.parameters = some sysMgmtdHost →
        mapLookup volDirBasePathKey req.parameters = some volDirBasePathRaw →
        (getPermissionsConfigFromParams req.parameters).isOk = true →
        (getStripePatternConfigFromParams req.parameters).isOk = true →
        held.contains (csNewBeegfsVolume csDataDir sysMgmtdHost
          (goCleanStr (goJoinStr "/" volDirBasePathRaw)) req.name).volumeID = true →
        CreateVolume csDataDir held ok req = ⟨.error .aborted, held, []⟩)
    ∧ (∀ csDataDir held ok volumeID vol,
        volumeID.length ≠ 0 →
        csNewBeegfsVolumeFromID csDataDir volumeID = .ok vol →
        held.contains vol.volumeID = true →
        DeleteVolume csDataDir held ok volumeID = ⟨.error .aborted, held, []⟩)
    ∧ (∀ csDataDir held ok snf volumeID volCaps vol,
        volumeID.length ≠ 0 →
        volCaps.length ≠ 0 →
        csNewBeegfsVolumeFromID csDataDir volumeID = .ok vol →
        held.contains vol.volumeID = true →
        ValidateVolumeCapabilities csDataDir held ok snf volumeID volCaps
          = ⟨.error .aborted, held, []⟩) := by
  refine ⟨?_, ?_, ?_, ?_, ?_, ?_⟩
  · intro csDataDir held ok req
    unfold CreateVolume
    repeat' split
    all_goals first | rfl | apply withGuard_heldAfter
  · intro csDataDir held ok volumeID
    unfold DeleteVolume
    repeat' split
    all_goals first | rfl | apply withGuard_heldAfter
  · intro csDataDir held ok snf volumeID volCaps
    unfold ValidateVolumeCapabilities
    repeat' split
    all_goals first | rfl | apply withGuard_heldAfter
  · intro csDataDir held ok req sysMgmtdHost volDirBasePathRaw hname hcaps hvalid hparams
      hhost hbase hperm hstripe hheld
    unfold CreateVolume
    rw [if_neg hname, if_neg hcaps, if_neg (by simp [hvalid]), if_neg hparams]
    simp only [hhost, hbase]
    cases hp : getPermissionsConfigFromParams req.parameters with
    | error e =>
      rw [hp] at hperm
      exact absurd hperm (by simp [Except.isOk, Except.toBool])
    | ok pc =>
      cases hs : getStripePatternConfigFromParams req.parameters with
      | error e =>
        rw [hs] at hstripe
        exact absurd hstripe (by simp [Except.isOk, Except.toBool])
      | ok sc =>
        simp only
        exact withGuard_aborted _ _ _ hheld
  · intro csDataDir held ok volumeID vol hid hvol hheld
    unfold DeleteVolume
    rw [if_neg hid]
    simp only [hvol]
    exact withGuard_aborted _ _ _ hheld
  · intro csDataDir held ok snf volumeID volCaps vol hid hcaps hvol hheld
    unfold ValidateVolumeCapabilities
    rw [if_neg hid, if_neg hcaps]
    simp only [hvol]
    exact withGuard_aborted _ _ _ hheld

theorem controller_guard_protocol_witness :
    CreateVolume "/var/lib/csdata" ["beegfs://10.0.0.1/data/vol1"] (fun _ => true)
        ⟨"vol1", [AccessMode.multiNodeMultiWriter],
          [("sysMgmtdHost", "10.0.0.1"), ("volDirBasePath", "/data")]⟩
      = ⟨.error .aborted, ["beegfs://10.0.0.1/data/vol1"], []⟩
    ∧ DeleteVolume "/var/lib/csdata" ["beegfs://10.0.0.1/data/vol1"] (fun _ => true)
        "beegfs://10.0.0.1/data/vol1"
      = ⟨.error .aborted, ["beegfs://10.0.0.1/data/vol1"], []⟩
    ∧ (ValidateVolumeCapabilities "/var/lib/csdata" ["beegfs://10.0.0.1/data/vol1"]
        (fun _ => true) false "beegfs://10.0.0.1/data/vol1"
        [AccessMode.multiNodeMultiWriter]).heldAfter
      = ["beegfs://10.0.0.1/data/vol1"] :=
  ⟨controller_guard_protocol.2.2.2.1 "/var/lib/csdata" ["beegfs://10.0.0.1/data/vol1"]
      (fun _ => true)
      ⟨"vol1", [AccessMode.multiNodeMultiWriter],
        [("sysMgmtdHost", "10.0.0.1"), ("volDirBasePath", "/data")]⟩
      "10.0.0.1" "/data" (by decide) (by decide) (by decide) (by decide) rfl rfl rfl rfl
      (by decide),
    controller_guard_protocol.2.2.2.2.1 "/var/lib/csdata"
      ["beegfs://10.0.0.1/data/vol1"] (fun _ => true) "beegfs://10.0.0.1/data/vol1"
      ⟨"beegfs://10.0.0.1/data/vol1", "/var/lib/csdata/10.0.0.1_data_vol1", "/data/vol1"⟩
      (by decide) rfl (by decide),
    controller_guard_protocol.2.2.1 "/var/lib/csdata" ["beegfs://10.0.0.1/data/vol1"]
      (fun _ => true) false "beegfs://10.0.0.1/data/vol1"
      [AccessMode.multiNodeMultiWriter]⟩

/-- The claim's reading of the authentication layer, for comparison with the source:
an authentication entry is a fragment that explicitly sets only its secret, and only
when the secret is non-empty; an entry with an empty secret sets nothing and leaves
the target unchanged. -/
def applyConnAuthConfigSpec (cfg : PluginConfig) (ca : connAuthConfig) : PluginConfig :=
  if ca.ConnAuth ≠ "" then applyConnAuthConfig cfg ca else cfg

/-- The claim's reading of `parseConnAuthFromFile`: entries applied in file order,
each overwriting only an explicitly set (non-empty) secret. -/
def parseConnAuthSpec (cfg : PluginConfig) (connAuthConfigs : List connAuthConfig) :
    PluginConfig :=
  connAuthConfigs.foldl applyConnAuthConfigSpec cfg

/-- `{ c with connAuth := x }`. -/
def setAuth (c : beegfsConfig) (x : String) : beegfsConfig := { c with connAuth := x }

/-- `c` with the secret blanked: the part of a config an authentication entry cannot
touch. -/
def dropAuth (c : beegfsConfig) : beegfsConfig := { c with connAuth := "" }

/-- How `overwriteFrom` combines secrets: a non-empty later secret wins. -/
def owAuth (a b : String) : String := if b ≠ "" then b else a

/-- The secret the authentication layer leaves for `host`: the last entry for `host`
wins, unconditionally (an empty secret clears); `init` if there is none. -/
def lastAuthFrom (init : String) (auth : List connAuthConfig) (host : String) : String :=
  auth.foldl (fun acc e => if e.SysMgmtdHost = host then e.ConnAuth else acc) init

/-- Fragments later in the list never carry a secret for a host that already appeared:
the invariant `parseConnAuthFromFile` maintains (it always assigns to the first
match). -/
def connAuthLaterEmpty (a b : FileSystemSpecificConfig) : Prop :=
  a.SysMgmtdHost = b.SysMgmtdHost → b.Config.connAuth = ""

/-- C1 counterexample: under the claim's strict reading an authentication entry with
an empty secret sets nothing and leaves the target unchanged, but the source assigns
the secret unconditionally, so a duplicate entry with an empty secret clears the
secret an earlier entry set. -/
theorem connAuth_empty_entry_overwrites :
    (squashConfigForSysMgmtdHost "h"
      (parseConnAuth ⟨{}, []⟩ [⟨"h", "s"⟩, ⟨"h", ""⟩])).connAuth = ""
    ∧ (squashConfigForSysMgmtdHost "h"
      (parseConnAuthSpec ⟨{}, []⟩ [⟨"h", "s"⟩, ⟨"h", ""⟩])).connAuth = "s"
    ∧ squashConfigForSysMgmtdHost "h" (parseConnAuth ⟨{}, []⟩ [⟨"h", "s"⟩, ⟨"h", ""⟩])
      ≠ squashConfigForSysMgmtdHost "h"
        (parseConnAuthSpec ⟨{}, []⟩ [⟨"h", "s"⟩, ⟨"h", ""⟩]) := by
  decide

/-- The body of the squash fold of `squashConfigForSysMgmtdHost`. -/
def squashStep (host : String) (rc : beegfsConfig) (f : FileSystemSpecificConfig) :
    beegfsConfig :=
  if host = f.SysMgmtdHost then rc.overwriteFrom f.Config else rc

/-- The body of the node-override fold of `parseConfigFromFile`. -/
def nodeStep (nodeID : String) (acc : PluginConfig) (nodeConfig : nodeSpecificConfig) :
    PluginConfig :=
  if nodeConfig.NodeList.contains nodeID then
    { DefaultConfig := acc.DefaultConfig.overwriteFrom nodeConfig.DefaultConfig
      FileSystemSpecificConfigs := overwriteFileSystemSpecificConfigs
        acc.FileSystemSpecificConfigs nodeConfig.FileSystemSpecificConfigs }
  else acc

/-- Last-set-wins on list-valued fields: a non-empty later list replaces, an empty one
leaves the accumulator unchanged. -/
def lastNonEmptyList (init : List String) (ls : List (List String)) : List String :=
  ls.foldl (fun acc l => if l.length ≠ 0 then l else acc) init

/-- Last-set-wins on a map key: a layer that binds the key wins, a layer that does not
leaves the accumulator unchanged. -/
def lastSetOption (init : Option String) (xs : List (Option String)) : Option String :=
  xs.foldl (fun acc o => match o with | some v => some v | none => acc) init

theorem squash_eq_fold (host : String) (cfg : PluginConfig) :
    squashConfigForSysMgmtdHost host cfg
      = cfg.FileSystemSpecificConfigs.foldl (squashStep host)
          (newBeegfsConfig.overwriteFrom cfg.DefaultConfig) := rfl

theorem applyNode_eq_fold (raw : pluginConfigFromFile) (nodeID : String) :
    applyNodeSpecificConfigs raw nodeID
      = raw.NodeSpecificConfigs.foldl (nodeStep nodeID) raw.PluginConfig := rfl

theorem beegfsConfig_eq_of (c d : beegfsConfig) (h1 : dropAuth c = dropAuth d)
    (h2 : c.connAuth = d.connAuth) : c = d := by
  cases c
  cases d
  simp only [dropAuth, beegfsConfig.mk.injEq] at h1
  simp only at h2
  simp only [beegfsConfig.mk.injEq]
  exact ⟨h1.1, h1.2.1, h1.2.2.1, h1.2.2.2.1, h2⟩

theorem overwriteFrom_connAuth (c w : beegfsConfig) :
    (c.overwriteFrom w).connAuth = owAuth c.connAuth w.connAuth := rfl

theorem dropAuth_overwriteFrom (c w c' w' : beegfsConfig)
    (hc : dropAuth c = dropAuth c') (hw : dropAuth w = dropAuth w') :
    dropAuth (c.overwriteFrom w) = dropAuth (c'.overwriteFrom w') := by
  cases c
  cases c'
  cases w
  cases w'
  simp only [dropAuth, beegfsConfig.mk.injEq] at hc hw
  obtain ⟨c1, c2, c3, c4, -⟩ := hc
  obtain ⟨w1, w2, w3, w4, -⟩ := hw
  subst c1
  subst c2
  subst c3
  subst c4
  subst w1
  subst w2
  subst w3
  subst w4
  rfl

theorem dropAuth_setAuthField (c : beegfsConfig) (x : String) :
    dropAuth { c with connAuth := x } = dropAuth c := by
  cases c
  rfl

theorem overwriteFrom_authOnly (c : beegfsConfig) (x : String) :
    c.overwriteFrom { connAuth := x } = setAuth c (owAuth c.connAuth x) := by
  cases c
  rfl

theorem setAuth_self (c : beegfsConfig) : setAuth c c.connAuth = c := rfl

theorem setAuth_setAuth (c : beegfsConfig) (x y : String) :
    setAuth (setAuth c x) y = setAuth c y := rfl

theorem setAuth_connAuth (c : beegfsConfig) (x : String) : (setAuth c x).connAuth = x := rfl

theorem owAuth_nil_left (x : String) : owAuth "" x = x := by
  unfold owAuth
  by_cases h : x = ""
  · rw [if_neg (by simp [h]), h]
  · rw [if_pos h]

/-- The pointwise relation along which the non-secret part of the squash is
invariant. -/
def fsBodyRel (a b : FileSystemSpecificConfig) : Prop :=
  a.SysMgmtdHost = b.SysMgmtdHost ∧ dropAuth a.Config = dropAuth b.Config

theorem foldl_squashStep_dropAuth (host : String)
    {fs fs' : List FileSystemSpecificConfig} (hrel : List.Forall₂ fsBodyRel fs fs') :
    ∀ (rc rc' : beegfsConfig), dropAuth rc = dropAuth rc' →
      dropAuth (fs.foldl (squashStep host) rc)
        = dropAuth (fs'.foldl (squashStep host) rc') := by
  induction hrel with
  | nil =>
    intro rc rc' h
    exact h
  | cons hab hrest ih =>
    intro rc rc' h
    rw [List.foldl_cons, List.foldl_cons]
    apply ih
    obtain ⟨hhost, hbody⟩ := hab
    unfold squashStep
    rw [hhost]
    split
    · exact dropAuth_overwriteFrom _ _ _ _ h hbody
    · exact h

theorem foldl_squashStep_connAuth (host : String) :
    ∀ (fs : List FileSystemSpecificConfig) (rc : beegfsConfig),
      (fs.foldl (squashStep host) rc).connAuth
        = ((fs.filter (fun f => host = f.SysMgmtdHost)).map
            (fun f => f.Config.connAuth)).foldl owAuth rc.connAuth := by
  intro fs
  induction fs with
  | nil =>
    intro rc
    rfl
  | cons f rest ih =>
    intro rc
    rw [List.foldl_cons]
    by_cases hh : host = f.SysMgmtdHost
    · rw [List.filter_cons_of_pos (by simp [hh]), List.map_cons, List.foldl_cons, ih]
      congr 1
      simp only [squashStep, if_pos hh]
      rfl
    · rw [List.filter_cons_of_neg (by simp [hh]), ih]
      congr 1
      simp only [squashStep, if_neg hh]

theorem foldl_owAuth_zeros : ∀ (zs : List String) (a : String), (∀ z ∈ zs, z = "") →
    zs.foldl owAuth a = a := by
  intro zs
  induction zs with
  | nil =>
    intro a _
    rfl
  | cons z rest ih =>
    intro a h
    rw [List.foldl_cons, h z (List.mem_cons_self _ _)]
    rw [show owAuth a "" = a from rfl]
    exact ih a fun y hy => h y (List.mem_cons_of_mem _ hy)

theorem setConnAuth_bodyRel (e : connAuthConfig) :
    ∀ fs, List.Forall₂ fsBodyRel fs (setConnAuthOnFirstMatch fs e) := by
  intro fs
  induction fs with
  | nil => exact List.Forall₂.nil
  | cons sc rest ih =>
    unfold setConnAuthOnFirstMatch
    by_cases hh : e.SysMgmtdHost = sc.SysMgmtdHost
    · rw [if_pos hh]
      exact List.Forall₂.cons ⟨rfl, (dropAuth_setAuthField sc.Config e.ConnAuth).symm⟩
        (List.forall₂_same.mpr fun a _ => ⟨rfl, rfl⟩)
    · rw [if_neg hh]
      exact List.Forall₂.cons ⟨rfl, rfl⟩ ih

theorem setConnAuth_mem (e : connAuthConfig) :
    ∀ fs b, b ∈ setConnAuthOnFirstMatch fs e →
      b ∈ fs ∨ b.SysMgmtdHost = e.SysMgmtdHost := by
  intro fs
  induction fs with
  | nil =>
    intro b hb
    exact absurd hb (List.not_mem_nil b)
  | cons sc rest ih =>
    intro b hb
    unfold setConnAuthOnFirstMatch at hb
    by_cases hh : e.SysMgmtdHost = sc.SysMgmtdHost
    · rw [if_pos hh] at hb
      rcases List.mem_cons.mp hb with rfl | hb
      · exact Or.inr hh.symm
      · exact Or.inl (List.mem_cons_of_mem _ hb)
    · rw [if_neg hh] at hb
      rcases List.mem_cons.mp hb with rfl | hb
      · exact Or.inl (List.mem_cons_self _ _)
      · rcases ih b hb with h | h
        · exact Or.inl (List.mem_cons_of_mem _ h)
        · exact Or.inr h

theorem setConnAuth_pairwise (e : connAuthConfig) :
    ∀ fs, fs.Pairwise connAuthLaterEmpty →
      (setConnAuthOnFirstMatch fs e).Pairwise connAuthLaterEmpty := by
  intro fs
  induction fs with
  | nil =>
    intro _
    exact List.Pairwise.nil
  | cons sc rest ih =>
    intro hpw
    obtain ⟨hhead, hrest⟩ := List.pairwise_cons.mp hpw
    unfold setConnAuthOnFirstMatch
    by_cases hh : e.SysMgmtdHost = sc.SysMgmtdHost
    · rw [if_pos hh]
      exact List.Pairwise.cons (fun b hb hhost => hhead b hb hhost) hrest
    · rw [if_neg hh]
      refine List.Pairwise.cons ?_ (ih hrest)
      intro b hb hhost
      rcases setConnAuth_mem e rest b hb with hmem | hbhost
      · exact hhead b hmem hhost
      · exact absurd (hhost.trans hbhost).symm hh

theorem setConnAuth_filter_ne (e : connAuthConfig) (host : String)
    (hne : e.SysMgmtdHost ≠ host) :
    ∀ fs, (setConnAuthOnFirstMatch fs e).filter (fun f => host = f.SysMgmtdHost)
      = fs.filter (fun f => host = f.SysMgmtdHost) := by
  intro fs
  induction fs with
  | nil => rfl
  | cons sc rest ih =>
    unfold setConnAuthOnFirstMatch
    by_cases hh : e.SysMgmtdHost = sc.SysMgmtdHost
    · rw [if_pos hh]
      have hscne : ¬host = sc.SysMgmtdHost := fun h => hne (hh.trans h.symm)
      rw [List.filter_cons_of_neg (by simpa using hscne),
        List.filter_cons_of_neg (by simpa using hscne)]
    · rw [if_neg hh]
      by_cases hsc : host = sc.SysMgmtdHost
      · rw [List.filter_cons_of_pos (by simpa using hsc),
          List.filter_cons_of_pos (by simpa using hsc), ih]
      · rw [List.filter_cons_of_neg (by simpa using hsc),
          List.filter_cons_of_neg (by simpa using hsc), ih]

theorem setConnAuth_filter_map (e : connAuthConfig) (host : String)
    (he : e.SysMgmtdHost = host) :
    ∀ fs, fs.Pairwise connAuthLaterEmpty →
      fs.any (fun sc => e.SysMgmtdHost == sc.SysMgmtdHost) = true →
      ∃ zs, (∀ z ∈ zs, z = "")
        ∧ ((setConnAuthOnFirstMatch fs e).filter
            (fun f => host = f.SysMgmtdHost)).map (fun f => f.Config.connAuth)
          = e.ConnAuth :: zs := by
  intro fs
  induction fs with
  | nil =>
    intro _ hany
    exact absurd hany (by simp)
  | cons sc rest ih =>
    intro hpw hany
    obtain ⟨hhead, hrest⟩ := List.pairwise_cons.mp hpw
    unfold setConnAuthOnFirstMatch
    by_cases hh : e.SysMgmtdHost = sc.SysMgmtdHost
    · rw [if_pos hh]
      rw [List.filter_cons_of_pos (by simp [← he, hh]), List.map_cons]
      refine ⟨((rest.filter (fun f => host = f.SysMgmtdHost)).map
        (fun f => f.Config.connAuth)), ?_, rfl⟩
      intro z hz
      simp only [List.mem_map, List.mem_filter] at hz
      obtain ⟨f, ⟨hfmem, hfhost⟩, rfl⟩ := hz
      refine hhead f hfmem ?_
      have : host = f.SysMgmtdHost := by simpa using hfhost
      rw [← this, ← he, hh]
    · rw [if_neg hh]
      have hscne : ¬host = sc.SysMgmtdHost := fun h => hh (he.symm ▸ h)
      rw [List.filter_cons_of_neg (by simpa using hscne)]
      refine ih hrest ?_
      simpa [hh] using hany

theorem squashStep_pos (host : String) (rc : beegfsConfig) (f : FileSystemSpecificConfig)
    (h : host = f.SysMgmtdHost) : squashStep host rc f = rc.overwriteFrom f.Config := by
  unfold squashStep
  rw [if_pos h]

theorem squashStep_neg (host : String) (rc : beegfsConfig) (f : FileSystemSpecificConfig)
    (h : ¬host = f.SysMgmtdHost) : squashStep host rc f = rc := by
  unfold squashStep
  rw [if_neg h]

theorem squash_append_one (host : String) (cfg : PluginConfig)
    (w : FileSystemSpecificConfig) :
    squashConfigForSysMgmtdHost host
        { cfg with FileSystemSpecificConfigs := cfg.FileSystemSpecificConfigs ++ [w] }
      = squashStep host (squashConfigForSysMgmtdHost host cfg) w := by
  rw [squash_eq_fold, squash_eq_fold]
  show List.foldl (squashStep host) (newBeegfsConfig.overwriteFrom cfg.DefaultConfig)
    (cfg.FileSystemSpecificConfigs ++ [w]) = _
  rw [List.foldl_append, List.foldl_cons, List.foldl_nil]

theorem squash_applyConnAuth (cfg : PluginConfig) (e : connAuthConfig) (host : String)
    (hdef : cfg.DefaultConfig.connAuth = "")
    (hpw : cfg.FileSystemSpecificConfigs.Pairwise connAuthLaterEmpty) :
    squashConfigForSysMgmtdHost host (applyConnAuthConfig cfg e)
      = if e.SysMgmtdHost = host
        then setAuth (squashConfigForSysMgmtdHost host cfg) e.ConnAuth
        else squashConfigForSysMgmtdHost host cfg := by
  have hbase : (newBeegfsConfig.overwriteFrom cfg.DefaultConfig).connAuth = "" := by
    rw [overwriteFrom_connAuth, show newBeegfsConfig.connAuth = "" from rfl,
      owAuth_nil_left, hdef]
  unfold applyConnAuthConfig
  by_cases hany : cfg.FileSystemSpecificConfigs.any
      (fun sc => e.SysMgmtdHost == sc.SysMgmtdHost) = true
  · rw [if_pos hany]
    by_cases hhost : e.SysMgmtdHost = host
    · rw [if_pos hhost]
      apply beegfsConfig_eq_of
      · rw [squash_eq_fold, squash_eq_fold]
        refine ((foldl_squashStep_dropAuth host (setConnAuth_bodyRel e
          cfg.FileSystemSpecificConfigs) _ _ rfl).symm).trans ?_
        exact (dropAuth_setAuthField _ e.ConnAuth).symm
      · rw [squash_eq_fold, foldl_squashStep_connAuth, setAuth_connAuth]
        obtain ⟨zs, hzs, heq⟩ := setConnAuth_filter_map e host hhost
          cfg.FileSystemSpecificConfigs hpw hany
        rw [heq, hbase, List.foldl_cons, owAuth_nil_left, foldl_owAuth_zeros zs _ hzs]
    · rw [if_neg hhost]
      apply beegfsConfig_eq_of
      · rw [squash_eq_fold, squash_eq_fold]
        exact (foldl_squashStep_dropAuth host (setConnAuth_bodyRel e
          cfg.FileSystemSpecificConfigs) _ _ rfl).symm
      · rw [squash_eq_fold, squash_eq_fold, foldl_squashStep_connAuth,
          foldl_squashStep_connAuth, setConnAuth_filter_ne e host hhost]
  · rw [if_neg hany]
    have hnomatch : ∀ sc ∈ cfg.FileSystemSpecificConfigs,
        e.SysMgmtdHost ≠ sc.SysMgmtdHost := by
      simpa using hany
    rw [squash_append_one]
    by_cases hhost : e.SysMgmtdHost = host
    · rw [if_pos hhost, squashStep_pos _ _ _ hhost.symm,
        show ({ SysMgmtdHost := e.SysMgmtdHost, Config := { connAuth := e.ConnAuth } }
          : FileSystemSpecificConfig).Config = { connAuth := e.ConnAuth } from rfl,
        overwriteFrom_authOnly]
      congr 1
      have hfilter : cfg.FileSystemSpecificConfigs.filter
          (fun f => host = f.SysMgmtdHost) = [] := by
        rw [List.filter_eq_nil_iff]
        intro f hf
        simp only [decide_eq_true_eq]
        intro h
        exact hnomatch f hf (hhost.trans h)
      have hS : (squashConfigForSysMgmtdHost host cfg).connAuth = "" := by
        rw [squash_eq_fold, foldl_squashStep_connAuth, hfilter]
        simp only [List.map_nil, List.foldl_nil]
        exact hbase
      rw [hS, owAuth_nil_left]
    · rw [if_neg hhost, squashStep_neg _ _ _ fun h => hhost h.symm]

theorem parseConnAuth_squash :
    ∀ (auth : List connAuthConfig) (cfg : PluginConfig) (host : String),
      cfg.DefaultConfig.connAuth = "" →
      cfg.FileSystemSpecificConfigs.Pairwise connAuthLaterEmpty →
      squashConfigForSysMgmtdHost host (parseConnAuth cfg auth)
        = setAuth (squashConfigForSysMgmtdHost host cfg)
            (lastAuthFrom (squashConfigForSysMgmtdHost host cfg).connAuth auth host) := by
  intro auth
  induction auth with
  | nil =>
    intro cfg host _ _
    exact (setAuth_self _).symm
  | cons e rest ih =>
    intro cfg host hdef hpw
    have hdef' : (applyConnAuthConfig cfg e).DefaultConfig.connAuth = "" := by
      unfold applyConnAuthConfig
      by_cases hany : cfg.FileSystemSpecificConfigs.any
          (fun sc => e.SysMgmtdHost == sc.SysMgmtdHost) = true
      · rw [if_pos hany]
        exact hdef
      · rw [if_neg hany]
        exact hdef
    have hpw' : (applyConnAuthConfig cfg e).FileSystemSpecificConfigs.Pairwise
        connAuthLaterEmpty := by
      unfold applyConnAuthConfig
      by_cases hany : cfg.FileSystemSpecificConfigs.any
          (fun sc => e.SysMgmtdHost == sc.SysMgmtdHost) = true
      · rw [if_pos hany]
        exact setConnAuth_pairwise e _ hpw
      · rw [if_neg hany]
        show (cfg.FileSystemSpecificConfigs ++
          [({ SysMgmtdHost := e.SysMgmtdHost, Config := { connAuth := e.ConnAuth } }
            : FileSystemSpecificConfig)]).Pairwise connAuthLaterEmpty
        rw [List.pairwise_append]
        refine ⟨hpw, List.pairwise_singleton _ _, ?_⟩
        intro a ha b hb
        obtain rfl := List.mem_singleton.mp hb
        intro hhost
        exfalso
        have hno : ∀ sc ∈ cfg.FileSystemSpecificConfigs,
            e.SysMgmtdHost ≠ sc.SysMgmtdHost := by
          simpa using hany
        exact hno a ha hhost.symm
    show squashConfigForSysMgmtdHost host (parseConnAuth (applyConnAuthConfig cfg e) rest) = _
    rw [ih (applyConnAuthConfig cfg e) host hdef' hpw',
      squash_applyConnAuth cfg e host hdef hpw]
    by_cases hhost : e.SysMgmtdHost = host
    · rw [if_pos hhost, setAuth_setAuth, setAuth_connAuth]
      congr 1
      show _ = lastAuthFrom _ (e :: rest) host
      unfold lastAuthFrom
      rw [List.foldl_cons, if_pos hhost]
    · rw [if_neg hhost]
      congr 1
      show _ = lastAuthFrom _ (e :: rest) host
      unfold lastAuthFrom
      rw [List.foldl_cons, if_neg hhost]

theorem foldl_nodeStep_default :
    ∀ (ns : List nodeSpecificConfig) (acc : PluginConfig) (nodeID : String),
      (ns.foldl (nodeStep nodeID) acc).DefaultConfig
        = ((ns.filter (fun nc => nc.NodeList.contains nodeID)).map
            (fun nc => nc.DefaultConfig)).foldl beegfsConfig.overwriteFrom
            acc.DefaultConfig := by
  intro ns
  induction ns with
  | nil =>
    intro acc nodeID
    rfl
  | cons nc rest ih =>
    intro acc nodeID
    rw [List.foldl_cons]
    by_cases hc : nc.NodeList.contains nodeID = true
    · rw [List.filter_cons_of_pos (by simpa using hc), List.map_cons, List.foldl_cons, ih]
      congr 1
      unfold nodeStep
      rw [if_pos hc]
    · rw [List.filter_cons_of_neg (by simpa using hc), ih]
      congr 2
      unfold nodeStep
      rw [if_neg hc]

theorem foldl_overwriteFrom_fields :
    ∀ (ws : List beegfsConfig) (c0 : beegfsConfig),
      ((ws.foldl beegfsConfig.overwriteFrom c0).ConnInterfaces
        = lastNonEmptyList c0.ConnInterfaces (ws.map fun w => w.ConnInterfaces))
      ∧ ((ws.foldl beegfsConfig.overwriteFrom c0).ConnNetFilter
        = lastNonEmptyList c0.ConnNetFilter (ws.map fun w => w.ConnNetFilter))
      ∧ ((ws.foldl beegfsConfig.overwriteFrom c0).ConnTcpOnlyFilter
        = lastNonEmptyList c0.ConnTcpOnlyFilter (ws.map fun w => w.ConnTcpOnlyFilter))
      ∧ ((ws.foldl beegfsConfig.overwriteFrom c0).connAuth
        = (ws.map fun w => w.connAuth).foldl owAuth c0.connAuth)
      ∧ (∀ k, (∀ w ∈ ws, (mapKeys w.BeegfsClientConf).Nodup) →
          mapLookup k (ws.foldl beegfsConfig.overwriteFrom c0).BeegfsClientConf
            = lastSetOption (mapLookup k c0.BeegfsClientConf)
                (ws.map fun w => mapLookup k w.BeegfsClientConf)) := by
  intro ws
  induction ws with
  | nil =>
    intro c0
    exact ⟨rfl, rfl, rfl, rfl, fun k _ => rfl⟩
  | cons w rest ih =>
    intro c0
    have ihw := ih (c0.overwriteFrom w)
    refine ⟨?_, ?_, ?_, ?_, ?_⟩
    · rw [List.foldl_cons, ihw.1]
      unfold lastNonEmptyList
      rw [List.map_cons, List.foldl_cons]
      rfl
    · rw [List.foldl_cons, ihw.2.1]
      unfold lastNonEmptyList
      rw [List.map_cons, List.foldl_cons]
      rfl
    · rw [List.foldl_cons, ihw.2.2.1]
      unfold lastNonEmptyList
      rw [List.map_cons, List.foldl_cons]
      rfl
    · rw [List.foldl_cons, ihw.2.2.2.1, List.map_cons, List.foldl_cons]
      rfl
    · intro k hnd
      rw [List.foldl_cons,
        ihw.2.2.2.2 k (fun w' hw' => hnd w' (List.mem_cons_of_mem _ hw'))]
      unfold lastSetOption
      rw [List.map_cons, List.foldl_cons]
      congr 1
      rw [show (c0.overwriteFrom w).BeegfsClientConf
          = mapUnion c0.BeegfsClientConf w.BeegfsClientConf from rfl,
        mapLookup_mapUnion c0.BeegfsClientConf w.BeegfsClientConf
          (hnd w (List.mem_cons_self _ _)) k]
      cases mapLookup k w.BeegfsClientConf <;> rfl

theorem pairwise_of_all_empty (fs : List FileSystemSpecificConfig)
    (h : ∀ sc ∈ fs, sc.Config.connAuth = "") : fs.Pairwise connAuthLaterEmpty := by
  induction fs with
  | nil => exact List.Pairwise.nil
  | cons a t ih =>
    exact List.Pairwise.cons (fun b hb _ => h b (List.mem_cons_of_mem _ hb))
      (ih fun sc hsc => h sc (List.mem_cons_of_mem _ hsc))

theorem squash_connAuth_empty (cfg : PluginConfig) (host : String)
    (hdef : cfg.DefaultConfig.connAuth = "")
    (hall : ∀ sc ∈ cfg.FileSystemSpecificConfigs, sc.Config.connAuth = "") :
    (squashConfigForSysMgmtdHost host cfg).connAuth = "" := by
  rw [squash_eq_fold, foldl_squashStep_connAuth]
  have h1 : ∀ z ∈ (cfg.FileSystemSpecificConfigs.filter
      (fun f => host = f.SysMgmtdHost)).map (fun f => f.Config.connAuth), z = "" := by
    intro z hz
    simp only [List.mem_map, List.mem_filter] at hz
    obtain ⟨f, ⟨hf, _⟩, rfl⟩ := hz
    exact hall f hf
  rw [foldl_owAuth_zeros _ _ h1, overwriteFrom_connAuth,
    show newBeegfsConfig.connAuth = "" from rfl, owAuth_nil_left, hdef]

/-- C1 (amended): the resolved effective configuration for a backend is built by
layering lowest-to-highest: the global default, then every node-scoped fragment whose
node list contains the nodeID in file order, then authentication entries last.  The
default and node layers overwrite only fields they explicitly set — a non-empty list
replaces, a present map key overwrites that key, a non-empty secret replaces — leaving
unset fields unchanged; authentication entries, however, assign the backend's secret
unconditionally, so the last entry for a host wins even when its secret is empty. -/
theorem layered_merge_resolution :
    (∀ (cfg : PluginConfig) (auth : List connAuthConfig) (host : String),
      cfg.DefaultConfig.connAuth = "" →
      (∀ sc ∈ cfg.FileSystemSpecificConfigs, sc.Config.connAuth = "") →
      squashConfigForSysMgmtdHost host (parseConnAuth cfg auth)
        = setAuth (squashConfigForSysMgmtdHost host cfg) (lastAuthFrom "" auth host))
    ∧ (∀ (raw : pluginConfigFromFile) (nodeID : String),
        (applyNodeSpecificConfigs raw nodeID).DefaultConfig
          = ((raw.NodeSpecificConfigs.filter
              (fun nc => nc.NodeList.contains nodeID)).map
              (fun nc => nc.DefaultConfig)).foldl beegfsConfig.overwriteFrom
              raw.PluginConfig.DefaultConfig)
    ∧ (∀ (ws : List beegfsConfig) (c0 : beegfsConfig),
        ((ws.foldl beegfsConfig.overwriteFrom c0).ConnInterfaces
          = lastNonEmptyList c0.ConnInterfaces (ws.map fun w => w.ConnInterfaces))
        ∧ ((ws.foldl beegfsConfig.overwriteFrom c0).ConnNetFilter
          = lastNonEmptyList c0.ConnNetFilter (ws.map fun w => w.ConnNetFilter))
        ∧ ((ws.foldl beegfsConfig.overwriteFrom c0).ConnTcpOnlyFilter
          = lastNonEmptyList c0.ConnTcpOnlyFilter (ws.map fun w => w.ConnTcpOnlyFilter))
        ∧ ((ws.foldl beegfsConfig.overwriteFrom c0).connAuth
          = (ws.map fun w => w.connAuth).foldl owAuth c0.connAuth)
        ∧ (∀ k, (∀ w ∈ ws, (mapKeys w.BeegfsClientConf).Nodup) →
            mapLookup k (ws.foldl beegfsConfig.overwriteFrom c0).BeegfsClientConf
              = lastSetOption (mapLookup k c0.BeegfsClientConf)
                  (ws.map fun w => mapLookup k w.BeegfsClientConf))) := by
  refine ⟨?_, ?_, foldl_overwriteFrom_fields⟩
  · intro cfg auth host hdef hall
    rw [parseConnAuth_squash auth cfg host hdef (pairwise_of_all_empty _ hall),
      squash_connAuth_empty cfg host hdef hall]
  · intro raw nodeID
    rw [applyNode_eq_fold, foldl_nodeStep_default]

theorem layered_merge_resolution_witness :
    (⟨{ ConnInterfaces := ["ib0"] }, []⟩ : PluginConfig).DefaultConfig.connAuth = ""
    ∧ squashConfigForSysMgmtdHost "h"
        (parseConnAuth ⟨{ ConnInterfaces := ["ib0"] }, []⟩ [⟨"h", "s1"⟩, ⟨"h", "s2"⟩])
      = setAuth (squashConfigForSysMgmtdHost "h" ⟨{ ConnInterfaces := ["ib0"] }, []⟩)
          (lastAuthFrom "" [⟨"h", "s1"⟩, ⟨"h", "s2"⟩] "h")
    ∧ (mapKeys ({ BeegfsClientConf := [("k", "v2")] } : beegfsConfig).BeegfsClientConf).Nodup
    ∧ mapLookup "k" (([({ BeegfsClientConf := [("k", "v2")] } : beegfsConfig)]).foldl
          beegfsConfig.overwriteFrom { BeegfsClientConf := [("k", "v1")] }).BeegfsClientConf
      = lastSetOption
          (mapLookup "k" ({ BeegfsClientConf := [("k", "v1")] }
            : beegfsConfig).BeegfsClientConf)
          ([({ BeegfsClientConf := [("k", "v2")] } : beegfsConfig)].map
            fun w => mapLookup "k" w.BeegfsClientConf) :=
  ⟨rfl,
    layered_merge_resolution.1 ⟨{ ConnInterfaces := ["ib0"] }, []⟩
      [⟨"h", "s1"⟩, ⟨"h", "s2"⟩] "h" rfl (by decide),
    by decide,
    (layered_merge_resolution.2.2 [{ BeegfsClientConf := [("k", "v2")] }]
      { BeegfsClientConf := [("k", "v1")] }).2.2.2.2 "k" (by decide)⟩

theorem beegfsUrl_codec_witness :
    parseBeegfsUrl (newBeegfsUrl "127.0.0.1" "/scratch/vol1")
        = .ok ("127.0.0.1", "/scratch/vol1")
      ∧ (∃ e, parseBeegfsUrl "nfs://host/path" = .error e) :=
  ⟨beegfsUrl_codec.1 "127.0.0.1" "/scratch/vol1" (by decide) (by decide)
      (Or.inr ⟨"scratch/vol1".toList, rfl⟩),
    beegfsUrl_codec.2 "nfs://host/path" (by decide)⟩

end BeegfsCsi
